import Mathlib

/-!
# Verification of the polygraph audio-graph scheduler

A shallow embedding of the core of the `polygraph` crate: the port/graph
model (`src/lib.rs`), the sink-driven reverse traversal and the schedule
compiler (`src/scheduler.rs`).

Modelling conventions:

* Node, input-port and output-port identifiers are `Nat` (the Rust code is
  generic over hashable id types; the claims are insensitive to the id type).
* `HashMap` / `HashSet` are modelled as association lists / lists.  The list
  order plays the role of one fixed iteration order of the hash containers;
  every theorem proved for the list model holds for the particular iteration
  order the list encodes, and the general theorems below do not depend on a
  specific order.
* `u64` latency arithmetic is modelled over `ℕ`.  The only subtraction the
  code performs (`dst.max_input_latency - source_total_lat`) is shown to
  never underflow (claim C2), so truncated `ℕ` subtraction coincides with
  the machine subtraction there; additive overflow of 64-bit sample counts
  is out of scope per the spec (§7).
* Functions that can panic (`unwrap`, `assert!`, indexing) return `Option`
  (or the three-valued `DfsRes` where panic must be distinguished from
  fuel exhaustion), with `none` / `.panic` at exactly the panicking points.
* Recursion whose termination depends on graph acyclicity
  (`Scheduler::add_sink_node`, `Graph::is_connected`) is given explicit
  fuel; termination claims become fuel-sufficiency theorems.
* `Rc<()>` claim handles are modelled by their strong counts: the buffer
  allocator is a list of counts, `Rc::clone` increments the count of the
  buffer the handle refers to, `drop` decrements it.
-/

namespace Polygraph

/-! ## Association-list primitives -/

/-- `HashMap` lookup: first binding of the key, if any. -/
def lookupA {V : Type} : List (Nat × V) → Nat → Option V
  | [], _ => none
  | (k, v) :: rest, key => if k = key then some v else lookupA rest key

/-- `HashMap::insert` for a key known to be absent: append the binding. -/
def insertNewA {V : Type} (m : List (Nat × V)) (k : Nat) (v : V) : List (Nat × V) :=
  m ++ [(k, v)]

/-- `HashMap::entry(k).or_default()` followed by an in-place update: modify the
value at `k` when present, otherwise append `f default`. -/
def modifyA {V : Type} (dflt : V) (f : V → V) : List (Nat × V) → Nat → List (Nat × V)
  | [], k => [(k, f dflt)]
  | (k', v) :: rest, k =>
    if k' = k then (k', f v) :: rest else (k', v) :: modifyA dflt f rest k

/-- `HashMap::remove`: drop the binding of `k` (first occurrence). -/
def removeA {V : Type} : List (Nat × V) → Nat → List (Nat × V)
  | [], _ => []
  | (k', v) :: rest, k => if k' = k then rest else (k', v) :: removeA rest k

/-- Keys, in list order. -/
def keysA {V : Type} (m : List (Nat × V)) : List Nat := m.map Prod.fst

/-- `true` iff the list has no duplicate elements. -/
def nodupB : List Nat → Bool
  | [] => true
  | x :: xs => !xs.contains x && nodupB xs

/-! ## The port / node / graph data model (`src/lib.rs`) -/

/-- `Port<N, O>`: remote node id → set of remote port ids.  Also used as
`Port<N, I>` in the scheduler's `used_outputs`. -/
structure Port where
  conns : List (Nat × List Nat)
  deriving Repr, DecidableEq

/-- `Port::default()`. -/
def Port.empty : Port := ⟨[]⟩

/-- `Port::len`. -/
def Port.lenP (p : Port) : Nat := (p.conns.map (·.2.length)).sum

/-- `Port::is_empty` (defined as `len() == 0` in the source). -/
def Port.isEmptyP (p : Port) : Bool := p.lenP = 0

/-- `Port::insert_connection`: `self.0.entry(node).or_default().insert(port)`.
Returns `true` iff the pair was new. -/
def Port.insertConnection (p : Port) (node port : Nat) : Bool × Port :=
  match lookupA p.conns node with
  | none => (true, ⟨insertNewA p.conns node [port]⟩)
  | some ports =>
    if ports.contains port then (false, p)
    else (true, ⟨modifyA [] (fun ps => ps ++ [port]) p.conns node⟩)

/-- `Node<N, I, O>`: output port → latency, input port → connections. -/
structure GNode where
  outLats : List (Nat × Nat)
  inputs : List (Nat × Port)
  deriving Repr, DecidableEq

/-- `Graph<N, I, O>`. -/
structure Graph where
  nodes : List (Nat × GNode)
  deriving Repr, DecidableEq

/-- `Graph::get_node`. -/
def Graph.getNode (g : Graph) (n : Nat) : Option GNode := lookupA g.nodes n

/-- The edge `(u, o) → (v, i)` is present in the graph. -/
def Graph.HasEdge (g : Graph) (u o v i : Nat) : Prop :=
  ∃ node port ports, g.getNode v = some node ∧ lookupA node.inputs i = some port ∧
    lookupA port.conns u = some ports ∧ ports.contains o

/-- Some edge from `u` to `v` (ports forgotten). -/
def Graph.EdgeNN (g : Graph) (u v : Nat) : Prop := ∃ o i, g.HasEdge u o v i

/-- `v` is reachable from `u` along directed edges (reflexive-transitive). -/
def Graph.Reaches (g : Graph) (u v : Nat) : Prop :=
  Relation.ReflTransGen (fun a b => g.EdgeNN a b) u v

/-- Structural well-formedness of a graph, as maintained by the construction
API: distinct keys everywhere, no empty connection sets, and every
connection refers to an existing node and an existing output port on it. -/
def Graph.wfB (g : Graph) : Bool :=
  nodupB (keysA g.nodes) &&
  g.nodes.all fun (_, node) =>
    nodupB (keysA node.outLats) && nodupB (keysA node.inputs) &&
    node.inputs.all fun (_, port) =>
      nodupB (keysA port.conns) &&
      port.conns.all fun (u, ps) =>
        !ps.isEmpty && nodupB ps &&
        (match g.getNode u with
         | none => false
         | some src => ps.all fun p => (lookupA src.outLats p).isSome)

/-- A rank function witnessing acyclicity: strictly increasing along edges.
Checked over the finite connection lists, hence decidable on concrete
graphs. -/
def Graph.rankedB (g : Graph) (rank : Nat → Nat) : Bool :=
  g.nodes.all fun (v, node) =>
    node.inputs.all fun (_, port) =>
      port.conns.all fun (u, ps) =>
        ps.isEmpty || decide (rank u < rank v)

/-- Acyclicity, witnessed by a rank function. -/
def Graph.Acyclic (g : Graph) : Prop := ∃ rank : Nat → Nat, g.rankedB rank = true

/-! ## `is_connected` and edge insertion (`src/lib.rs`) -/

/-- One step of `Graph::is_connected`'s inner loops: iterate the input ports
of the current node and recurse into every upstream node, short-circuiting
on `true`.  `rec` is the recursive call at one unit of fuel less. -/
def icConns (rec : Nat → Option Bool) : List (Nat × List Nat) → Option Bool
  | [] => some false
  | (u, _) :: rest =>
    match rec u with
    | none => none
    | some true => some true
    | some false => icConns rec rest

def icPorts (rec : Nat → Option Bool) : List (Nat × Port) → Option Bool
  | [] => some false
  | (_, port) :: rest =>
    match icConns rec port.conns with
    | none => none
    | some true => some true
    | some false => icPorts rec rest

/-- `Graph::is_connected(from, to)`: `true` iff a directed path `to → from`
exists.  `none` models both fuel exhaustion and the panic on a missing
node. -/
def Graph.isConnected (g : Graph) : Nat → Nat → Nat → Option Bool
  | 0, _, _ => none
  | fuel + 1, frm, tgt =>
    if frm = tgt then some true
    else
      match g.getNode frm with
      | none => none
      | some node => icPorts (fun u => g.isConnected fuel u tgt) node.inputs

/-- `Graph::can_insert_edge from=(n,o) to=(m,i)`: both endpoints exist. -/
def Graph.canInsertEdge (g : Graph) (n o m i : Nat) : Bool :=
  (match g.getNode m with
   | none => false
   | some node => (lookupA node.inputs i).isSome) &&
  (match g.getNode n with
   | none => false
   | some node => (lookupA node.outLats o).isSome)

/-- `Graph::can_insert_edge_acyclic`.  `Except.error false` is `PortMissing`,
`Except.error true` is `WouldCreateCycle` (the Rust `Result<_, bool>`). -/
def Graph.canInsertEdgeAcyclic (g : Graph) (fuel n o m i : Nat) :
    Option (Except Bool Unit) :=
  if g.canInsertEdge n o m i then
    match g.isConnected fuel n m with
    | none => none
    | some true => some (Except.error true)
    | some false => some (Except.ok ())
  else some (Except.error false)

/-- The mutation performed by `try_insert_edge_acyclic` on success:
`get_node_mut(m).unwrap().get_port_mut(i).unwrap().insert_connection(n, o)`.
`none` at the `unwrap` panics. -/
def Graph.insertConnectionAt (g : Graph) (m i n o : Nat) : Option (Bool × Graph) :=
  match g.getNode m with
  | none => none
  | some node =>
    match lookupA node.inputs i with
    | none => none
    | some port =>
      some ((port.insertConnection n o).1,
        ⟨modifyA ⟨[], []⟩
          (fun nd => { nd with inputs :=
            (modifyA Port.empty (fun _ => (port.insertConnection n o).2) nd.inputs i) })
          g.nodes m⟩)

/-- `Graph::try_insert_edge_acyclic`: returns the `Result<bool, bool>` and
the resulting graph.  `none` models fuel exhaustion of the cycle check (or
an unreachable panic). -/
def Graph.tryInsertEdgeAcyclic (g : Graph) (fuel n o m i : Nat) :
    Option (Except Bool Bool × Graph) :=
  match g.canInsertEdgeAcyclic fuel n o m i with
  | none => none
  | some (Except.error e) => some (Except.error e, g)
  | some (Except.ok ()) =>
    match g.insertConnectionAt m i n o with
    | none => none
    | some (isNew, g') => some (Except.ok isNew, g')

/-! ## Sink-driven reverse traversal (`Scheduler::add_sink_node`)

The `Scheduler` in the source keeps the graph reference, the visit `order`,
and the intermediate map (node → `UsedNode { max_delay, used_outputs }`;
the contains/insert sites refer to this same map).  The recursion is given
explicit fuel; a `DfsRes` distinguishes a panic from fuel exhaustion. -/

/-- Result of a fuel-limited traversal: a Rust panic, fuel exhaustion
(the Rust code would still be recursing), or normal completion. -/
inductive DfsRes (α : Type) where
  | panic
  | fuelOut
  | ok (a : α)
  deriving Repr, DecidableEq

/-- `UsedNode`: per reverse-reachable node, the maximum input latency
(`max_delay` in the source) and the actually used outgoing connections. -/
structure UsedNode where
  maxDelay : Nat
  usedOutputs : List (Nat × Port)
  deriving Repr, DecidableEq

/-- The mutable state of `Scheduler`: the visit order and the intermediate
map. -/
structure SchedState where
  order : List Nat
  inter : List (Nat × UsedNode)
  deriving Repr, DecidableEq

def SchedState.empty : SchedState := ⟨[], []⟩

/-- Innermost loop of `add_sink_node`: for each `source_port_id`, record the
connection `(index, dest_port_id)` in the source node's `used_outputs` and
fold the latency maximum.  `none` models the panics on a missing graph node
or a missing output latency. -/
def asnSrcPorts (g : Graph) (index destPortId srcNodeId srcInputLat : Nat) :
    List Nat → List (Nat × Port) → Nat → Option (List (Nat × Port) × Nat)
  | [], uo, maxLat => some (uo, maxLat)
  | srcPortId :: rest, uo, maxLat =>
    let uo' := modifyA Port.empty
      (fun p => (p.insertConnection index destPortId).2) uo srcPortId
    match g.getNode srcNodeId with
    | none => none
    | some srcNode =>
      match lookupA srcNode.outLats srcPortId with
      | none => none
      | some srcPortLat =>
        asnSrcPorts g index destPortId srcNodeId srcInputLat rest uo'
          (max maxLat (srcInputLat + srcPortLat))

/-- Middle loop of `add_sink_node`: for each upstream `(source_node_id,
source_port_ids)` connection of one input port, recurse first (`rec` is the
recursive call with one unit of fuel less), then update the source node's
intermediate record. -/
def asnConns (g : Graph) (rec : SchedState → Nat → DfsRes SchedState)
    (index destPortId : Nat) :
    List (Nat × List Nat) → SchedState → Nat → DfsRes (SchedState × Nat)
  | [], st, maxLat => .ok (st, maxLat)
  | (srcNodeId, srcPortIds) :: rest, st, maxLat =>
    match rec st srcNodeId with
    | .panic => .panic
    | .fuelOut => .fuelOut
    | .ok st' =>
      match lookupA st'.inter srcNodeId with
      | none => .panic
      | some srcRec =>
        match asnSrcPorts g index destPortId srcNodeId srcRec.maxDelay
            srcPortIds srcRec.usedOutputs maxLat with
        | none => .panic
        | some (uo', maxLat') =>
          asnConns g rec index destPortId rest
            { st' with inter := (modifyA ⟨0, []⟩
                (fun r => { r with usedOutputs := uo' }) st'.inter srcNodeId) }
            maxLat'

/-- Outer loop of `add_sink_node` over the node's input ports. -/
def asnInputs (g : Graph) (rec : SchedState → Nat → DfsRes SchedState)
    (index : Nat) :
    List (Nat × Port) → SchedState → Nat → DfsRes (SchedState × Nat)
  | [], st, maxLat => .ok (st, maxLat)
  | (destPortId, destPort) :: rest, st, maxLat =>
    match asnConns g rec index destPortId destPort.conns st maxLat with
    | .panic => .panic
    | .fuelOut => .fuelOut
    | .ok (st', maxLat') => asnInputs g rec index rest st' maxLat'

/-- `Scheduler::add_sink_node`.  Early return when the node is already in
the intermediate map; otherwise traverse all upstream edges recursively,
append the node to `order` and insert its `UsedNode` record (the final
`assert!(… .is_none())` panics if it is somehow present). -/
def addSinkNode (g : Graph) : Nat → SchedState → Nat → DfsRes SchedState
  | 0, _, _ => .fuelOut
  | fuel + 1, st, index =>
    if (lookupA st.inter index).isSome then .ok st
    else
      match g.getNode index with
      | none => .panic
      | some node =>
        match asnInputs g (addSinkNode g fuel) index node.inputs st 0 with
        | .panic => .panic
        | .fuelOut => .fuelOut
        | .ok (st', maxLat) =>
          if (lookupA st'.inter index).isSome then .panic
          else .ok { order := st'.order ++ [index],
                     inter := insertNewA st'.inter index ⟨maxLat, []⟩ }

/-! ## The schedule compiler (`Scheduler::compile_map_delays`)

We model `compile`, i.e. `compile_map_delays` at the identity delay map
(`f = |x| x`), so all delays stay `ℕ`. -/

/-- `InputSource<N, O>`. -/
inductive InputSource where
  | graphNode (delay : Nat) (nodeId : Nat) (portId : Nat)
  | sumNode (index : Nat)
  deriving Repr, DecidableEq

/-- `InputSource::delay`. -/
def InputSource.delayOf : InputSource → Nat
  | .graphNode d _ _ => d
  | .sumNode _ => 0

/-- `NodeOutput` as constructed by the compiler: buffer id and maximal
downstream delay. -/
structure NodeOutput where
  bufId : Nat
  maxDelay : Nat
  deriving Repr, DecidableEq

/-- `NodeIO` as constructed by the compiler: per-input source bindings and
per-output sinks (`none` for unused outputs). -/
structure NodeIO where
  inputs : List (Nat × Option InputSource)
  outputs : List (Nat × Option NodeOutput)
  deriving Repr, DecidableEq

/-- `SumNode`: the two summands (`[lhs, rhs]`) and the output buffer. -/
structure SumNode where
  summands : InputSource × InputSource
  outputBuf : Nat
  deriving Repr, DecidableEq

/-- `Task<N>`. -/
inductive Task where
  | sum (index : Nat)
  | node (id : Nat)
  deriving Repr, DecidableEq

/-- `GraphSchedule`. -/
structure GraphSchedule where
  numBuffers : Nat
  nodeIO : List (Nat × NodeIO)
  sumNodes : List SumNode
  tasks : List Task
  deriving Repr, DecidableEq

/-- The `BufferAllocator`, modelled by the strong count of each slot's
`Rc<()>`.  A fresh slot has count 1 (the allocator's own handle). -/
abbrev Allocator := List Nat

/-- `BufferAllocator::find_free_buffer`: first slot with strong count 1,
else push a new slot. -/
def findFreeBuffer (alloc : Allocator) : Nat × Allocator :=
  match alloc.findIdx? (fun c => c = 1) with
  | some i => (i, alloc)
  | none => (alloc.length, alloc ++ [1])

/-- `Rc::clone` of the handle of buffer `b`. -/
def bumpH (alloc : Allocator) (b : Nat) : Allocator :=
  alloc.set b (alloc.getD b 0 + 1)

/-- `drop` of a handle of buffer `b`. -/
def dropH (alloc : Allocator) (b : Nat) : Allocator :=
  alloc.set b (alloc.getD b 0 - 1)

/-- The `claims` map: destination node → destination port → (claim handle's
buffer id, input source). -/
abbrev Claims := List (Nat × List (Nat × (Nat × InputSource)))

/-- The per-output `repeats` bucket: destination node → list of
`(dest_port, (handle buffer id, delay))`. -/
abbrev Repeats := List (Nat × List (Nat × (Nat × Nat)))

/-- The `repeat_assignees` bucket: source port → `Repeats`. -/
abbrev RepeatAssignees := List (Nat × Repeats)

/-- `claims.get(n).is_some_and(|map| map.contains_key(p))`. -/
def claimedAt (claims : Claims) (n p : Nat) : Bool :=
  match lookupA claims n with
  | none => false
  | some m => (lookupA m p).isSome

/-- Step 2d's inner loop over the destination ports of one downstream
connection: clone the claim handle for each port; already-claimed ports go
to the `prev_assigned` bucket, fresh ports record a `Direct` claim. -/
def cmpDestPorts (nodeId srcPortId bufId delay destNodeId : Nat) :
    List Nat → Allocator → Claims → List (Nat × (Nat × Nat)) →
    Allocator × Claims × List (Nat × (Nat × Nat))
  | [], alloc, claims, prev => (alloc, claims, prev)
  | destPortId :: rest, alloc, claims, prev =>
    let alloc' := bumpH alloc bufId
    if claimedAt claims destNodeId destPortId then
      cmpDestPorts nodeId srcPortId bufId delay destNodeId rest alloc' claims
        (prev ++ [(destPortId, (bufId, delay))])
    else
      cmpDestPorts nodeId srcPortId bufId delay destNodeId rest alloc'
        (modifyA []
          (fun m => insertNewA m destPortId
            (bufId, .graphNode delay nodeId srcPortId)) claims destNodeId)
        prev

/-- Step 2d's loop over the downstream connections of one used output.
`none` models the panic of indexing `intermediate[dest_node_id]`. -/
def cmpConns (inter : List (Nat × UsedNode))
    (nodeId srcPortId bufId srcTotalLat : Nat) :
    List (Nat × List Nat) → Allocator → Claims → Nat → Repeats →
    Option (Allocator × Claims × Nat × Repeats)
  | [], alloc, claims, maxDelay, repeats => some (alloc, claims, maxDelay, repeats)
  | (destNodeId, destPortIds) :: rest, alloc, claims, maxDelay, repeats =>
    match lookupA inter destNodeId with
    | none => none
    | some destRec =>
      let delay := destRec.maxDelay - srcTotalLat
      match cmpDestPorts nodeId srcPortId bufId delay destNodeId destPortIds
          alloc claims [] with
      | (alloc', claims', prev) =>
        cmpConns inter nodeId srcPortId bufId srcTotalLat rest alloc' claims'
          (max maxDelay delay) (repeats ++ [(destNodeId, prev)])

/-- Step 2's loop over the node's outputs: unused outputs are bound to
`none`; used outputs get a freshly found buffer.  `none` models the
`assert!(!connections.is_empty())` and downstream panics. -/
def cmpOutputs (inter : List (Nat × UsedNode)) (nodeId nodeMaxDelay : Nat) :
    List (Nat × Nat) → List (Nat × Port) → Allocator → Claims →
    List (Nat × Option NodeOutput) → RepeatAssignees →
    Option (Allocator × Claims × List (Nat × Option NodeOutput) × RepeatAssignees)
  | [], _, alloc, claims, outputs, ra => some (alloc, claims, outputs, ra)
  | (srcPortId, outputLat) :: rest, uo, alloc, claims, outputs, ra =>
    match lookupA uo srcPortId with
    | none =>
      cmpOutputs inter nodeId nodeMaxDelay rest uo alloc claims
        (outputs ++ [(srcPortId, none)]) ra
    | some srcPort =>
      if srcPort.isEmptyP then none
      else
        match findFreeBuffer alloc with
        | (bufId, alloc₁) =>
          match cmpConns inter nodeId srcPortId bufId (nodeMaxDelay + outputLat)
              srcPort.conns alloc₁ claims 0 [] with
          | none => none
          | some (alloc₂, claims₂, maxDelay, repeats) =>
            cmpOutputs inter nodeId nodeMaxDelay rest uo alloc₂ claims₂
              (outputs ++ [(srcPortId, some ⟨bufId, maxDelay⟩)])
              (ra ++ [(srcPortId, repeats)])

/-- Step 3's inner loop over the repeated ports of one destination: replace
the prior claim by a freshly allocated sum, dropping zero-delay handles
before the allocation and the others at the end of the iteration. -/
def cmpSumPorts (nodeId srcPortId : Nat) :
    List (Nat × (Nat × Nat)) → List (Nat × (Nat × InputSource)) → Allocator →
    List SumNode → List Task →
    Option (List (Nat × (Nat × InputSource)) × Allocator × List SumNode × List Task)
  | [], dc, alloc, sums, tasks => some (dc, alloc, sums, tasks)
  | (destPortId, (otherOldHandle, delay)) :: rest, dc, alloc, sums, tasks =>
    match lookupA dc destPortId with
    | none => none
    | some (thisOldHandle, lhs) =>
      let dc₁ := removeA dc destPortId
      let alloc₁ := if delay = 0 then dropH alloc otherOldHandle else alloc
      let alloc₂ := if lhs.delayOf = 0 then dropH alloc₁ thisOldHandle else alloc₁
      match findFreeBuffer alloc₂ with
      | (outputBuf, alloc₃) =>
        let index := sums.length
        if (lookupA dc₁ destPortId).isSome then none
        else
          let alloc₄ := bumpH alloc₃ outputBuf
          let alloc₅ := if delay = 0 then alloc₄ else dropH alloc₄ otherOldHandle
          let alloc₆ := if lhs.delayOf = 0 then alloc₅ else dropH alloc₅ thisOldHandle
          cmpSumPorts nodeId srcPortId rest
            (insertNewA dc₁ destPortId (outputBuf, .sumNode index)) alloc₆
            (sums ++ [⟨(lhs, .graphNode delay nodeId srcPortId), outputBuf⟩])
            (tasks ++ [.sum index])

/-- Step 3's loop over destinations (`claims.get_mut(dest).unwrap()`). -/
def cmpSumConns (nodeId srcPortId : Nat) :
    Repeats → Claims → Allocator → List SumNode → List Task →
    Option (Claims × Allocator × List SumNode × List Task)
  | [], claims, alloc, sums, tasks => some (claims, alloc, sums, tasks)
  | (destNodeId, prev) :: rest, claims, alloc, sums, tasks =>
    match lookupA claims destNodeId with
    | none => none
    | some dc =>
      match cmpSumPorts nodeId srcPortId prev dc alloc sums tasks with
      | none => none
      | some (dc', alloc', sums', tasks') =>
        cmpSumConns nodeId srcPortId rest
          (modifyA [] (fun _ => dc') claims destNodeId) alloc' sums' tasks'

/-- Step 3's loop over outputs with repeat buckets. -/
def cmpSums (nodeId : Nat) :
    RepeatAssignees → Claims → Allocator → List SumNode → List Task →
    Option (Claims × Allocator × List SumNode × List Task)
  | [], claims, alloc, sums, tasks => some (claims, alloc, sums, tasks)
  | (srcPortId, repeats) :: rest, claims, alloc, sums, tasks =>
    match cmpSumConns nodeId srcPortId repeats claims alloc sums tasks with
    | none => none
    | some (claims', alloc', sums', tasks') =>
      cmpSums nodeId rest claims' alloc' sums' tasks'

/-- Step 4: finalise the current node's inputs, dropping each claimed
handle (`insert_new` panics on a duplicate input port id). -/
def cmpFinalize : List (Nat × Port) → List (Nat × (Nat × InputSource)) →
    Allocator → List (Nat × Option InputSource) →
    Option (List (Nat × (Nat × InputSource)) × Allocator × List (Nat × Option InputSource))
  | [], claimed, alloc, inputs => some (claimed, alloc, inputs)
  | (destPortId, _) :: rest, claimed, alloc, inputs =>
    if (lookupA inputs destPortId).isSome then none
    else
      match lookupA claimed destPortId with
      | none => cmpFinalize rest claimed alloc (inputs ++ [(destPortId, none)])
      | some (handle, source) =>
        cmpFinalize rest (removeA claimed destPortId) (dropH alloc handle)
          (inputs ++ [(destPortId, some source)])

/-- The compiler's threaded state. -/
structure CompSt where
  alloc : Allocator
  claims : Claims
  nodeIO : List (Nat × NodeIO)
  sumNodes : List SumNode
  tasks : List Task
  deriving Repr, DecidableEq

/-- One iteration of `compile_map_delays`' main loop, for one node of
`order`. -/
def compileStep (g : Graph) (inter : List (Nat × UsedNode)) (cs : CompSt)
    (nodeId : Nat) : Option CompSt :=
  match lookupA inter nodeId with
  | none => none
  | some urec =>
    let tasks₀ := cs.tasks ++ [.node nodeId]
    match g.getNode nodeId with
    | none => none
    | some gnode =>
      match cmpOutputs inter nodeId urec.maxDelay gnode.outLats urec.usedOutputs
          cs.alloc cs.claims [] [] with
      | none => none
      | some (alloc₁, claims₁, outputs, ra) =>
        match cmpSums nodeId ra claims₁ alloc₁ cs.sumNodes tasks₀ with
        | none => none
        | some (claims₂, alloc₂, sums₂, tasks₂) =>
          match lookupA claims₂ nodeId with
          | none =>
            if (lookupA cs.nodeIO nodeId).isSome then none
            else some ⟨alloc₂, claims₂,
              insertNewA cs.nodeIO nodeId ⟨[], outputs⟩, sums₂, tasks₂⟩
          | some claimed =>
            match cmpFinalize gnode.inputs claimed alloc₂ [] with
            | none => none
            | some (claimed', alloc₃, inputs) =>
              if (lookupA cs.nodeIO nodeId).isSome then none
              else some ⟨alloc₃, modifyA [] (fun _ => claimed') claims₂ nodeId,
                insertNewA cs.nodeIO nodeId ⟨inputs, outputs⟩, sums₂, tasks₂⟩

/-- The main loop of `compile_map_delays` over `order`. -/
def compileGo (g : Graph) (inter : List (Nat × UsedNode)) :
    List Nat → CompSt → Option CompSt
  | [], cs => some cs
  | nodeId :: rest, cs =>
    match compileStep g inter cs nodeId with
    | none => none
    | some cs' => compileGo g inter rest cs'

/-- `Scheduler::compile` (i.e. `compile_map_delays(|x| x)`). -/
def SchedState.compile (g : Graph) (st : SchedState) : Option GraphSchedule :=
  match compileGo g st.inter st.order ⟨[], [], [], [], []⟩ with
  | none => none
  | some cs => some ⟨cs.alloc.length, cs.nodeIO, cs.sumNodes, cs.tasks⟩

/-! ## Derived notions used in the specifications of the claims -/

/-- `a` occurs strictly before `b` in the list `l`. -/
def beforeL {α : Type} (l : List α) (a b : α) : Prop :=
  ∃ i j : Nat, i < j ∧ l[i]? = some a ∧ l[j]? = some b

/-- The latency recorded for node `u` in the intermediate map (`0` when
absent). -/
def interLat (inter : List (Nat × UsedNode)) (u : Nat) : Nat :=
  match lookupA inter u with
  | some r => r.maxDelay
  | none => 0

/-- The declared latency of output `p` of node `u` (`0` when absent). -/
def latOf (g : Graph) (u p : Nat) : Nat :=
  match g.getNode u with
  | some src =>
    match lookupA src.outLats p with
    | some l => l
    | none => 0
  | none => 0

/-- A used-outputs table records the connection `o → (v, i)`. -/
def PortEdge (uo : List (Nat × Port)) (o v i : Nat) : Prop :=
  ∃ port ps, lookupA uo o = some port ∧ lookupA port.conns v = some ps ∧ i ∈ ps

/-- The scheduler state records the used edge `(u, o) → (v, i)`. -/
def UsedEdge (inter : List (Nat × UsedNode)) (u o v i : Nat) : Prop :=
  ∃ r, lookupA inter u = some r ∧ PortEdge r.usedOutputs o v i

/-- The reference value of `max_input_latency`: maximum over all incoming
edges of the recorded upstream latency plus the output latency, `0` when
there are none (claim C1's right-hand side). -/
def maxInLatSpec (g : Graph) (inter : List (Nat × UsedNode)) (node : GNode) : Nat :=
  node.inputs.foldl
    (fun acc pr =>
      pr.2.conns.foldl
        (fun acc2 c =>
          c.2.foldl
            (fun acc3 p => max acc3 (interLat inter c.1 + latOf g c.1 p))
            acc2)
        acc)
    0

/-- All `(node, port, delay)` triples reachable from an input source through
the summand chains of `sumNodes` (with recursion fuel; `sums.length`
suffices since `lhs` chains only refer to earlier indices). -/
def chainList (sums : List SumNode) : Nat → InputSource → List (Nat × Nat × Nat)
  | _, .graphNode d u o => [(u, o, d)]
  | 0, .sumNode _ => []
  | f + 1, .sumNode k =>
    match sums.get? k with
    | none => []
    | some sn => chainList sums f sn.summands.1 ++ chainList sums f sn.summands.2

/-- All sum indices reachable from an input source through summand chains. -/
def chainSums (sums : List SumNode) : Nat → InputSource → List Nat
  | _, .graphNode _ _ _ => []
  | 0, .sumNode k => [k]
  | f + 1, .sumNode k =>
    match sums.get? k with
    | none => [k]
    | some sn => k :: (chainSums sums f sn.summands.1 ++ chainSums sums f sn.summands.2)

/-! ## Prop-level characterizations of `wfB` and `rankedB` -/

/-- `Graph.wfB` in universally quantified form. -/
def WfG (g : Graph) : Prop :=
  (keysA g.nodes).Nodup ∧
  ∀ v node, (v, node) ∈ g.nodes →
    (keysA node.outLats).Nodup ∧ (keysA node.inputs).Nodup ∧
    ∀ i port, (i, port) ∈ node.inputs →
      (keysA port.conns).Nodup ∧
      ∀ u ps, (u, ps) ∈ port.conns →
        ps ≠ [] ∧ ps.Nodup ∧
        ∃ src, g.getNode u = some src ∧ ∀ p ∈ ps, (lookupA src.outLats p).isSome

/-- `Graph.rankedB` in universally quantified form. -/
def RankedG (g : Graph) (rank : Nat → Nat) : Prop :=
  ∀ v node i port u ps, (v, node) ∈ g.nodes → (i, port) ∈ node.inputs →
    (u, ps) ∈ port.conns → ps ≠ [] → rank u < rank v

/-! ## The traversal invariant -/

/-- Invariant of the scheduler state between `add_sink_node` calls.
`pend` is the set of nodes whose traversal is in progress (the DFS stack).
-/
structure SchedInv (g : Graph) (st : SchedState) (pend : Nat → Prop) : Prop where
  orderKeys : st.order = keysA st.inter
  nodup : (keysA st.inter).Nodup
  latEq : ∀ x r, lookupA st.inter x = some r →
    ∃ gn, g.getNode x = some gn ∧ r.maxDelay = maxInLatSpec g st.inter gn
  usedSound : ∀ u o v i, UsedEdge st.inter u o v i →
    g.HasEdge u o v i ∧ u ∈ keysA st.inter ∧ (v ∈ keysA st.inter ∨ pend v) ∧
      (v ∈ keysA st.inter → beforeL st.order u v)
  usedComplete : ∀ x, x ∈ keysA st.inter → ∀ u o i, g.HasEdge u o x i →
    u ∈ keysA st.inter ∧ UsedEdge st.inter u o x i
  pendDisj : ∀ x, pend x → x ∉ keysA st.inter

/-- Entries only grow: latencies are never changed once recorded, recorded
connections persist. -/
def Preserve (st st' : SchedState) : Prop :=
  ∀ x r, lookupA st.inter x = some r → ∃ r', lookupA st'.inter x = some r' ∧
    r'.maxDelay = r.maxDelay ∧
    ∀ o v i, PortEdge r.usedOutputs o v i → PortEdge r'.usedOutputs o v i

/-- The new nodes are appended identically to `order` and to the key list,
and all reach `n`. -/
def DeltaTo (g : Graph) (st st' : SchedState) (n : Nat) : Prop :=
  ∃ Δ, st'.order = st.order ++ Δ ∧ keysA st'.inter = keysA st.inter ++ Δ ∧
    ∀ x ∈ Δ, g.Reaches x n

/-- Specification of a recursive call of `add_sink_node` (used as the
induction hypothesis for the loop lemmas). -/
def RecSpec (g : Graph) (rank : Nat → Nat)
    (rec : SchedState → Nat → DfsRes SchedState) : Prop :=
  ∀ st n st' (pend : Nat → Prop), rec st n = .ok st' → SchedInv g st pend →
    (∀ x, pend x → rank n < rank x) →
    SchedInv g st' pend ∧ Preserve st st' ∧ DeltaTo g st st' n ∧ n ∈ keysA st'.inter

/-! ## Totality: with enough fuel the traversal returns `ok` -/

/-- Every recursive call on a node of rank below `k` returns `ok` (used as
the fuel-adequacy induction hypothesis). -/
def RecTotalBelow (g : Graph) (rank : Nat → Nat)
    (rec : SchedState → Nat → DfsRes SchedState) (k : Nat) : Prop :=
  ∀ st m (pend : Nat → Prop), rank m < k → (g.getNode m).isSome →
    SchedInv g st pend → (∀ x, pend x → rank m < rank x) →
    ∃ st', rec st m = .ok st'

/-- A source referencing only sum indices below `L`. -/
def SrcBound (L : Nat) (src : InputSource) : Prop :=
  ∀ j, src = .sumNode j → j < L

/-- Well-formed sum list: every summand pair has a direct (`graphNode`) right
side and a left side referring only to earlier sums. -/
def SumsWF (sums : List SumNode) : Prop :=
  ∀ (k : Nat) (s : SumNode), sums[k]? = some s →
    (∃ d u o, s.summands.2 = .graphNode d u o) ∧
    ∀ j, s.summands.1 = .sumNode j → j < k

/-- Claim lookup: destination node, then destination port. -/
def lookupC (claims : Claims) (v i : Nat) : Option (Nat × InputSource) :=
  match lookupA claims v with
  | none => none
  | some dc => lookupA dc i

/-- All sources in a per-destination claim map reference sums below `L`. -/
def DcBound (L : Nat) (dc : List (Nat × (Nat × InputSource))) : Prop :=
  ∀ e ∈ dc, SrcBound L e.2.2

/-- All sources in the claims map reference sums below `L`. -/
def ClaimsBound (L : Nat) (claims : Claims) : Prop :=
  ∀ c ∈ claims, DcBound L c.2

/-! ## Structural tidiness of the intermediate map -/

/-- Tidy used-outputs table: duplicate-free keys at each level, no empty
entries. -/
def TidyUO (uo : List (Nat × Port)) : Prop :=
  (keysA uo).Nodup ∧ ∀ o port, (o, port) ∈ uo →
    (keysA port.conns).Nodup ∧ port.conns ≠ [] ∧
    ∀ v ps, (v, ps) ∈ port.conns → ps.Nodup ∧ ps ≠ []

/-- Every recorded node has a tidy used-outputs table. -/
def TidyInter (inter : List (Nat × UsedNode)) : Prop :=
  ∀ x r, lookupA inter x = some r → TidyUO r.usedOutputs

/-- The recursive call preserves tidiness of the intermediate map. -/
def RecTidy (rec : SchedState → Nat → DfsRes SchedState) : Prop :=
  ∀ st n st', rec st n = .ok st' → TidyInter st.inter → TidyInter st'.inter

/-! ## The per-claim chain invariant -/

/-- The delay the compiler computes for the edge `(u,o) → v`. -/
def delaySpec (g : Graph) (inter : List (Nat × UsedNode)) (u o v : Nat) : Nat :=
  interLat inter v - (interLat inter u + latOf g u o)

/-- The chain rooted at `src` enumerates exactly the producer pairs in `P`,
each exactly once, with the compiler's delay; it contains one sum fewer
than leaves and refers only to existing sums. -/
structure ChainOK (g : Graph) (inter : List (Nat × UsedNode)) (sums : List SumNode)
    (v : Nat) (src : InputSource) (P : Nat → Nat → Prop) : Prop where
  memIff : ∀ u o d, (u, o, d) ∈ chainList sums sums.length src ↔
    (P u o ∧ d = delaySpec g inter u o v)
  nodupFst : ((chainList sums sums.length src).map
    (fun t => (t.1, t.2.1))).Nodup
  countEq : (chainSums sums sums.length src).length + 1 =
    (chainList sums sums.length src).length
  bound : SrcBound sums.length src
  nonempty : chainList sums sums.length src ≠ []

/-! ## Pending repeat-assignment triples and producer predicates -/

/-- The `(output, destination node, destination port)` triples recorded in
one output's repeat bucket. -/
def Rtriples (o : Nat) : Repeats → List (Nat × Nat × Nat)
  | [] => []
  | r :: rest => r.2.map (fun pr => (o, r.1, pr.1)) ++ Rtriples o rest

/-- All pending triples of a repeat-assignee list. -/
def Btriples : RepeatAssignees → List (Nat × Nat × Nat)
  | [] => []
  | b :: ra => Rtriples b.1 b.2 ++ Btriples ra

/-- Producers already delivered into input `(v, j)` while node `w`'s repeat
triples `B` are still pending. -/
def sumP (inter : List (Nat × UsedNode)) (done : List Nat) (w : Nat)
    (B : List (Nat × Nat × Nat)) (v j u o : Nat) : Prop :=
  (UsedEdge inter u o v j ∧ u ∈ done) ∨
  (u = w ∧ UsedEdge inter w o v j ∧ (o, v, j) ∉ B)

/-- Producers already delivered into input `(v, j)` while the outputs in
`rem` are still to be scanned and the triples `B` are pending. -/
def stepP (inter : List (Nat × UsedNode)) (done : List Nat) (w : Nat)
    (rem : List (Nat × Nat)) (B : List (Nat × Nat × Nat)) (v j u o : Nat) : Prop :=
  (UsedEdge inter u o v j ∧ u ∈ done) ∨
  (u = w ∧ UsedEdge inter w o v j ∧ o ∉ keysA rem ∧ (o, v, j) ∉ B)

/-! ## Duplicate-free keys of the claims tables -/

def ClaimsTidy (claims : Claims) : Prop :=
  (keysA claims).Nodup ∧ ∀ v dc, lookupA claims v = some dc → (keysA dc).Nodup

/-! ## The compile-phase boundary invariant for claims C2 and C5 -/

/-- Invariant of the compiler's claims, sums and node-IO tables after the
nodes of `done` have been processed by the main loop. -/
structure CmpInv2 (g : Graph) (inter : List (Nat × UsedNode)) (done : List Nat)
    (cs : CompSt) : Prop where
  hwfs : SumsWF cs.sumNodes
  tidy : ClaimsTidy cs.claims
  claimOK : ∀ v j buf src, lookupC cs.claims v j = some (buf, src) →
    ChainOK g inter cs.sumNodes v src
      (fun u o => UsedEdge inter u o v j ∧ u ∈ done)
  claimNone : ∀ v j, v ∉ done → lookupC cs.claims v j = none →
    ∀ u o, ¬ (UsedEdge inter u o v j ∧ u ∈ done)
  doneNone : ∀ v, v ∈ done → ∀ j, lookupC cs.claims v j = none
  claimDomV : ∀ v j, (lookupC cs.claims v j).isSome →
    ∃ u o, UsedEdge inter u o v j
  ioSpec : ∀ v nio, lookupA cs.nodeIO v = some nio →
    ∀ j src, lookupA nio.inputs j = some (some src) →
      ChainOK g inter cs.sumNodes v src (fun u o => UsedEdge inter u o v j)
  ioCom : ∀ v, v ∈ done → ∀ j u o, UsedEdge inter u o v j →
    ∃ nio src, lookupA cs.nodeIO v = some nio ∧
      lookupA nio.inputs j = some (some src)

/-! ## Concrete scenario graphs from the specification -/

/-- S4: the linear chain `A.out(4) → B`, `B.out(6) → C`, `C.out(9) → D`
with sink `D` (nodes 0–3). -/
def gS4 : Graph := ⟨[
  (0, ⟨[(0, 4)], []⟩),
  (1, ⟨[(0, 6)], [(0, ⟨[(0, [0])]⟩)]⟩),
  (2, ⟨[(0, 9)], [(0, ⟨[(1, [0])]⟩)]⟩),
  (3, ⟨[], [(0, ⟨[(2, [0])]⟩)]⟩)]⟩

/-- S5: three sources of latency 6, 8, 13 into one sink input (nodes 0–3). -/
def gS5 : Graph := ⟨[
  (0, ⟨[(0, 6)], []⟩),
  (1, ⟨[(0, 8)], []⟩),
  (2, ⟨[(0, 13)], []⟩),
  (3, ⟨[], [(0, ⟨[(0, [0]), (1, [0]), (2, [0])]⟩)]⟩)]⟩

/-- S7: two sources of latency 3 and 7 into one sink input (nodes 0–2). -/
def gS7 : Graph := ⟨[
  (0, ⟨[(0, 3)], []⟩),
  (1, ⟨[(0, 7)], []⟩),
  (2, ⟨[], [(0, ⟨[(0, [0]), (1, [0])]⟩)]⟩)]⟩

/-- The scheduler state after `add_sink_node(D)` on S4. -/
def st4 : SchedState := ⟨[0, 1, 2, 3],
  [(0, ⟨0, [(0, ⟨[(1, [0])]⟩)]⟩),
   (1, ⟨4, [(0, ⟨[(2, [0])]⟩)]⟩),
   (2, ⟨10, [(0, ⟨[(3, [0])]⟩)]⟩),
   (3, ⟨19, []⟩)]⟩

/-- The schedule compiled from S4. -/
def sched4 : GraphSchedule := ⟨2,
  [(0, ⟨[], [(0, some ⟨0, 0⟩)]⟩),
   (1, ⟨[(0, some (.graphNode 0 0 0))], [(0, some ⟨1, 0⟩)]⟩),
   (2, ⟨[(0, some (.graphNode 0 1 0))], [(0, some ⟨0, 0⟩)]⟩),
   (3, ⟨[(0, some (.graphNode 0 2 0))], []⟩)],
  [],
  [.node 0, .node 1, .node 2, .node 3]⟩

/-- The scheduler state after `add_sink_node(Sink)` on S5. -/
def st5 : SchedState := ⟨[0, 1, 2, 3],
  [(0, ⟨0, [(0, ⟨[(3, [0])]⟩)]⟩),
   (1, ⟨0, [(0, ⟨[(3, [0])]⟩)]⟩),
   (2, ⟨0, [(0, ⟨[(3, [0])]⟩)]⟩),
   (3, ⟨13, []⟩)]⟩

/-- The schedule compiled from S5. -/
def sched5 : GraphSchedule := ⟨3,
  [(0, ⟨[], [(0, some ⟨0, 7⟩)]⟩),
   (1, ⟨[], [(0, some ⟨1, 5⟩)]⟩),
   (2, ⟨[], [(0, some ⟨0, 0⟩)]⟩),
   (3, ⟨[(0, some (.sumNode 1))], []⟩)],
  [⟨(.graphNode 7 0 0, .graphNode 5 1 0), 2⟩,
   ⟨(.sumNode 0, .graphNode 0 2 0), 0⟩],
  [.node 0, .node 1, .sum 0, .node 2, .sum 1, .node 3]⟩

/-- The scheduler state after `add_sink_node(C)` on S7. -/
def st7 : SchedState := ⟨[0, 1, 2],
  [(0, ⟨0, [(0, ⟨[(2, [0])]⟩)]⟩),
   (1, ⟨0, [(0, ⟨[(2, [0])]⟩)]⟩),
   (2, ⟨7, []⟩)]⟩

/-- The schedule compiled from S7. -/
def sched7 : GraphSchedule := ⟨2,
  [(0, ⟨[], [(0, some ⟨0, 4⟩)]⟩),
   (1, ⟨[], [(0, some ⟨1, 0⟩)]⟩),
   (2, ⟨[(0, some (.sumNode 0))], []⟩)],
  [⟨(.graphNode 4 0 0, .graphNode 0 1 0), 1⟩],
  [.node 0, .node 1, .sum 0, .node 2]⟩

/-- The S4 graph after inserting the extra edge `A.out(0) → D.in(0)`. -/
def gS4b : Graph := ⟨[
  (0, ⟨[(0, 4)], []⟩),
  (1, ⟨[(0, 6)], [(0, ⟨[(0, [0])]⟩)]⟩),
  (2, ⟨[(0, 9)], [(0, ⟨[(1, [0])]⟩)]⟩),
  (3, ⟨[], [(0, ⟨[(2, [0]), (0, [0])]⟩)]⟩)]⟩

/-! ## Lemmas about the association-list primitives -/

theorem lookupA_append {V : Type} (m₁ m₂ : List (Nat × V)) (k : Nat) :
    lookupA (m₁ ++ m₂) k =
      (match lookupA m₁ k with
       | some v => some v
       | none => lookupA m₂ k) := by
  induction m₁ with
  | nil => simp [lookupA]
  | cons hd tl ih =>
    obtain ⟨k', v⟩ := hd
    by_cases h : k' = k <;> simp [lookupA, h, ih]

theorem lookupA_insertNewA {V : Type} (m : List (Nat × V)) (k k' : Nat) (v : V) :
    lookupA (insertNewA m k v) k' =
      (match lookupA m k' with
       | some w => some w
       | none => if k = k' then some v else none) := by
  simp [insertNewA, lookupA_append, lookupA]

theorem lookupA_modifyA_self {V : Type} (d : V) (f : V → V) (m : List (Nat × V)) (k : Nat) :
    lookupA (modifyA d f m k) k = some (f ((lookupA m k).getD d)) := by
  induction m with
  | nil => simp [modifyA, lookupA]
  | cons hd tl ih =>
    obtain ⟨k', v⟩ := hd
    by_cases h : k' = k <;> simp [modifyA, lookupA, h, ih]

theorem lookupA_modifyA_ne {V : Type} (d : V) (f : V → V) (m : List (Nat × V))
    (k k' : Nat) (h : k' ≠ k) :
    lookupA (modifyA d f m k) k' = lookupA m k' := by
  induction m with
  | nil => simp [modifyA, lookupA, Ne.symm h]
  | cons hd tl ih =>
    obtain ⟨k'', v⟩ := hd
    by_cases h2 : k'' = k
    · subst h2
      simp [modifyA, lookupA, Ne.symm h]
    · simp [modifyA, lookupA, h2, ih]

theorem keysA_modifyA_mem {V : Type} (d : V) (f : V → V) (m : List (Nat × V)) (k : Nat)
    (h : (lookupA m k).isSome) : keysA (modifyA d f m k) = keysA m := by
  induction m with
  | nil => simp [lookupA] at h
  | cons hd tl ih =>
    obtain ⟨k', v⟩ := hd
    by_cases h2 : k' = k
    · simp [modifyA, keysA, h2]
    · simp [lookupA, h2] at h
      simp [modifyA, keysA, h2] at ih ⊢
      exact ih h

theorem keysA_modifyA_not_mem {V : Type} (d : V) (f : V → V) (m : List (Nat × V)) (k : Nat)
    (h : lookupA m k = none) : keysA (modifyA d f m k) = keysA m ++ [k] := by
  induction m with
  | nil => simp [modifyA, keysA]
  | cons hd tl ih =>
    obtain ⟨k', v⟩ := hd
    by_cases h2 : k' = k
    · simp [lookupA, h2] at h
    · simp [lookupA, h2] at h
      simp [modifyA, keysA, h2] at ih ⊢
      exact ih h

theorem lookupA_eq_none_iff {V : Type} (m : List (Nat × V)) (k : Nat) :
    lookupA m k = none ↔ k ∉ keysA m := by
  induction m with
  | nil => simp [lookupA, keysA]
  | cons hd tl ih =>
    obtain ⟨k', v⟩ := hd
    by_cases h : k' = k <;> simp [lookupA, keysA, h, ih]
    exact fun _ => Ne.symm h

theorem lookupA_isSome_iff {V : Type} (m : List (Nat × V)) (k : Nat) :
    (lookupA m k).isSome ↔ k ∈ keysA m := by
  constructor
  · intro h
    by_contra hk
    rw [← lookupA_eq_none_iff] at hk
    simp [hk] at h
  · intro h
    by_contra hs
    rw [Option.not_isSome_iff_eq_none] at hs
    exact (lookupA_eq_none_iff _ _).mp hs h

theorem lookupA_mem {V : Type} {m : List (Nat × V)} {k : Nat} {v : V}
    (h : lookupA m k = some v) : (k, v) ∈ m := by
  induction m with
  | nil => simp [lookupA] at h
  | cons hd tl ih =>
    obtain ⟨k', v'⟩ := hd
    by_cases h2 : k' = k
    · subst h2
      simp [lookupA] at h
      simp [h]
    · simp [lookupA, h2] at h
      simp [ih h]

theorem mem_lookupA {V : Type} {m : List (Nat × V)} {k : Nat} {v : V}
    (hn : (keysA m).Nodup) (h : (k, v) ∈ m) : lookupA m k = some v := by
  induction m with
  | nil => simp at h
  | cons hd tl ih =>
    obtain ⟨k', v'⟩ := hd
    simp only [keysA, List.map_cons, List.nodup_cons] at hn
    rcases List.mem_cons.mp h with h1 | h1
    · cases h1
      simp [lookupA]
    · have hk : k' ≠ k := by
        rintro rfl
        exact hn.1 (List.mem_map_of_mem Prod.fst h1)
      rw [keysA] at ih
      simp only [lookupA, if_neg hk]
      exact ih hn.2 h1

theorem lookupA_removeA_ne {V : Type} (m : List (Nat × V)) (k k' : Nat) (h : k' ≠ k) :
    lookupA (removeA m k) k' = lookupA m k' := by
  induction m with
  | nil => simp [removeA]
  | cons hd tl ih =>
    obtain ⟨k'', v⟩ := hd
    by_cases h2 : k'' = k
    · subst h2
      simp [removeA, lookupA, Ne.symm h]
    · simp [removeA, lookupA, h2, ih]

theorem lookupA_removeA_self {V : Type} (m : List (Nat × V)) (k : Nat)
    (hn : (keysA m).Nodup) : lookupA (removeA m k) k = none := by
  induction m with
  | nil => simp [removeA, lookupA]
  | cons hd tl ih =>
    obtain ⟨k', v⟩ := hd
    simp only [keysA, List.map_cons, List.nodup_cons] at hn
    by_cases h2 : k' = k
    · subst h2
      simp [removeA, lookupA_eq_none_iff]
      intro hk
      obtain ⟨⟨a, b⟩, hab, hfst⟩ := List.mem_map.mp hk
      exact hn.1 (List.mem_map.mpr ⟨(a, b), hab, hfst⟩)
    · simp only [removeA, if_neg h2, lookupA, if_neg h2]
      rw [keysA] at ih
      exact ih hn.2

theorem nodupB_iff (l : List Nat) : nodupB l = true ↔ l.Nodup := by
  induction l with
  | nil => simp [nodupB]
  | cons x xs ih => simp [nodupB, ih, List.elem_iff]

/-! ## Lemmas about `beforeL` -/

theorem beforeL_append_right {α : Type} {l : List α} (l' : List α) {a b : α}
    (h : beforeL l a b) : beforeL (l ++ l') a b := by
  obtain ⟨i, j, hij, ha, hb⟩ := h
  have hia : i < l.length := by
    by_contra hc
    rw [List.getElem?_eq_none (by omega)] at ha
    exact Option.noConfusion ha
  have hjb : j < l.length := by
    by_contra hc
    rw [List.getElem?_eq_none (by omega)] at hb
    exact Option.noConfusion hb
  exact ⟨i, j, hij, by rw [List.getElem?_append_left hia]; exact ha,
    by rw [List.getElem?_append_left hjb]; exact hb⟩

theorem beforeL_append_left {α : Type} (l : List α) {l' : List α} {a b : α}
    (h : beforeL l' a b) : beforeL (l ++ l') a b := by
  obtain ⟨i, j, hij, ha, hb⟩ := h
  refine ⟨l.length + i, l.length + j, by omega, ?_, ?_⟩
  · rw [List.getElem?_append_right (by omega)]
    simpa using ha
  · rw [List.getElem?_append_right (by omega)]
    simpa using hb

theorem beforeL_of_mem {α : Type} {l l' : List α} {a b : α}
    (ha : a ∈ l) (hb : b ∈ l') : beforeL (l ++ l') a b := by
  obtain ⟨i, hi, hia⟩ := List.getElem_of_mem ha
  obtain ⟨j, hj, hjb⟩ := List.getElem_of_mem hb
  refine ⟨i, l.length + j, by omega, ?_, ?_⟩
  · rw [List.getElem?_append_left hi, List.getElem?_eq_getElem hi, hia]
  · rw [List.getElem?_append_right (by omega)]
    have : l.length + j - l.length = j := by omega
    rw [this, List.getElem?_eq_getElem hj, hjb]

/-! ## Consequences of well-formedness and rankedness -/

theorem wfB_nodes_nodup {g : Graph} (hwf : g.wfB = true) : (keysA g.nodes).Nodup := by
  rw [Graph.wfB, Bool.and_eq_true] at hwf
  exact (nodupB_iff _).mp hwf.1

theorem wfB_node_nodup {g : Graph} {v : Nat} {node : GNode} (hwf : g.wfB = true)
    (hv : g.getNode v = some node) :
    (keysA node.outLats).Nodup ∧ (keysA node.inputs).Nodup := by
  rw [Graph.wfB, Bool.and_eq_true, List.all_eq_true] at hwf
  have h := hwf.2 _ (lookupA_mem hv)
  simp only [Bool.and_eq_true] at h
  exact ⟨(nodupB_iff _).mp h.1.1, (nodupB_iff _).mp h.1.2⟩

theorem wfB_port_nodup {g : Graph} {v i : Nat} {node : GNode} {port : Port}
    (hwf : g.wfB = true) (hv : g.getNode v = some node)
    (hi : (i, port) ∈ node.inputs) : (keysA port.conns).Nodup := by
  rw [Graph.wfB, Bool.and_eq_true, List.all_eq_true] at hwf
  have h := hwf.2 _ (lookupA_mem hv)
  simp only [Bool.and_eq_true, List.all_eq_true] at h
  have h2 := h.2 _ hi
  exact (nodupB_iff _).mp h2.1

theorem wfB_conn {g : Graph} {v i u : Nat} {node : GNode} {port : Port} {ps : List Nat}
    (hwf : g.wfB = true) (hv : g.getNode v = some node)
    (hi : (i, port) ∈ node.inputs) (hu : (u, ps) ∈ port.conns) :
    ps ≠ [] ∧ ps.Nodup ∧
      ∃ src, g.getNode u = some src ∧ ∀ p ∈ ps, (lookupA src.outLats p).isSome := by
  rw [Graph.wfB, Bool.and_eq_true, List.all_eq_true] at hwf
  have h := hwf.2 _ (lookupA_mem hv)
  simp only [Bool.and_eq_true, List.all_eq_true] at h
  have h2 := (h.2 _ hi).2 _ hu
  simp only [Bool.and_eq_true] at h2
  refine ⟨by simpa using h2.1.1, (nodupB_iff _).mp h2.1.2, ?_⟩
  rcases hsrc : g.getNode u with _ | src
  · rw [hsrc] at h2
    simp at h2
  · rw [hsrc] at h2
    refine ⟨src, rfl, ?_⟩
    intro p hp
    have := h2.2
    rw [List.all_eq_true] at this
    exact this p hp

theorem rankedB_lt {g : Graph} {rank : Nat → Nat} {u o v i : Nat}
    (hr : g.rankedB rank = true) (he : g.HasEdge u o v i) : rank u < rank v := by
  obtain ⟨node, port, ps, hv, hi, hu, ho⟩ := he
  rw [Graph.rankedB, List.all_eq_true] at hr
  have h := hr _ (lookupA_mem hv)
  rw [List.all_eq_true] at h
  have h2 := h _ (lookupA_mem hi)
  rw [List.all_eq_true] at h2
  have h3 := h2 _ (lookupA_mem hu)
  have hne : ps.isEmpty = false := by
    cases ps with
    | nil => simp at ho
    | cons a l => simp [List.isEmpty]
  simp [hne] at h3
  exact h3

theorem rankedB_edge_lt {g : Graph} {rank : Nat → Nat} {u v : Nat}
    (hr : g.rankedB rank = true) (he : g.EdgeNN u v) : rank u < rank v := by
  obtain ⟨o, i, he⟩ := he
  exact rankedB_lt hr he

theorem reaches_rank_le {g : Graph} {rank : Nat → Nat} {a b : Nat}
    (hr : g.rankedB rank = true) (h : g.Reaches a b) : rank a ≤ rank b := by
  induction h with
  | refl => exact le_rfl
  | tail _ hedge ih => exact le_of_lt (lt_of_le_of_lt ih (rankedB_edge_lt hr hedge))

/-- Decomposition of reachability into `frm` at the last edge, in the
membership form matching the traversal code. -/
theorem reaches_to_iff {g : Graph} {frm tgt : Nat} {node : GNode}
    (hwf : g.wfB = true) (hfrm : g.getNode frm = some node) :
    g.Reaches tgt frm ↔ frm = tgt ∨
      ∃ ip port u ps, (ip, port) ∈ node.inputs ∧ (u, ps) ∈ port.conns ∧
        g.Reaches tgt u := by
  constructor
  · intro h
    rcases Relation.ReflTransGen.cases_tail h with h | ⟨c, hc, hedge⟩
    · exact Or.inl h
    · obtain ⟨o, i, node', port, ps, hv, hi, hu, _⟩ := hedge
      rw [hfrm] at hv
      cases hv
      exact Or.inr ⟨i, port, c, ps, lookupA_mem hi, lookupA_mem hu, hc⟩
  · rintro (rfl | ⟨ip, port, u, ps, hip, hups, hreach⟩)
    · exact Relation.ReflTransGen.refl
    · obtain ⟨hne, _, _⟩ := wfB_conn hwf hfrm hip hups
      obtain ⟨o, ho⟩ := List.exists_mem_of_ne_nil ps hne
      have hedge : g.EdgeNN u frm := by
        refine ⟨o, ip, node, port, ps, hfrm, ?_, ?_, ?_⟩
        · exact mem_lookupA (wfB_node_nodup hwf hfrm).2 hip
        · exact mem_lookupA (wfB_port_nodup hwf hfrm hip) hups
        · exact (List.elem_iff).mpr ho
      exact Relation.ReflTransGen.tail hreach hedge

/-! ## Correctness of `is_connected` -/

theorem icConns_spec {rec : Nat → Option Bool} {P : Nat → Prop}
    {l : List (Nat × List Nat)}
    (hrec : ∀ u ps, (u, ps) ∈ l → ∃ b, rec u = some b ∧ (b = true ↔ P u)) :
    ∃ b, icConns rec l = some b ∧ (b = true ↔ ∃ u ps, (u, ps) ∈ l ∧ P u) := by
  induction l with
  | nil => exact ⟨false, rfl, by simp⟩
  | cons hd tl ih =>
    obtain ⟨u, ps⟩ := hd
    obtain ⟨b0, hb0, hiff0⟩ := hrec u ps (List.mem_cons_self _ _)
    cases b0 with
    | true =>
      refine ⟨true, by simp [icConns, hb0], by
        simp only [true_iff]
        exact ⟨u, ps, List.mem_cons_self _ _, hiff0.mp rfl⟩⟩
    | false =>
      obtain ⟨b, hb, hiff⟩ := ih (fun u' ps' h => hrec u' ps' (List.mem_cons_of_mem _ h))
      refine ⟨b, by simp [icConns, hb0, hb], ?_⟩
      rw [hiff]
      constructor
      · rintro ⟨u', ps', h1, h2⟩
        exact ⟨u', ps', List.mem_cons_of_mem _ h1, h2⟩
      · rintro ⟨u', ps', h1, h2⟩
        rcases List.mem_cons.mp h1 with h1 | h1
        · cases h1
          exact absurd (hiff0.mpr h2) (by simp)
        · exact ⟨u', ps', h1, h2⟩

theorem icPorts_spec {rec : Nat → Option Bool} {P : Nat → Prop}
    {l : List (Nat × Port)}
    (hrec : ∀ ip port u ps, (ip, port) ∈ l → (u, ps) ∈ port.conns →
      ∃ b, rec u = some b ∧ (b = true ↔ P u)) :
    ∃ b, icPorts rec l = some b ∧
      (b = true ↔ ∃ ip port u ps, (ip, port) ∈ l ∧ (u, ps) ∈ port.conns ∧ P u) := by
  induction l with
  | nil => exact ⟨false, rfl, by simp⟩
  | cons hd tl ih =>
    obtain ⟨ip, port⟩ := hd
    obtain ⟨b0, hb0, hiff0⟩ :=
      icConns_spec (fun u ps h => hrec ip port u ps (List.mem_cons_self _ _) h)
    cases b0 with
    | true =>
      obtain ⟨u, ps, h1, h2⟩ := hiff0.mp rfl
      refine ⟨true, by simp [icPorts, hb0], by
        simp only [true_iff]
        exact ⟨ip, port, u, ps, List.mem_cons_self _ _, h1, h2⟩⟩
    | false =>
      obtain ⟨b, hb, hiff⟩ :=
        ih (fun ip' port' u ps h1 h2 => hrec ip' port' u ps (List.mem_cons_of_mem _ h1) h2)
      refine ⟨b, by simp [icPorts, hb0, hb], ?_⟩
      rw [hiff]
      constructor
      · rintro ⟨ip', port', u, ps, h1, h2, h3⟩
        exact ⟨ip', port', u, ps, List.mem_cons_of_mem _ h1, h2, h3⟩
      · rintro ⟨ip', port', u, ps, h1, h2, h3⟩
        rcases List.mem_cons.mp h1 with h1 | h1
        · cases h1
          exact absurd (hiff0.mpr ⟨u, ps, h2, h3⟩) (by simp)
        · exact ⟨ip', port', u, ps, h1, h2, h3⟩

/-- `is_connected(frm, tgt)` terminates with enough fuel and decides the
existence of a directed path `tgt → frm`. -/
theorem isConnected_spec {g : Graph} {rank : Nat → Nat}
    (hwf : g.wfB = true) (hr : g.rankedB rank = true) :
    ∀ fuel frm tgt, rank frm < fuel → (g.getNode frm).isSome →
      ∃ b, g.isConnected fuel frm tgt = some b ∧ (b = true ↔ g.Reaches tgt frm) := by
  intro fuel
  induction fuel with
  | zero => intro frm tgt h; omega
  | succ fuel ih =>
    intro frm tgt hrank hmem
    by_cases heq : frm = tgt
    · subst heq
      exact ⟨true, by simp [Graph.isConnected],
        ⟨fun _ => Relation.ReflTransGen.refl, fun _ => rfl⟩⟩
    · obtain ⟨node, hnode⟩ := Option.isSome_iff_exists.mp hmem
      have hstep : ∀ ip port u ps, (ip, port) ∈ node.inputs → (u, ps) ∈ port.conns →
          ∃ b, g.isConnected fuel u tgt = some b ∧ (b = true ↔ g.Reaches tgt u) := by
        intro ip port u ps hip hups
        obtain ⟨hne, hnd, src, hsrcEq, hlats⟩ := wfB_conn hwf hnode hip hups
        obtain ⟨o, ho⟩ := List.exists_mem_of_ne_nil ps hne
        have hedge : g.HasEdge u o frm ip :=
          ⟨node, port, ps, hnode, mem_lookupA (wfB_node_nodup hwf hnode).2 hip,
            mem_lookupA (wfB_port_nodup hwf hnode hip) hups, (List.elem_iff).mpr ho⟩
        have hlt : rank u < rank frm := rankedB_lt hr hedge
        exact ih u tgt (by omega) (by simp [hsrcEq])
      obtain ⟨b, hb, hiff⟩ := icPorts_spec hstep
      refine ⟨b, by simp [Graph.isConnected, heq, hnode, hb], ?_⟩
      rw [hiff, reaches_to_iff hwf hnode]
      simp [heq]

theorem wfB_iff (g : Graph) : g.wfB = true ↔ WfG g := by
  rw [Graph.wfB, Bool.and_eq_true, List.all_eq_true]
  constructor
  · rintro ⟨h1, h2⟩
    refine ⟨(nodupB_iff _).mp h1, ?_⟩
    intro v node hv
    have h := h2 _ hv
    simp only [Bool.and_eq_true, List.all_eq_true] at h
    refine ⟨(nodupB_iff _).mp h.1.1, (nodupB_iff _).mp h.1.2, ?_⟩
    intro i port hi
    have h3 := h.2 _ hi
    refine ⟨(nodupB_iff _).mp h3.1, ?_⟩
    intro u ps hu
    have h4 := h3.2 _ hu
    simp only [Bool.and_eq_true] at h4
    refine ⟨by simpa using h4.1.1, (nodupB_iff _).mp h4.1.2, ?_⟩
    rcases hsrc : g.getNode u with _ | src
    · rw [hsrc] at h4
      simp at h4
    · rw [hsrc] at h4
      exact ⟨src, rfl, by
        intro p hp
        have := h4.2
        rw [List.all_eq_true] at this
        exact this p hp⟩
  · rintro ⟨h1, h2⟩
    refine ⟨(nodupB_iff _).mpr h1, ?_⟩
    rintro ⟨v, node⟩ hv
    obtain ⟨hn1, hn2, hn3⟩ := h2 v node hv
    simp only [Bool.and_eq_true, List.all_eq_true]
    refine ⟨⟨(nodupB_iff _).mpr hn1, (nodupB_iff _).mpr hn2⟩, ?_⟩
    rintro ⟨i, port⟩ hi
    obtain ⟨hp1, hp2⟩ := hn3 i port hi
    refine ⟨(nodupB_iff _).mpr hp1, ?_⟩
    rintro ⟨u, ps⟩ hu
    obtain ⟨hc1, hc2, src, hc3, hc4⟩ := hp2 u ps hu
    simp only [Bool.and_eq_true]
    refine ⟨⟨by simpa using hc1, (nodupB_iff _).mpr hc2⟩, ?_⟩
    rw [hc3]
    rw [List.all_eq_true]
    exact fun p hp => hc4 p hp

theorem rankedB_iff (g : Graph) (rank : Nat → Nat) :
    g.rankedB rank = true ↔ RankedG g rank := by
  rw [Graph.rankedB, List.all_eq_true]
  constructor
  · intro h v node i port u ps hv hi hu hne
    have h1 := h _ hv
    rw [List.all_eq_true] at h1
    have h2 := h1 _ hi
    rw [List.all_eq_true] at h2
    have h3 := h2 _ hu
    have hie : ps.isEmpty = false := by
      cases ps with
      | nil => exact absurd rfl hne
      | cons a l => simp [List.isEmpty]
    simp [hie] at h3
    exact h3
  · rintro h ⟨v, node⟩ hv
    rw [List.all_eq_true]
    rintro ⟨i, port⟩ hi
    rw [List.all_eq_true]
    rintro ⟨u, ps⟩ hu
    cases hps : ps with
    | nil => simp [List.isEmpty]
    | cons a l =>
      have := h v node i port u ps hv hi hu (by simp [hps])
      simp [this]

/-! ## Structure of the graph after a successful insertion -/

theorem mem_modifyA {V : Type} {m : List (Nat × V)} {k : Nat} {v₀ : V} (d : V) (f : V → V)
    (hnd : (keysA m).Nodup) (hk : lookupA m k = some v₀) :
    ∀ k' v', ((k', v') ∈ modifyA d f m k ↔ (k' ≠ k ∧ (k', v') ∈ m) ∨ (k' = k ∧ v' = f v₀)) := by
  induction m with
  | nil => simp [lookupA] at hk
  | cons hd tl ih =>
    obtain ⟨k1, v1⟩ := hd
    simp only [keysA, List.map_cons, List.nodup_cons] at hnd
    intro k' v'
    by_cases h1 : k1 = k
    · subst h1
      rw [lookupA, if_pos rfl] at hk
      injection hk with hk
      subst hk
      rw [modifyA, if_pos rfl]
      constructor
      · intro hmm
        rcases List.mem_cons.mp hmm with h2 | h2
        · rw [Prod.mk.injEq] at h2
          exact Or.inr ⟨h2.1, h2.2⟩
        · refine Or.inl ⟨?_, List.mem_cons_of_mem _ h2⟩
          intro hkk
          subst hkk
          exact hnd.1 (List.mem_map_of_mem Prod.fst h2)
      · rintro (⟨hne, h2⟩ | ⟨hkk, hvv⟩)
        · rcases List.mem_cons.mp h2 with h3 | h3
          · rw [Prod.mk.injEq] at h3
            exact absurd h3.1 hne
          · exact List.mem_cons_of_mem _ h3
        · subst hkk
          subst hvv
          exact List.mem_cons_self _ _
    · rw [lookupA, if_neg h1] at hk
      rw [modifyA, if_neg h1]
      rw [keysA] at ih
      constructor
      · intro hmm
        rcases List.mem_cons.mp hmm with h2 | h2
        · rw [Prod.mk.injEq] at h2
          obtain ⟨h2a, h2b⟩ := h2
          subst h2a
          subst h2b
          refine Or.inl ⟨?_, List.mem_cons_self _ _⟩
          intro hkk
          subst hkk
          exact h1 rfl
        · rcases (ih hnd.2 hk k' v').mp h2 with ⟨hne, hmem⟩ | hkk
          · exact Or.inl ⟨hne, List.mem_cons_of_mem _ hmem⟩
          · exact Or.inr hkk
      · rintro (⟨hne, h2⟩ | ⟨hkk, hvv⟩)
        · rcases List.mem_cons.mp h2 with h3 | h3
          · exact h3 ▸ List.mem_cons_self _ _
          · exact List.mem_cons_of_mem _ ((ih hnd.2 hk k' v').mpr (Or.inl ⟨hne, h3⟩))
        · subst hkk
          subst hvv
          exact List.mem_cons_of_mem _ ((ih hnd.2 hk _ (f v₀)).mpr (Or.inr ⟨rfl, rfl⟩))

theorem modifyA_id {V : Type} {m : List (Nat × V)} {k : Nat} {v₀ : V} (d : V) (f : V → V)
    (hk : lookupA m k = some v₀) (hf : f v₀ = v₀) : modifyA d f m k = m := by
  induction m with
  | nil => simp [lookupA] at hk
  | cons hd tl ih =>
    obtain ⟨k1, v1⟩ := hd
    by_cases h1 : k1 = k
    · subst h1
      simp only [lookupA, if_pos rfl] at hk
      cases hk
      simp [modifyA, hf]
    · simp only [lookupA, if_neg h1] at hk
      simp [modifyA, h1, ih hk]

/-- Structural description of a successful `insert_connection` at graph
level: the destination node and port exist, and the new graph replaces only
that port. -/
theorem insertConnectionAt_struct {g g' : Graph} {m i n o : Nat} {isNew : Bool}
    (hins : g.insertConnectionAt m i n o = some (isNew, g')) :
    ∃ node port, g.getNode m = some node ∧ lookupA node.inputs i = some port ∧
      isNew = (port.insertConnection n o).1 ∧
      g' = ⟨modifyA ⟨[], []⟩
        (fun nd => { nd with inputs :=
          (modifyA Port.empty (fun _ => (port.insertConnection n o).2) nd.inputs i) })
        g.nodes m⟩ := by
  rcases hm : g.getNode m with _ | node
  · simp [Graph.insertConnectionAt, hm] at hins
  · rcases hp : lookupA node.inputs i with _ | port
    · simp [Graph.insertConnectionAt, hm, hp] at hins
    · simp only [Graph.insertConnectionAt, hm, hp, Option.some.injEq, Prod.mk.injEq] at hins
      exact ⟨node, port, rfl, hp, hins.1.symm, hins.2.symm⟩

/-- Node lookup in the modified graph. -/
theorem insertConnectionAt_getNode {g g' : Graph} {m i n o : Nat} {isNew : Bool}
    (hins : g.insertConnectionAt m i n o = some (isNew, g')) :
    (∀ v, v ≠ m → g'.getNode v = g.getNode v) ∧
    ∃ node port, g.getNode m = some node ∧ lookupA node.inputs i = some port ∧
      g'.getNode m = some { node with inputs :=
        (modifyA Port.empty (fun _ => (port.insertConnection n o).2) node.inputs i) } := by
  obtain ⟨node, port, hm, hp, _, rfl⟩ := insertConnectionAt_struct hins
  constructor
  · intro v hv
    show lookupA _ v = _
    rw [lookupA_modifyA_ne _ _ _ _ _ hv]
    rfl
  · refine ⟨node, port, hm, hp, ?_⟩
    show lookupA _ m = _
    rw [lookupA_modifyA_self]
    rw [show lookupA g.nodes m = some node from hm]
    rfl

/-- Output latencies are untouched by an edge insertion. -/
theorem insertConnectionAt_outLats {g g' : Graph} {m i n o : Nat} {isNew : Bool}
    (hins : g.insertConnectionAt m i n o = some (isNew, g')) :
    ∀ u src, g.getNode u = some src →
      ∃ src', g'.getNode u = some src' ∧ src'.outLats = src.outLats := by
  obtain ⟨hne, node, port, hm, hp, hm'⟩ := insertConnectionAt_getNode hins
  intro u src hu
  by_cases huv : u = m
  · subst huv
    rw [hu] at hm
    injection hm with hm
    subst hm
    exact ⟨_, hm', rfl⟩
  · exact ⟨src, by rw [hne u huv, hu], rfl⟩

/-- The connection sets of `insert_connection`'s result. -/
theorem insertConnection_conn_iff (p : Port) (n o : Nat) :
    ∀ u' o', (∃ ps, lookupA ((p.insertConnection n o).2).conns u' = some ps ∧ o' ∈ ps) ↔
      ((∃ ps, lookupA p.conns u' = some ps ∧ o' ∈ ps) ∨ (u' = n ∧ o' = o)) := by
  intro u' o'
  rcases hn : lookupA p.conns n with _ | ports
  · simp only [Port.insertConnection, hn]
    constructor
    · rintro ⟨ps, hps, ho'⟩
      rw [lookupA_insertNewA] at hps
      rcases hold : lookupA p.conns u' with _ | ps₀
      · rw [hold] at hps
        simp only [] at hps
        by_cases hun : n = u'
        · rw [if_pos hun] at hps
          injection hps with hps
          subst hps
          simp only [List.mem_singleton] at ho'
          exact Or.inr ⟨hun.symm, ho'⟩
        · rw [if_neg hun] at hps
          exact absurd hps (by simp)
      · rw [hold] at hps
        simp only [Option.some.injEq] at hps
        subst hps
        exact Or.inl ⟨_, rfl, ho'⟩
    · rintro (⟨ps, hps, ho'⟩ | ⟨h1, h2⟩)
      · refine ⟨ps, ?_, ho'⟩
        rw [lookupA_insertNewA, hps]
      · rw [h1, h2]
        refine ⟨[o], ?_, List.mem_singleton_self o⟩
        rw [lookupA_insertNewA, hn]
        simp
  · by_cases hc : ports.contains o
    · simp only [Port.insertConnection, hn, hc, if_pos]
      constructor
      · exact fun h => Or.inl h
      · rintro (h | ⟨h1, h2⟩)
        · exact h
        · rw [h1, h2]
          exact ⟨ports, hn, (List.elem_iff).mp hc⟩
    · simp only [Port.insertConnection, hn, hc, if_neg, Bool.false_eq_true,
        not_false_eq_true]
      by_cases hun : u' = n
      · rw [hun, lookupA_modifyA_self, hn]
        constructor
        · rintro ⟨ps, hps, ho'⟩
          injection hps with hps
          subst hps
          simp only [Option.getD_some, List.mem_append, List.mem_singleton] at ho'
          rcases ho' with h | h
          · exact Or.inl ⟨ports, rfl, h⟩
          · exact Or.inr ⟨rfl, h⟩
        · rintro (⟨ps, hps, ho'⟩ | ⟨_, h2⟩)
          · injection hps with hps
            subst hps
            exact ⟨_, rfl, by simp [ho']⟩
          · exact ⟨_, rfl, by simp [h2]⟩
      · rw [lookupA_modifyA_ne _ _ _ _ _ hun]
        constructor
        · exact fun h => Or.inl h
        · rintro (h | ⟨h, _⟩)
          · exact h
          · exact absurd h hun

/-- The edges of the graph after a successful insertion are the old edges
plus the new one. -/
theorem insertConnectionAt_hasEdge {g g' : Graph} {m i n o : Nat} {isNew : Bool}
    (hins : g.insertConnectionAt m i n o = some (isNew, g')) :
    ∀ u' o' v' i', g'.HasEdge u' o' v' i' ↔
      (g.HasEdge u' o' v' i' ∨ (u' = n ∧ o' = o ∧ v' = m ∧ i' = i)) := by
  obtain ⟨hne, node, port, hm, hp, hm'⟩ := insertConnectionAt_getNode hins
  intro u' o' v' i'
  by_cases hv : v' = m
  · subst hv
    constructor
    · rintro ⟨node₂, port₂, ps₂, hv₂, hi₂, hu₂, ho₂⟩
      rw [hm'] at hv₂
      injection hv₂ with hv₂
      subst hv₂
      rw [show ({ node with inputs :=
        (modifyA Port.empty (fun _ => (port.insertConnection n o).2) node.inputs i) } :
          GNode).inputs =
        (modifyA Port.empty (fun _ => (port.insertConnection n o).2) node.inputs i)
        from rfl] at hi₂
      by_cases hii : i' = i
      · rw [hii, lookupA_modifyA_self] at hi₂
        have hi₃ : (port.insertConnection n o).2 = port₂ := Option.some.inj hi₂
        subst hi₃
        have := (insertConnection_conn_iff port n o u' o').mp
          ⟨ps₂, hu₂, (List.elem_iff).mp ho₂⟩
        rcases this with ⟨ps₃, hps₃, ho₃⟩ | ⟨h1, h2⟩
        · exact Or.inl ⟨node, port, ps₃, hm, by rw [hii]; exact hp, hps₃,
            (List.elem_iff).mpr ho₃⟩
        · exact Or.inr ⟨h1, h2, rfl, hii⟩
      · rw [lookupA_modifyA_ne _ _ _ _ _ hii] at hi₂
        exact Or.inl ⟨node, port₂, ps₂, hm, hi₂, hu₂, ho₂⟩
    · rintro (⟨node₂, port₂, ps₂, hv₂, hi₂, hu₂, ho₂⟩ | ⟨h1, h2, _, h4⟩)
      · rw [hm] at hv₂
        injection hv₂ with hv₂
        subst hv₂
        by_cases hii : i' = i
        · rw [hii, hp] at hi₂
          have hi₃ : port = port₂ := Option.some.inj hi₂
          subst hi₃
          obtain ⟨ps₃, hps₃, ho₃⟩ := (insertConnection_conn_iff port n o u' o').mpr
            (Or.inl ⟨ps₂, hu₂, (List.elem_iff).mp ho₂⟩)
          refine ⟨_, _, ps₃, hm', ?_, hps₃, (List.elem_iff).mpr ho₃⟩
          rw [show ({ node with inputs :=
            (modifyA Port.empty (fun _ => (port.insertConnection n o).2) node.inputs i) } :
              GNode).inputs =
            (modifyA Port.empty (fun _ => (port.insertConnection n o).2) node.inputs i)
            from rfl]
          rw [hii, lookupA_modifyA_self]
        · refine ⟨_, port₂, ps₂, hm', ?_, hu₂, ho₂⟩
          rw [show ({ node with inputs :=
            (modifyA Port.empty (fun _ => (port.insertConnection n o).2) node.inputs i) } :
              GNode).inputs =
            (modifyA Port.empty (fun _ => (port.insertConnection n o).2) node.inputs i)
            from rfl]
          rw [lookupA_modifyA_ne _ _ _ _ _ hii]
          exact hi₂
      · obtain ⟨ps₃, hps₃, ho₃⟩ := (insertConnection_conn_iff port n o n o).mpr
          (Or.inr ⟨rfl, rfl⟩)
        rw [h1, h2, h4]
        refine ⟨_, _, ps₃, hm', ?_, hps₃, (List.elem_iff).mpr ho₃⟩
        rw [show ({ node with inputs :=
          (modifyA Port.empty (fun _ => (port.insertConnection n o).2) node.inputs i) } :
            GNode).inputs =
          (modifyA Port.empty (fun _ => (port.insertConnection n o).2) node.inputs i)
          from rfl]
        rw [lookupA_modifyA_self]
  · constructor
    · rintro ⟨node₂, port₂, ps₂, hv₂, hi₂, hu₂, ho₂⟩
      rw [hne _ hv] at hv₂
      exact Or.inl ⟨node₂, port₂, ps₂, hv₂, hi₂, hu₂, ho₂⟩
    · rintro (⟨node₂, port₂, ps₂, hv₂, hi₂, hu₂, ho₂⟩ | ⟨_, _, hvm, _⟩)
      · exact ⟨node₂, port₂, ps₂, by rw [hne _ hv]; exact hv₂, hi₂, hu₂, ho₂⟩
      · exact absurd hvm hv

/-- Unpacking `can_insert_edge`. -/
theorem canInsertEdge_unpack {g : Graph} {n o m i : Nat}
    (hcan : g.canInsertEdge n o m i = true) :
    (∃ nodeM, g.getNode m = some nodeM ∧ (lookupA nodeM.inputs i).isSome) ∧
    (∃ nodeN, g.getNode n = some nodeN ∧ (lookupA nodeN.outLats o).isSome) := by
  rw [Graph.canInsertEdge, Bool.and_eq_true] at hcan
  obtain ⟨h1, h2⟩ := hcan
  constructor
  · rcases hm : g.getNode m with _ | nodeM
    · rw [hm] at h1
      simp at h1
    · rw [hm] at h1
      exact ⟨nodeM, rfl, h1⟩
  · rcases hn : g.getNode n with _ | nodeN
    · rw [hn] at h2
      simp at h2
    · rw [hn] at h2
      exact ⟨nodeN, rfl, h2⟩

/-- `insert_connection` keeps connection keys duplicate-free. -/
theorem insertConnection_keys (p : Port) (n o : Nat) (hnd : (keysA p.conns).Nodup) :
    (keysA ((p.insertConnection n o).2).conns).Nodup := by
  rcases hn : lookupA p.conns n with _ | ports
  · simp only [Port.insertConnection, hn]
    rw [show keysA (insertNewA p.conns n [o]) = keysA p.conns ++ [n] from by
      simp [insertNewA, keysA]]
    rw [List.nodup_append]
    exact ⟨hnd, List.nodup_singleton n, by
      intro a ha hb
      simp only [List.mem_singleton] at hb
      subst hb
      exact (lookupA_eq_none_iff _ _).mp hn ha⟩
  · by_cases hc : ports.contains o
    · simp only [Port.insertConnection, hn, hc, if_pos]
      exact hnd
    · simp only [Port.insertConnection, hn, hc, if_neg, Bool.false_eq_true,
        not_false_eq_true]
      rw [keysA_modifyA_mem _ _ _ _ (by simp [hn])]
      exact hnd

/-- Membership in `insert_connection`'s result. -/
theorem insertConnection_mem (p : Port) (n o : Nat) (hnd : (keysA p.conns).Nodup) :
    ∀ u ps, (u, ps) ∈ ((p.insertConnection n o).2).conns →
      (∃ ps₀, (u, ps₀) ∈ p.conns ∧
        (ps = ps₀ ∨ (u = n ∧ o ∉ ps₀ ∧ ps = ps₀ ++ [o]))) ∨
      (u = n ∧ ps = [o]) := by
  intro u ps hmem
  rcases hn : lookupA p.conns n with _ | ports
  · rw [show ((p.insertConnection n o).2).conns = insertNewA p.conns n [o] from by
      simp [Port.insertConnection, hn]] at hmem
    rcases List.mem_append.mp hmem with h | h
    · exact Or.inl ⟨ps, h, Or.inl rfl⟩
    · simp only [List.mem_singleton, Prod.mk.injEq] at h
      exact Or.inr ⟨h.1, h.2⟩
  · by_cases hc : ports.contains o
    · rw [show ((p.insertConnection n o).2).conns = p.conns from by
        simp [Port.insertConnection, hn, (List.elem_iff).mp hc]] at hmem
      exact Or.inl ⟨ps, hmem, Or.inl rfl⟩
    · rw [show ((p.insertConnection n o).2).conns =
        modifyA [] (fun ps => ps ++ [o]) p.conns n from by
          simp [Port.insertConnection, hn,
            show o ∉ ports from fun hh => hc ((List.elem_iff).mpr hh)]] at hmem
      rcases (mem_modifyA _ _ hnd hn u ps).mp hmem with ⟨_, h⟩ | ⟨h1, h2⟩
      · exact Or.inl ⟨ps, h, Or.inl rfl⟩
      · subst h1
        exact Or.inl ⟨ports, lookupA_mem hn,
          Or.inr ⟨rfl, fun hco => hc ((List.elem_iff).mpr hco), h2⟩⟩

/-- A successful insertion through the checked API preserves structural
well-formedness. -/
theorem insertConnectionAt_wf {g g' : Graph} {m i n o : Nat} {isNew : Bool}
    (hwf : g.wfB = true) (hcan : g.canInsertEdge n o m i = true)
    (hins : g.insertConnectionAt m i n o = some (isNew, g')) : g'.wfB = true := by
  obtain ⟨hgnd, hWF⟩ := (wfB_iff g).mp hwf
  obtain ⟨hneq, node, port, hm, hp, hm'⟩ := insertConnectionAt_getNode hins
  obtain ⟨_, nodeN, hmN, hlatN⟩ := canInsertEdge_unpack hcan
  obtain ⟨node₃, port₃, hm₃, hp₃, _, hg'⟩ := insertConnectionAt_struct hins
  rw [hm] at hm₃
  injection hm₃ with hm₃
  subst hm₃
  rw [hp] at hp₃
  injection hp₃ with hp₃
  subst hp₃
  have houtTrans := insertConnectionAt_outLats hins
  rw [wfB_iff]
  constructor
  · have hkeys : keysA g'.nodes = keysA g.nodes := by
      rw [hg']
      exact keysA_modifyA_mem (⟨[], []⟩ : GNode)
        (fun nd => { nd with inputs :=
          (modifyA Port.empty (fun _ => (port.insertConnection n o).2) nd.inputs i) })
        g.nodes m
        (by simp [show lookupA g.nodes m = some node from hm])
    show (keysA g'.nodes).Nodup
    rw [hkeys]
    exact hgnd
  · intro v nd hv
    have hv' : (v ≠ m ∧ (v, nd) ∈ g.nodes) ∨
        (v = m ∧ nd = { node with inputs :=
          (modifyA Port.empty (fun _ => (port.insertConnection n o).2) node.inputs i) }) := by
      rw [hg'] at hv
      exact (mem_modifyA (⟨[], []⟩ : GNode)
        (fun nd => { nd with inputs :=
          (modifyA Port.empty (fun _ => (port.insertConnection n o).2) nd.inputs i) })
        hgnd (show lookupA g.nodes m = some node from hm) v nd).mp hv
    have transfer : ∀ (nd₂ : GNode),
        ((keysA nd₂.outLats).Nodup ∧ (keysA nd₂.inputs).Nodup ∧
          ∀ i₂ port₂, (i₂, port₂) ∈ nd₂.inputs →
            (keysA port₂.conns).Nodup ∧
            ∀ u ps, (u, ps) ∈ port₂.conns →
              ps ≠ [] ∧ ps.Nodup ∧
              ∃ src, g.getNode u = some src ∧
                ∀ p ∈ ps, (lookupA src.outLats p).isSome) →
        ((keysA nd₂.outLats).Nodup ∧ (keysA nd₂.inputs).Nodup ∧
          ∀ i₂ port₂, (i₂, port₂) ∈ nd₂.inputs →
            (keysA port₂.conns).Nodup ∧
            ∀ u ps, (u, ps) ∈ port₂.conns →
              ps ≠ [] ∧ ps.Nodup ∧
              ∃ src, g'.getNode u = some src ∧
                ∀ p ∈ ps, (lookupA src.outLats p).isSome) := by
      rintro nd₂ ⟨h1, h2, h3⟩
      refine ⟨h1, h2, ?_⟩
      intro i₂ port₂ hi₂
      obtain ⟨h4, h5⟩ := h3 i₂ port₂ hi₂
      refine ⟨h4, ?_⟩
      intro u ps hu
      obtain ⟨h6, h7, src, h8, h9⟩ := h5 u ps hu
      obtain ⟨src', h10, h11⟩ := houtTrans u src h8
      exact ⟨h6, h7, src', h10, by rw [h11]; exact h9⟩
    rcases hv' with ⟨_, hv₂⟩ | ⟨_, rfl⟩
    · exact transfer nd (hWF v nd hv₂)
    · obtain ⟨hA, hB, hC⟩ := hWF m node (lookupA_mem hm)
      refine ⟨hA, ?_, ?_⟩
      · show (keysA (modifyA _ _ node.inputs i)).Nodup
        rw [keysA_modifyA_mem _ _ _ _ (by simp [hp])]
        exact hB
      · intro i₂ port₂ hi₂
        have hi₂' : (i₂ ≠ i ∧ (i₂, port₂) ∈ node.inputs) ∨
            (i₂ = i ∧ port₂ = (port.insertConnection n o).2) :=
          (mem_modifyA _ _ hB hp i₂ port₂).mp hi₂
        rcases hi₂' with ⟨_, hmem⟩ | ⟨_, rfl⟩
        · obtain ⟨h4, h5⟩ := hC i₂ port₂ hmem
          refine ⟨h4, ?_⟩
          intro u ps hu
          obtain ⟨h6, h7, src, h8, h9⟩ := h5 u ps hu
          obtain ⟨src', h10, h11⟩ := houtTrans u src h8
          exact ⟨h6, h7, src', h10, by rw [h11]; exact h9⟩
        · have hpc : (keysA port.conns).Nodup := (hC i port (lookupA_mem hp)).1
          refine ⟨insertConnection_keys port n o hpc, ?_⟩
          intro u ps hu
          rcases insertConnection_mem port n o hpc u ps hu with
            ⟨ps₀, hps₀, hcase⟩ | ⟨rfl, rfl⟩
          · obtain ⟨h6, h7, src, h8, h9⟩ := (hC i port (lookupA_mem hp)).2 u ps₀ hps₀
            rcases hcase with rfl | ⟨rfl, hno, rfl⟩
            · obtain ⟨src', h10, h11⟩ := houtTrans u src h8
              exact ⟨h6, h7, src', h10, by rw [h11]; exact h9⟩
            · rw [h8] at hmN
              injection hmN with hmN
              subst hmN
              obtain ⟨src', h10, h11⟩ := houtTrans u src h8
              refine ⟨by simp, ?_, src', h10, ?_⟩
              · rw [List.nodup_append]
                exact ⟨h7, List.nodup_singleton o, by
                  intro a ha hb
                  simp only [List.mem_singleton] at hb
                  subst hb
                  exact hno ha⟩
              · intro p hp₂
                rw [h11]
                rcases List.mem_append.mp hp₂ with h | h
                · exact h9 p h
                · simp only [List.mem_singleton] at h
                  subst h
                  exact hlatN
          · obtain ⟨src', h10, h11⟩ := houtTrans u nodeN hmN
            exact ⟨by simp, List.nodup_singleton o, src', h10, by
              intro p hp₂
              simp only [List.mem_singleton] at hp₂
              subst hp₂
              rw [h11]
              exact hlatN⟩

/-! ## Soundness of `is_connected` answers, and reachability after insertion -/

theorem icConns_sound {rec : Nat → Option Bool} {P : Nat → Prop}
    {l : List (Nat × List Nat)}
    (hrec : ∀ u ps b, (u, ps) ∈ l → rec u = some b → (b = true ↔ P u)) :
    ∀ b, icConns rec l = some b → (b = true ↔ ∃ u ps, (u, ps) ∈ l ∧ P u) := by
  induction l with
  | nil =>
    intro b hb
    injection hb with hb
    subst hb
    simp
  | cons hd tl ih =>
    obtain ⟨u, ps⟩ := hd
    intro b hb
    rcases hru : rec u with _ | b0
    · rw [icConns, hru] at hb
      exact absurd hb (by simp)
    · rw [icConns, hru] at hb
      cases b0 with
      | true =>
        injection hb with hb
        subst hb
        constructor
        · intro _
          exact ⟨u, ps, List.mem_cons_self _ _,
            (hrec u ps true (List.mem_cons_self _ _) hru).mp rfl⟩
        · intro _
          rfl
      | false =>
        have hiff := ih (fun u' ps' b' hm hr => hrec u' ps' b' (List.mem_cons_of_mem _ hm) hr)
          b hb
        rw [hiff]
        constructor
        · rintro ⟨u', ps', hm, hP⟩
          exact ⟨u', ps', List.mem_cons_of_mem _ hm, hP⟩
        · rintro ⟨u', ps', hm, hP⟩
          rcases List.mem_cons.mp hm with hm | hm
          · injection hm with hm1 hm2
            subst hm1
            subst hm2
            exact absurd ((hrec _ _ false (List.mem_cons_self _ _) hru).mpr hP) (by simp)
          · exact ⟨u', ps', hm, hP⟩

theorem icPorts_sound {rec : Nat → Option Bool} {P : Nat → Prop}
    {l : List (Nat × Port)}
    (hrec : ∀ ip port u ps b, (ip, port) ∈ l → (u, ps) ∈ port.conns →
      rec u = some b → (b = true ↔ P u)) :
    ∀ b, icPorts rec l = some b →
      (b = true ↔ ∃ ip port u ps, (ip, port) ∈ l ∧ (u, ps) ∈ port.conns ∧ P u) := by
  induction l with
  | nil =>
    intro b hb
    injection hb with hb
    subst hb
    simp
  | cons hd tl ih =>
    obtain ⟨ip, port⟩ := hd
    intro b hb
    rcases hic : icConns rec port.conns with _ | b0
    · rw [icPorts, hic] at hb
      exact absurd hb (by simp)
    · have hconns := icConns_sound
        (fun u ps b' hm hr => hrec ip port u ps b' (List.mem_cons_self _ _) hm hr) b0 hic
      rw [icPorts, hic] at hb
      cases b0 with
      | true =>
        injection hb with hb
        subst hb
        obtain ⟨u, ps, hm, hP⟩ := hconns.mp rfl
        constructor
        · intro _
          exact ⟨ip, port, u, ps, List.mem_cons_self _ _, hm, hP⟩
        · intro _
          rfl
      | false =>
        have hiff := ih
          (fun ip' port' u ps b' hm hc hr =>
            hrec ip' port' u ps b' (List.mem_cons_of_mem _ hm) hc hr) b hb
        rw [hiff]
        constructor
        · rintro ⟨ip', port', u, ps, hm, hc, hP⟩
          exact ⟨ip', port', u, ps, List.mem_cons_of_mem _ hm, hc, hP⟩
        · rintro ⟨ip', port', u, ps, hm, hc, hP⟩
          rcases List.mem_cons.mp hm with hm | hm
          · injection hm with hm1 hm2
            subst hm2
            exact absurd (hconns.mpr ⟨u, ps, hc, hP⟩) (by simp)
          · exact ⟨ip', port', u, ps, hm, hc, hP⟩

/-- Any `some` answer of `is_connected` is correct, at every fuel. -/
theorem isConnected_sound {g : Graph} (hwf : g.wfB = true) :
    ∀ fuel frm tgt b, g.isConnected fuel frm tgt = some b →
      (b = true ↔ g.Reaches tgt frm) := by
  intro fuel
  induction fuel with
  | zero =>
    intro frm tgt b hb
    exact absurd hb (by simp [Graph.isConnected])
  | succ fuel ih =>
    intro frm tgt b hb
    by_cases heq : frm = tgt
    · subst heq
      rw [Graph.isConnected, if_pos rfl] at hb
      injection hb with hb
      subst hb
      exact ⟨fun _ => Relation.ReflTransGen.refl, fun _ => rfl⟩
    · rw [Graph.isConnected, if_neg heq] at hb
      rcases hnode : g.getNode frm with _ | node
      · rw [hnode] at hb
        exact absurd hb (by simp)
      · rw [hnode] at hb
        have := icPorts_sound
          (fun ip port u ps b' _ _ hr => ih u tgt b' hr) b hb
        rw [this, reaches_to_iff hwf hnode]
        constructor
        · rintro ⟨ip, port, u, ps, hm, hc, hP⟩
          exact Or.inr ⟨ip, port, u, ps, hm, hc, hP⟩
        · rintro (h | ⟨ip, port, u, ps, hm, hc, hP⟩)
          · exact absurd h heq
          · exact ⟨ip, port, u, ps, hm, hc, hP⟩

/-- Reachability in the graph extended with the edge `(n,o) → (m,i)`
decomposes through the new edge. -/
theorem reaches_insert {g g' : Graph} {m i n o : Nat} {isNew : Bool}
    (hins : g.insertConnectionAt m i n o = some (isNew, g')) :
    ∀ a b, g'.Reaches a b → g.Reaches a b ∨ (g.Reaches a n ∧ g.Reaches m b) := by
  intro a b h
  induction h using Relation.ReflTransGen.head_induction_on with
  | refl => exact Or.inl Relation.ReflTransGen.refl
  | head hedge _ ih =>
    rename_i a₂ c₂ _
    obtain ⟨o', i', he⟩ := hedge
    rcases (insertConnectionAt_hasEdge hins _ _ _ _).mp he with hold | ⟨h1, _, h3, _⟩
    · rcases ih with h2 | ⟨h2, h3⟩
      · exact Or.inl (Relation.ReflTransGen.head ⟨o', i', hold⟩ h2)
      · exact Or.inr ⟨Relation.ReflTransGen.head ⟨o', i', hold⟩ h2, h3⟩
    · subst h1
      subst h3
      rcases ih with h2 | ⟨_, h2⟩
      · exact Or.inr ⟨Relation.ReflTransGen.refl, h2⟩
      · exact Or.inr ⟨Relation.ReflTransGen.refl, h2⟩

/-- Inserting an edge whose reverse path does not exist keeps the graph
acyclic: a new rank function is exhibited. -/
theorem acyclic_insert {g g' : Graph} {m i n o : Nat} {isNew : Bool} {rank : Nat → Nat}
    (hwf' : g'.wfB = true) (hr : g.rankedB rank = true) (hnr : ¬ g.Reaches m n)
    (hins : g.insertConnectionAt m i n o = some (isNew, g')) : g'.Acyclic := by
  classical
  refine ⟨fun v => if g.Reaches v n then rank v else rank v + rank n + 1, ?_⟩
  rw [rankedB_iff]
  intro v node i₂ port u ps hv hi hu hne
  show (if g.Reaches u n then rank u else rank u + rank n + 1) <
    (if g.Reaches v n then rank v else rank v + rank n + 1)
  obtain ⟨hgnd', hWF'⟩ := (wfB_iff g').mp hwf'
  have hv' : g'.getNode v = some node := mem_lookupA hgnd' hv
  obtain ⟨_, hnd2', hinner'⟩ := hWF' v node hv
  have hi' : lookupA node.inputs i₂ = some port := mem_lookupA hnd2' hi
  have hu' : lookupA port.conns u = some ps :=
    mem_lookupA (hinner' i₂ port hi).1 hu
  obtain ⟨o', ho'⟩ := List.exists_mem_of_ne_nil ps hne
  have hE' : g'.HasEdge u o' v i₂ :=
    ⟨node, port, ps, hv', hi', hu', (List.elem_iff).mpr ho'⟩
  rcases (insertConnectionAt_hasEdge hins u o' v i₂).mp hE' with hold | ⟨h1, _, h3, _⟩
  · have hlt : rank u < rank v := rankedB_lt hr hold
    have hclose : g.Reaches v n → g.Reaches u n := fun hv2 =>
      Relation.ReflTransGen.head ⟨o', i₂, hold⟩ hv2
    by_cases hvn : g.Reaches v n
    · rw [if_pos (hclose hvn), if_pos hvn]
      exact hlt
    · rw [if_neg hvn]
      by_cases hun : g.Reaches u n
      · rw [if_pos hun]
        omega
      · rw [if_neg hun]
        omega
  · subst h1
    subst h3
    rw [if_pos (show Graph.Reaches g u u from Relation.ReflTransGen.refl), if_neg hnr]
    omega

/-- `can_insert_edge` still holds after the corresponding insertion. -/
theorem canInsertEdge_insert {g g' : Graph} {m i n o : Nat} {isNew : Bool}
    (hins : g.insertConnectionAt m i n o = some (isNew, g'))
    (hcan : g.canInsertEdge n o m i = true) : g'.canInsertEdge n o m i = true := by
  obtain ⟨hne, node, port, hm, hp, hm'⟩ := insertConnectionAt_getNode hins
  obtain ⟨_, nodeN, hmN, hlatN⟩ := canInsertEdge_unpack hcan
  rw [Graph.canInsertEdge, Bool.and_eq_true]
  constructor
  · rw [hm']
    simp only []
    rw [lookupA_modifyA_self]
    simp
  · by_cases hnm : n = m
    · subst hnm
      rw [hm']
      rw [hm] at hmN
      injection hmN with hmN
      subst hmN
      simpa using hlatN
    · rw [hne n hnm, hmN]
      simpa using hlatN

/-- Re-inserting the same connection is a no-op returning `false`. -/
theorem insertConnection_idem (p : Port) (n o : Nat) :
    ((p.insertConnection n o).2).insertConnection n o =
      (false, (p.insertConnection n o).2) := by
  obtain ⟨ps', hps', ho'⟩ := (insertConnection_conn_iff p n o n o).mpr (Or.inr ⟨rfl, rfl⟩)
  have hc : ps'.contains o = true := (List.elem_iff).mpr ho'
  rw [Port.insertConnection, hps']
  simp [hc, ho']

/-- Re-running the insertion on the resulting graph returns `false` and
leaves the graph unchanged. -/
theorem insertConnectionAt_idem {g g' : Graph} {m i n o : Nat} {isNew : Bool}
    (hins : g.insertConnectionAt m i n o = some (isNew, g')) :
    g'.insertConnectionAt m i n o = some (false, g') := by
  obtain ⟨hne, node, port, hm, hp, hm'⟩ := insertConnectionAt_getNode hins
  have hp' : lookupA ({ node with inputs :=
      (modifyA Port.empty (fun _ => (port.insertConnection n o).2) node.inputs i) } :
        GNode).inputs i = some ((port.insertConnection n o).2) := by
    rw [show ({ node with inputs :=
      (modifyA Port.empty (fun _ => (port.insertConnection n o).2) node.inputs i) } :
        GNode).inputs =
      (modifyA Port.empty (fun _ => (port.insertConnection n o).2) node.inputs i)
      from rfl]
    rw [lookupA_modifyA_self]
  rw [show g'.insertConnectionAt m i n o =
    (match g'.getNode m with
     | none => none
     | some node =>
       match lookupA node.inputs i with
       | none => none
       | some port =>
         some ((port.insertConnection n o).1,
           ⟨modifyA ⟨[], []⟩
             (fun nd => { nd with inputs :=
               (modifyA Port.empty (fun _ => (port.insertConnection n o).2) nd.inputs i) })
             g'.nodes m⟩)) from rfl]
  rw [hm']
  simp only [hp']
  have hinner : modifyA Port.empty (fun _ => (port.insertConnection n o).2)
      ({ node with inputs :=
        (modifyA Port.empty (fun _ => (port.insertConnection n o).2) node.inputs i) } :
          GNode).inputs i =
      ({ node with inputs :=
        (modifyA Port.empty (fun _ => (port.insertConnection n o).2) node.inputs i) } :
          GNode).inputs :=
    modifyA_id _ _ hp' rfl
  have hgraph : (modifyA (⟨[], []⟩ : GNode)
      (fun nd => { nd with inputs :=
        (modifyA Port.empty (fun _ => (port.insertConnection n o).2) nd.inputs i) })
      g'.nodes m) = g'.nodes := by
    apply modifyA_id _ _ (show lookupA g'.nodes m = _ from hm')
    show ({ node with inputs :=
      (modifyA Port.empty (fun _ => (port.insertConnection n o).2)
        ({ node with inputs :=
          (modifyA Port.empty (fun _ => (port.insertConnection n o).2) node.inputs i) } :
            GNode).inputs i) } : GNode) =
      ({ node with inputs :=
        (modifyA Port.empty (fun _ => (port.insertConnection n o).2) node.inputs i) } :
          GNode)
    rw [hinner]
  simp only [insertConnection_idem]
  rw [hgraph]

/-- The insertion succeeds whenever both endpoints exist. -/
theorem insertConnectionAt_succeeds {g : Graph} {n o m i : Nat}
    (hcan : g.canInsertEdge n o m i = true) :
    ∃ isNew g', g.insertConnectionAt m i n o = some (isNew, g') := by
  obtain ⟨⟨nodeM, hm, hip⟩, _⟩ := canInsertEdge_unpack hcan
  obtain ⟨port, hport⟩ := Option.isSome_iff_exists.mp hip
  exact ⟨(port.insertConnection n o).1,
    ⟨modifyA ⟨[], []⟩
      (fun nd => { nd with inputs :=
        (modifyA Port.empty (fun _ => (port.insertConnection n o).2) nd.inputs i) })
      g.nodes m⟩,
    by simp [Graph.insertConnectionAt, hm, hport]⟩

/-- **C4.** `try_insert_edge_acyclic` fails with `WouldCreateCycle`
(`Except.error true`) exactly when both endpoint ports exist and a directed
path from the destination node `m` to the source node `n` already exists
(the self-loop case `m = n` included, via the reflexive path); every
failing call returns the graph unchanged; every successful call preserves
well-formedness and acyclicity, so graphs built through the public
edge-insertion API from a well-formed acyclic start stay acyclic; and an
acyclic graph has no self-loop edge. -/
theorem tryInsertEdgeAcyclic_cycle_spec (g : Graph) (rank : Nat → Nat)
    (fuel n o m i : Nat) (hwf : g.wfB = true) (hr : g.rankedB rank = true)
    (hfuel : rank n < fuel) :
    ((∃ g₂, g.tryInsertEdgeAcyclic fuel n o m i = some (Except.error true, g₂)) ↔
      (g.canInsertEdge n o m i = true ∧ g.Reaches m n)) ∧
    (∀ e g₂, g.tryInsertEdgeAcyclic fuel n o m i = some (Except.error e, g₂) → g₂ = g) ∧
    (∀ isNew g', g.tryInsertEdgeAcyclic fuel n o m i = some (Except.ok isNew, g') →
      g'.wfB = true ∧ g'.Acyclic) ∧
    (∀ u o' i', ¬ g.HasEdge u o' u i') := by
  have hself : ∀ u o' i', ¬ g.HasEdge u o' u i' :=
    fun u o' i' he => absurd (rankedB_lt hr he) (lt_irrefl _)
  by_cases hcan : g.canInsertEdge n o m i = true
  · obtain ⟨_, nodeN, hmN, _⟩ := canInsertEdge_unpack hcan
    obtain ⟨b, hic, hbiff⟩ :=
      isConnected_spec hwf hr fuel n m hfuel (by simp [hmN])
    cases b with
    | true =>
      have hres : g.tryInsertEdgeAcyclic fuel n o m i = some (Except.error true, g) := by
        rw [Graph.tryInsertEdgeAcyclic, Graph.canInsertEdgeAcyclic, if_pos hcan, hic]
      refine ⟨⟨fun _ => ⟨hcan, hbiff.mp rfl⟩, fun _ => ⟨g, hres⟩⟩, ?_, ?_, hself⟩
      · intro e g₂ h
        rw [hres] at h
        injection h with h
        exact (Prod.mk.injEq .. ▸ h).2.symm ▸ rfl
      · intro isNew g' h
        rw [hres] at h
        injection h with h
        exact absurd (Prod.mk.injEq .. ▸ h).1 (by simp)
    | false =>
      have hnr : ¬ g.Reaches m n := fun hreach => by simpa using hbiff.mpr hreach
      obtain ⟨isN, g', hins⟩ := insertConnectionAt_succeeds hcan
      have hres : g.tryInsertEdgeAcyclic fuel n o m i =
          some (Except.ok isN, g') := by
        rw [Graph.tryInsertEdgeAcyclic, Graph.canInsertEdgeAcyclic, if_pos hcan, hic]
        simp only []
        rw [hins]
      refine ⟨⟨?_, ?_⟩, ?_, ?_, hself⟩
      · rintro ⟨g₂, h⟩
        rw [hres] at h
        injection h with h
        exact absurd (Prod.mk.injEq .. ▸ h).1 (by simp)
      · rintro ⟨_, hreach⟩
        exact absurd hreach hnr
      · intro e g₂ h
        rw [hres] at h
        injection h with h
        exact absurd (Prod.mk.injEq .. ▸ h).1 (by simp)
      · intro isNew g₂ h
        rw [hres] at h
        injection h with h
        have := (Prod.mk.injEq .. ▸ h).2
        subst this
        have hwf' := insertConnectionAt_wf hwf hcan hins
        exact ⟨hwf', acyclic_insert hwf' hr hnr hins⟩
  · have hres : g.tryInsertEdgeAcyclic fuel n o m i = some (Except.error false, g) := by
      rw [Graph.tryInsertEdgeAcyclic, Graph.canInsertEdgeAcyclic, if_neg hcan]
    refine ⟨⟨?_, ?_⟩, ?_, ?_, hself⟩
    · rintro ⟨g₂, h⟩
      rw [hres] at h
      injection h with h
      exact absurd (Prod.mk.injEq .. ▸ h).1 (by simp)
    · rintro ⟨hc, _⟩
      exact absurd hc hcan
    · intro e g₂ h
      rw [hres] at h
      injection h with h
      exact (Prod.mk.injEq .. ▸ h).2.symm ▸ rfl
    · intro isNew g₂ h
      rw [hres] at h
      injection h with h
      exact absurd (Prod.mk.injEq .. ▸ h).1 (by simp)

/-- **C8.** Inserting the same valid acyclicity-preserving edge twice:
after a first call returning `Ok(true)` and producing `g'`, a second call
(with enough fuel for its cycle check) returns `Ok(false)` and leaves `g'`
exactly as it was. -/
theorem tryInsertEdgeAcyclic_idem (g : Graph) (rank : Nat → Nat) (fuel n o m i : Nat)
    (hwf : g.wfB = true) (hr : g.rankedB rank = true) {g' : Graph}
    (h1 : g.tryInsertEdgeAcyclic fuel n o m i = some (Except.ok true, g')) :
    ∃ fuel₂, g'.tryInsertEdgeAcyclic fuel₂ n o m i = some (Except.ok false, g') := by
  have hcan : g.canInsertEdge n o m i = true := by
    by_contra hc
    rw [Graph.tryInsertEdgeAcyclic, Graph.canInsertEdgeAcyclic, if_neg hc] at h1
    simp at h1
  rw [Graph.tryInsertEdgeAcyclic, Graph.canInsertEdgeAcyclic, if_pos hcan] at h1
  rcases hic : g.isConnected fuel n m with _ | b
  · rw [hic] at h1
    simp at h1
  · rw [hic] at h1
    cases b with
    | true => simp at h1
    | false =>
      rcases hins : g.insertConnectionAt m i n o with _ | pr
      · rw [hins] at h1
        simp at h1
      · rw [hins] at h1
        obtain ⟨isN, g₂⟩ := pr
        simp only [Option.some.injEq, Prod.mk.injEq, Except.ok.injEq] at h1
        obtain ⟨hisN, hg₂⟩ := h1
        subst hg₂
        have hnr : ¬ g.Reaches m n := fun hreach => by
          simpa using (isConnected_sound hwf fuel n m false hic).mpr hreach
        have hwf' : g₂.wfB = true := insertConnectionAt_wf hwf hcan hins
        obtain ⟨rank', hr'⟩ := acyclic_insert hwf' hr hnr hins
        have hcan' : g₂.canInsertEdge n o m i = true := canInsertEdge_insert hins hcan
        have hnr' : ¬ g₂.Reaches m n := by
          intro hreach
          rcases reaches_insert hins m n hreach with h2 | ⟨h2, _⟩
          · exact hnr h2
          · exact hnr h2
        obtain ⟨_, nodeN', hmN', _⟩ := canInsertEdge_unpack hcan'
        obtain ⟨b', hic', hbiff'⟩ := isConnected_spec hwf' hr' (rank' n + 1) n m
          (by omega) (by simp [hmN'])
        have hb' : b' = false := by
          cases b' with
          | true => exact absurd (hbiff'.mp rfl) hnr'
          | false => rfl
        subst hb'
        refine ⟨rank' n + 1, ?_⟩
        rw [Graph.tryInsertEdgeAcyclic, Graph.canInsertEdgeAcyclic, if_pos hcan', hic']
        simp only []
        rw [insertConnectionAt_idem hins]

/-! ## Fold helpers -/

theorem foldl_ext_mem {α β : Type} (f f' : β → α → β) (l : List α)
    (h : ∀ b a, a ∈ l → f b a = f' b a) : ∀ b, l.foldl f b = l.foldl f' b := by
  induction l with
  | nil => intro b; rfl
  | cons hd tl ih =>
    intro b
    rw [List.foldl_cons, List.foldl_cons, h b hd (List.mem_cons_self _ _)]
    exact ih (fun b a ha => h b a (List.mem_cons_of_mem _ ha)) _

theorem foldl_init_le {α : Type} (f : Nat → α → Nat) (hub : ∀ b a, b ≤ f b a) :
    ∀ (l : List α) (b : Nat), b ≤ l.foldl f b := by
  intro l
  induction l with
  | nil => intro b; exact le_rfl
  | cons hd tl ih => intro b; exact le_trans (hub b hd) (ih _)

theorem foldl_le_of_mem {α : Type} (f : Nat → α → Nat) (hub : ∀ b a, b ≤ f b a)
    (hmono : ∀ b b' a, b ≤ b' → f b a ≤ f b' a) :
    ∀ (l : List α) (b : Nat) (a : α), a ∈ l → f b a ≤ l.foldl f b := by
  intro l
  induction l with
  | nil => intro b a ha; simp at ha
  | cons hd tl ih =>
    intro b a ha
    rcases List.mem_cons.mp ha with ha | ha
    · subst ha
      exact foldl_init_le f hub tl (f b a)
    · exact le_trans (hmono _ _ _ (hub b hd)) (ih (f b hd) a ha)

theorem keysA_append_single {V : Type} (m : List (Nat × V)) (k : Nat) (v : V) :
    keysA (insertNewA m k v) = keysA m ++ [k] := by
  simp [insertNewA, keysA]

/-! ## Congruence and lower bounds for `maxInLatSpec` -/

theorem maxInLatSpec_congr {g : Graph} {M M' : List (Nat × UsedNode)} {gn : GNode}
    (h : ∀ ip port u ps, (ip, port) ∈ gn.inputs → (u, ps) ∈ port.conns → ps ≠ [] →
      interLat M u = interLat M' u) :
    maxInLatSpec g M gn = maxInLatSpec g M' gn := by
  unfold maxInLatSpec
  apply foldl_ext_mem
  intro b pr hpr
  apply foldl_ext_mem
  intro b2 c hc
  cases hps : c.2 with
  | nil => rfl
  | cons q qs =>
    have hne : c.2 ≠ [] := by rw [hps]; simp
    have hint : interLat M c.1 = interLat M' c.1 := h pr.1 pr.2 c.1 c.2 hpr (by
      obtain ⟨c1, c2⟩ := c
      exact hc) hne
    apply foldl_ext_mem
    intro b3 p _
    rw [hint]

theorem maxInLatSpec_ge {g : Graph} {M : List (Nat × UsedNode)} {gn : GNode}
    {ip : Nat} {port : Port} {u : Nat} {ps : List Nat} {p : Nat}
    (hip : (ip, port) ∈ gn.inputs) (hu : (u, ps) ∈ port.conns) (hp : p ∈ ps) :
    interLat M u + latOf g u p ≤ maxInLatSpec g M gn := by
  set X := interLat M u + latOf g u p with hX
  have hub3 : ∀ (c : Nat × List Nat) (b : Nat) (q : Nat),
      b ≤ max b (interLat M c.1 + latOf g c.1 q) := fun _ b _ => le_max_left _ _
  have hmono3 : ∀ (c : Nat × List Nat) (b b' : Nat) (q : Nat), b ≤ b' →
      max b (interLat M c.1 + latOf g c.1 q) ≤ max b' (interLat M c.1 + latOf g c.1 q) :=
    fun _ _ _ _ hb => max_le_max hb le_rfl
  have hG : ∀ (c : Nat × List Nat) (b : Nat),
      b ≤ c.2.foldl (fun acc3 q => max acc3 (interLat M c.1 + latOf g c.1 q)) b :=
    fun c b => foldl_init_le _ (hub3 c) _ _
  have hGmono : ∀ (c : Nat × List Nat) (b b' : Nat), b ≤ b' →
      c.2.foldl (fun acc3 q => max acc3 (interLat M c.1 + latOf g c.1 q)) b ≤
      c.2.foldl (fun acc3 q => max acc3 (interLat M c.1 + latOf g c.1 q)) b' := by
    intro c b b' hb
    induction c.2 generalizing b b' with
    | nil => exact hb
    | cons q qs ih => exact ih _ _ (hmono3 c _ _ _ hb)
  have step1 : ∀ b : Nat, X ≤
      ps.foldl (fun acc3 q => max acc3 (interLat M u + latOf g u q)) b := by
    intro b
    have := foldl_le_of_mem (fun acc3 q => max acc3 (interLat M u + latOf g u q))
      (fun b' q => le_max_left _ _) (fun b₁ b₂ q hb => max_le_max hb le_rfl) ps b p hp
    exact le_trans (le_max_right b X) this
  have step2 : ∀ b : Nat, X ≤
      port.conns.foldl
        (fun acc2 c => c.2.foldl (fun acc3 q => max acc3 (interLat M c.1 + latOf g c.1 q)) acc2) b := by
    intro b
    have hle := foldl_le_of_mem
      (fun acc2 c => c.2.foldl (fun acc3 q => max acc3 (interLat M c.1 + latOf g c.1 q)) acc2)
      (fun b' c => hG c b') (fun b₁ b₂ c hb => hGmono c _ _ hb)
      port.conns b (u, ps) hu
    exact le_trans (step1 b) hle
  have hF : ∀ (pr : Nat × Port) (b : Nat), b ≤
      pr.2.conns.foldl
        (fun acc2 c => c.2.foldl (fun acc3 q => max acc3 (interLat M c.1 + latOf g c.1 q)) acc2) b :=
    fun pr b => foldl_init_le _ (fun b' c => hG c b') _ _
  have hFmono : ∀ (pr : Nat × Port) (b b' : Nat), b ≤ b' →
      pr.2.conns.foldl
        (fun acc2 c => c.2.foldl (fun acc3 q => max acc3 (interLat M c.1 + latOf g c.1 q)) acc2) b ≤
      pr.2.conns.foldl
        (fun acc2 c => c.2.foldl (fun acc3 q => max acc3 (interLat M c.1 + latOf g c.1 q)) acc2) b' := by
    intro pr b b' hb
    induction pr.2.conns generalizing b b' with
    | nil => exact hb
    | cons q qs ih => exact ih _ _ (hGmono q _ _ hb)
  have hle := foldl_le_of_mem
    (fun acc pr => (pr : Nat × Port).2.conns.foldl
      (fun acc2 c => c.2.foldl (fun acc3 q => max acc3 (interLat M c.1 + latOf g c.1 q)) acc2) acc)
    (fun b pr => hF pr b) (fun b₁ b₂ pr hb => hFmono pr _ _ hb)
    gn.inputs 0 (ip, port) hip
  exact le_trans (step2 0) hle

theorem Preserve.refl (st : SchedState) : Preserve st st :=
  fun x r h => ⟨r, h, rfl, fun _ _ _ hp => hp⟩

theorem Preserve.trans {s1 s2 s3 : SchedState} (h1 : Preserve s1 s2)
    (h2 : Preserve s2 s3) : Preserve s1 s3 := by
  intro x r hr
  obtain ⟨r2, hr2, hd2, hg2⟩ := h1 x r hr
  obtain ⟨r3, hr3, hd3, hg3⟩ := h2 x r2 hr2
  exact ⟨r3, hr3, hd3.trans hd2, fun o v i hp => hg3 o v i (hg2 o v i hp)⟩

theorem Preserve.interLat_eq {s1 s2 : SchedState} (h : Preserve s1 s2)
    {x : Nat} (hx : x ∈ keysA s1.inter) : interLat s2.inter x = interLat s1.inter x := by
  obtain ⟨r, hr⟩ := Option.isSome_iff_exists.mp ((lookupA_isSome_iff _ _).mpr hx)
  obtain ⟨r', hr', hd, _⟩ := h x r hr
  simp [interLat, hr, hr', hd]

/-! ## Specification of the innermost loop -/

theorem asnSrcPorts_spec (g : Graph) (index destPortId srcNodeId srcInputLat : Nat) :
    ∀ (l : List Nat) (uo : List (Nat × Port)) (maxLat : Nat) uo' maxLat',
      asnSrcPorts g index destPortId srcNodeId srcInputLat l uo maxLat =
        some (uo', maxLat') →
      (∀ o v i, PortEdge uo' o v i ↔
        (PortEdge uo o v i ∨ (o ∈ l ∧ v = index ∧ i = destPortId))) ∧
      maxLat' = l.foldl (fun acc p => max acc (srcInputLat + latOf g srcNodeId p)) maxLat := by
  intro l
  induction l with
  | nil =>
    intro uo maxLat uo' maxLat' h
    rw [asnSrcPorts] at h
    injection h with h
    injection h with h1 h2
    subst h1
    subst h2
    exact ⟨fun o v i => by simp, rfl⟩
  | cons p rest ih =>
    intro uo maxLat uo' maxLat' h
    rw [asnSrcPorts] at h
    rcases hsrc : g.getNode srcNodeId with _ | srcNode
    · rw [hsrc] at h
      exact absurd h (by simp)
    · simp only [hsrc] at h
      rcases hlat : lookupA srcNode.outLats p with _ | plat
      · rw [hlat] at h
        exact absurd h (by simp)
      · simp only [hlat] at h
        obtain ⟨hiff, hmax⟩ := ih _ _ _ _ h
        have hlatof : latOf g srcNodeId p = plat := by
          simp [latOf, hsrc, hlat]
        constructor
        · intro o v i
          rw [hiff o v i]
          have hstep : PortEdge (modifyA Port.empty
              (fun q => (q.insertConnection index destPortId).2) uo p) o v i ↔
              (PortEdge uo o v i ∨ (o = p ∧ v = index ∧ i = destPortId)) := by
            by_cases hop : o = p
            · subst hop
              constructor
              · rintro ⟨port, ps, hport, hconn, hi⟩
                rw [lookupA_modifyA_self] at hport
                injection hport with hport
                subst hport
                have := (insertConnection_conn_iff ((lookupA uo o).getD Port.empty)
                  index destPortId v i).mp ⟨ps, hconn, hi⟩
                rcases this with ⟨ps₀, hps₀, hi₀⟩ | ⟨h1, h2⟩
                · rcases hbase : lookupA uo o with _ | port₀
                  · rw [hbase] at hps₀
                    simp only [Option.getD_none] at hps₀
                    rw [show Port.empty.conns = [] from rfl] at hps₀
                    exact absurd hps₀ (by simp [lookupA])
                  · rw [hbase] at hps₀
                    exact Or.inl ⟨port₀, ps₀, hbase, by simpa using hps₀, hi₀⟩
                · exact Or.inr ⟨rfl, h1, h2⟩
              · rintro (⟨port, ps, hport, hconn, hi⟩ | ⟨_, h2, h3⟩)
                · obtain ⟨ps₁, hps₁, hi₁⟩ :=
                    (insertConnection_conn_iff ((lookupA uo o).getD Port.empty)
                      index destPortId v i).mpr (Or.inl ⟨ps, by
                        rw [hport]
                        exact hconn, hi⟩)
                  exact ⟨_, ps₁, lookupA_modifyA_self _ _ _ _, hps₁, hi₁⟩
                · obtain ⟨ps₁, hps₁, hi₁⟩ :=
                    (insertConnection_conn_iff ((lookupA uo o).getD Port.empty)
                      index destPortId index destPortId).mpr (Or.inr ⟨rfl, rfl⟩)
                  rw [h2, h3]
                  exact ⟨_, ps₁, lookupA_modifyA_self _ _ _ _, hps₁, hi₁⟩
            · constructor
              · rintro ⟨port, ps, hport, hconn, hi⟩
                rw [lookupA_modifyA_ne _ _ _ _ _ hop] at hport
                exact Or.inl ⟨port, ps, hport, hconn, hi⟩
              · rintro (⟨port, ps, hport, hconn, hi⟩ | ⟨h1, _⟩)
                · exact ⟨port, ps, by rw [lookupA_modifyA_ne _ _ _ _ _ hop]; exact hport,
                    hconn, hi⟩
                · exact absurd h1 hop
          rw [hstep]
          constructor
          · rintro ((h1 | ⟨h1, h2, h3⟩) | ⟨h1, h2, h3⟩)
            · exact Or.inl h1
            · exact Or.inr ⟨h1 ▸ List.mem_cons_self _ _, h2, h3⟩
            · exact Or.inr ⟨List.mem_cons_of_mem _ h1, h2, h3⟩
          · rintro (h1 | ⟨h1, h2, h3⟩)
            · exact Or.inl (Or.inl h1)
            · rcases List.mem_cons.mp h1 with h1 | h1
              · exact Or.inl (Or.inr ⟨h1, h2, h3⟩)
              · exact Or.inr ⟨h1, h2, h3⟩
        · rw [hmax, List.foldl_cons, hlatof]

/-! ## Specification of the connection loop -/

theorem asnConns_spec {g : Graph} {rank : Nat → Nat}
    {rec : SchedState → Nat → DfsRes SchedState}
    (hwf : g.wfB = true) (hrank : g.rankedB rank = true) (hrec : RecSpec g rank rec)
    (index destPortId : Nat) :
    ∀ (l : List (Nat × List Nat)) (st : SchedState) (maxLat : Nat)
      (st' : SchedState) (maxLat' : Nat) (pend : Nat → Prop),
      asnConns g rec index destPortId l st maxLat = .ok (st', maxLat') →
      (∀ u ps o, (u, ps) ∈ l → o ∈ ps → g.HasEdge u o index destPortId) →
      (∀ u ps, (u, ps) ∈ l → ps ≠ []) →
      SchedInv g st (fun x => pend x ∨ x = index) →
      (∀ x, pend x → rank index < rank x) →
      SchedInv g st' (fun x => pend x ∨ x = index) ∧
      Preserve st st' ∧
      (∃ Δ, st'.order = st.order ++ Δ ∧ keysA st'.inter = keysA st.inter ++ Δ ∧
        ∀ x ∈ Δ, ∃ u ps, (u, ps) ∈ l ∧ g.Reaches x u) ∧
      (∀ u ps, (u, ps) ∈ l → u ∈ keysA st'.inter) ∧
      (∀ u ps o, (u, ps) ∈ l → o ∈ ps → UsedEdge st'.inter u o index destPortId) ∧
      maxLat' = l.foldl (fun acc c =>
        c.2.foldl (fun a2 p => max a2 (interLat st'.inter c.1 + latOf g c.1 p)) acc)
        maxLat := by
  intro l
  induction l with
  | nil =>
    intro st maxLat st' maxLat' pend h hedge hne hinv hpend
    rw [asnConns] at h
    injection h with h
    injection h with h1 h2
    subst h1
    subst h2
    exact ⟨hinv, Preserve.refl st, ⟨[], by simp, by simp, by simp⟩, by simp, by simp, rfl⟩
  | cons hd rest ih =>
    obtain ⟨u, ps⟩ := hd
    intro st maxLat st' maxLat' pend h hedge hne hinv hpend
    rw [asnConns] at h
    rcases hr1 : rec st u with _ | _ | st₁
    · rw [hr1] at h
      exact absurd h (by simp)
    · rw [hr1] at h
      exact absurd h (by simp)
    · simp only [hr1] at h
      -- the recursive call on the producer u
      have hedgeHead : ∃ o, g.HasEdge u o index destPortId := by
        obtain ⟨o, ho⟩ := List.exists_mem_of_ne_nil ps (hne u ps (List.mem_cons_self _ _))
        exact ⟨o, hedge u ps o (List.mem_cons_self _ _) ho⟩
      obtain ⟨o₀, ho₀⟩ := hedgeHead
      have hltu : rank u < rank index := rankedB_lt hrank ho₀
      have hpend' : ∀ x, (pend x ∨ x = index) → rank u < rank x := by
        rintro x (hx | rfl)
        · exact lt_trans hltu (hpend x hx)
        · exact hltu
      obtain ⟨hinv₁, hpres₁, hdelta₁, hukeys₁⟩ := hrec st u st₁ _ hr1 hinv hpend'
      rcases hsr : lookupA st₁.inter u with _ | srcRec
      · rw [hsr] at h
        exact absurd h (by simp)
      · simp only [hsr] at h
        rcases hsp : asnSrcPorts g index destPortId u srcRec.maxDelay ps
            srcRec.usedOutputs maxLat with _ | pr
        · rw [hsp] at h
          exact absurd h (by simp)
        · simp only [hsp] at h
          obtain ⟨uo', maxLat₁⟩ := pr
          obtain ⟨hiff, hmax₁⟩ := asnSrcPorts_spec g index destPortId u srcRec.maxDelay
            ps srcRec.usedOutputs maxLat uo' maxLat₁ hsp
          set st₂ : SchedState := { st₁ with inter := (modifyA ⟨0, []⟩
            (fun r => { r with usedOutputs := uo' }) st₁.inter u) } with hst₂
          have hlook₂ : ∀ x, lookupA st₂.inter x =
              if x = u then some ⟨srcRec.maxDelay, uo'⟩ else lookupA st₁.inter x := by
            intro x
            by_cases hxu : x = u
            · subst hxu
              rw [if_pos rfl]
              show lookupA (modifyA _ _ _ _) x = _
              rw [lookupA_modifyA_self, hsr]
              rfl
            · rw [if_neg hxu]
              show lookupA (modifyA _ _ _ _) x = _
              rw [lookupA_modifyA_ne _ _ _ _ _ hxu]
          have hkeys₂ : keysA st₂.inter = keysA st₁.inter := by
            show keysA (modifyA _ _ _ _) = _
            exact keysA_modifyA_mem _ _ _ _ (by simp [hsr])
          have horder₂ : st₂.order = st₁.order := rfl
          have hIL₂ : ∀ y, interLat st₂.inter y = interLat st₁.inter y := by
            intro y
            rw [interLat, interLat, hlook₂ y]
            by_cases hyu : y = u
            · subst hyu
              rw [if_pos rfl, hsr]
            · rw [if_neg hyu]
          have hUE₂ : ∀ x o v i, UsedEdge st₂.inter x o v i ↔
              (UsedEdge st₁.inter x o v i ∨
                (x = u ∧ o ∈ ps ∧ v = index ∧ i = destPortId)) := by
            intro x o v i
            by_cases hxu : x = u
            · subst hxu
              constructor
              · rintro ⟨r, hr, hpe⟩
                rw [hlook₂ x, if_pos rfl] at hr
                injection hr with hr
                subst hr
                rcases (hiff o v i).mp hpe with hold | ⟨h1, h2, h3⟩
                · exact Or.inl ⟨srcRec, hsr, hold⟩
                · exact Or.inr ⟨rfl, h1, h2, h3⟩
              · rintro (⟨r, hr, hpe⟩ | ⟨_, h1, h2, h3⟩)
                · rw [hsr] at hr
                  injection hr with hr
                  subst hr
                  exact ⟨_, by rw [hlook₂ x, if_pos rfl], (hiff o v i).mpr (Or.inl hpe)⟩
                · rw [h2, h3]
                  exact ⟨_, by rw [hlook₂ x, if_pos rfl],
                    (hiff o index destPortId).mpr (Or.inr ⟨h1, rfl, rfl⟩)⟩
            · constructor
              · rintro ⟨r, hr, hpe⟩
                rw [hlook₂ x, if_neg hxu] at hr
                exact Or.inl ⟨r, hr, hpe⟩
              · rintro (⟨r, hr, hpe⟩ | ⟨h1, _⟩)
                · exact ⟨r, by rw [hlook₂ x, if_neg hxu]; exact hr, hpe⟩
                · exact absurd h1 hxu
          have hinv₂ : SchedInv g st₂ (fun x => pend x ∨ x = index) := by
            refine ⟨?_, ?_, ?_, ?_, ?_, ?_⟩
            · rw [horder₂, hkeys₂]
              exact hinv₁.orderKeys
            · rw [hkeys₂]
              exact hinv₁.nodup
            · intro x r hr
              rw [hlook₂ x] at hr
              by_cases hxu : x = u
              · subst hxu
                rw [if_pos rfl] at hr
                injection hr with hr
                subst hr
                obtain ⟨gn, hgn, hlat⟩ := hinv₁.latEq x srcRec hsr
                refine ⟨gn, hgn, ?_⟩
                show srcRec.maxDelay = _
                rw [hlat]
                exact maxInLatSpec_congr (fun ip port w qs _ _ _ => (hIL₂ w).symm)
              · rw [if_neg hxu] at hr
                obtain ⟨gn, hgn, hlat⟩ := hinv₁.latEq x r hr
                refine ⟨gn, hgn, ?_⟩
                rw [hlat]
                exact maxInLatSpec_congr (fun ip port w qs _ _ _ => (hIL₂ w).symm)
            · intro x o v i hx
              rcases (hUE₂ x o v i).mp hx with hold | ⟨h1, h2, h3, h4⟩
              · obtain ⟨he, hu, hv, hb⟩ := hinv₁.usedSound x o v i hold
                rw [hkeys₂, horder₂]
                exact ⟨he, hu, hv, hb⟩
              · rw [h1, h3, h4]
                refine ⟨hedge u ps o (List.mem_cons_self _ _) h2, ?_, ?_, ?_⟩
                · rw [hkeys₂]
                  exact hukeys₁
                · exact Or.inr (Or.inr rfl)
                · intro hik
                  rw [hkeys₂] at hik
                  exact absurd hik (hinv₁.pendDisj index (Or.inr rfl))
            · intro x hx u₂ o i he
              rw [hkeys₂] at hx
              obtain ⟨hu₂, hue⟩ := hinv₁.usedComplete x hx u₂ o i he
              rw [hkeys₂]
              exact ⟨hu₂, (hUE₂ u₂ o x i).mpr (Or.inl hue)⟩
            · intro x hx
              rw [hkeys₂]
              exact hinv₁.pendDisj x hx
          have hpres₂ : Preserve st₁ st₂ := by
            intro x r hr
            by_cases hxu : x = u
            · subst hxu
              rw [hsr] at hr
              injection hr with hr
              subst hr
              exact ⟨⟨srcRec.maxDelay, uo'⟩, by rw [hlook₂ x, if_pos rfl], rfl,
                fun o v i hpe => (hiff o v i).mpr (Or.inl hpe)⟩
            · exact ⟨r, by rw [hlook₂ x, if_neg hxu]; exact hr, rfl,
                fun o v i hpe => hpe⟩
          obtain ⟨hinv', hpres', hdelta', hukeys', hrec', hmax'⟩ :=
            ih st₂ maxLat₁ st' maxLat' pend h
              (fun u₂ ps₂ o₂ hm ho => hedge u₂ ps₂ o₂ (List.mem_cons_of_mem _ hm) ho)
              (fun u₂ ps₂ hm => hne u₂ ps₂ (List.mem_cons_of_mem _ hm))
              hinv₂ hpend
          have hILu : interLat st'.inter u = srcRec.maxDelay := by
            have h1 : interLat st₂.inter u = srcRec.maxDelay := by
              rw [interLat, hlook₂ u, if_pos rfl]
            have h2 : u ∈ keysA st₂.inter := by
              rw [hkeys₂]
              exact hukeys₁
            rw [hpres'.interLat_eq h2, h1]
          refine ⟨hinv', (hpres₁.trans hpres₂).trans hpres', ?_, ?_, ?_, ?_⟩
          · obtain ⟨Δ₁, ho₁, hk₁, hr₁⟩ := hdelta₁
            obtain ⟨Δ₂, ho₂, hk₂, hr₂⟩ := hdelta'
            refine ⟨Δ₁ ++ Δ₂, ?_, ?_, ?_⟩
            · rw [ho₂, horder₂, ho₁, List.append_assoc]
            · rw [hk₂, hkeys₂, hk₁, List.append_assoc]
            · intro x hx
              rcases List.mem_append.mp hx with hx | hx
              · exact ⟨u, ps, List.mem_cons_self _ _, hr₁ x hx⟩
              · obtain ⟨u₂, ps₂, hm, hre⟩ := hr₂ x hx
                exact ⟨u₂, ps₂, List.mem_cons_of_mem _ hm, hre⟩
          · intro u₂ ps₂ hm
            rcases List.mem_cons.mp hm with hm | hm
            · injection hm with hm1 hm2
              subst hm1
              obtain ⟨Δ₂, _, hk₂, _⟩ := hdelta'
              rw [hk₂, hkeys₂]
              exact List.mem_append_left _ hukeys₁
            · exact hukeys' u₂ ps₂ hm
          · intro u₂ ps₂ o₂ hm ho
            rcases List.mem_cons.mp hm with hm | hm
            · injection hm with hm1 hm2
              subst hm1
              subst hm2
              have hue₂ : UsedEdge st₂.inter u₂ o₂ index destPortId :=
                (hUE₂ u₂ o₂ index destPortId).mpr (Or.inr ⟨rfl, ho, rfl, rfl⟩)
              obtain ⟨r, hr, hpe⟩ := hue₂
              obtain ⟨r', hr', _, hg⟩ := hpres' u₂ r hr
              exact ⟨r', hr', hg _ _ _ hpe⟩
            · exact hrec' u₂ ps₂ o₂ hm ho
          · rw [hmax', List.foldl_cons, hmax₁]
            congr 1
            apply foldl_ext_mem
            intro b p _
            rw [hILu]

/-! ## Specification of the input-port loop -/

theorem asnInputs_spec {g : Graph} {rank : Nat → Nat}
    {rec : SchedState → Nat → DfsRes SchedState}
    (hwf : g.wfB = true) (hrank : g.rankedB rank = true) (hrec : RecSpec g rank rec)
    (index : Nat) :
    ∀ (l : List (Nat × Port)) (st : SchedState) (maxLat : Nat)
      (st' : SchedState) (maxLat' : Nat) (pend : Nat → Prop),
      asnInputs g rec index l st maxLat = .ok (st', maxLat') →
      (∀ ip port u ps o, (ip, port) ∈ l → (u, ps) ∈ port.conns → o ∈ ps →
        g.HasEdge u o index ip) →
      (∀ ip port u ps, (ip, port) ∈ l → (u, ps) ∈ port.conns → ps ≠ []) →
      SchedInv g st (fun x => pend x ∨ x = index) →
      (∀ x, pend x → rank index < rank x) →
      SchedInv g st' (fun x => pend x ∨ x = index) ∧
      Preserve st st' ∧
      (∃ Δ, st'.order = st.order ++ Δ ∧ keysA st'.inter = keysA st.inter ++ Δ ∧
        ∀ x ∈ Δ, ∃ ip port u ps, (ip, port) ∈ l ∧ (u, ps) ∈ port.conns ∧
          g.Reaches x u) ∧
      (∀ ip port u ps, (ip, port) ∈ l → (u, ps) ∈ port.conns →
        u ∈ keysA st'.inter) ∧
      (∀ ip port u ps o, (ip, port) ∈ l → (u, ps) ∈ port.conns → o ∈ ps →
        UsedEdge st'.inter u o index ip) ∧
      maxLat' = l.foldl
        (fun acc pr => pr.2.conns.foldl
          (fun acc2 c => c.2.foldl
            (fun acc3 p => max acc3 (interLat st'.inter c.1 + latOf g c.1 p)) acc2)
          acc) maxLat := by
  intro l
  induction l with
  | nil =>
    intro st maxLat st' maxLat' pend h hedge hne hinv hpend
    rw [asnInputs] at h
    injection h with h
    injection h with h1 h2
    subst h1
    subst h2
    exact ⟨hinv, Preserve.refl st, ⟨[], by simp, by simp, by simp⟩, by simp, by simp, rfl⟩
  | cons hd rest ih =>
    obtain ⟨ip, port⟩ := hd
    intro st maxLat st' maxLat' pend h hedge hne hinv hpend
    rw [asnInputs] at h
    rcases hc : asnConns g rec index ip port.conns st maxLat with _ | _ | pr
    · rw [hc] at h
      exact absurd h (by simp)
    · rw [hc] at h
      exact absurd h (by simp)
    · simp only [hc] at h
      obtain ⟨st₁, maxLat₁⟩ := pr
      obtain ⟨hinv₁, hpres₁, hdelta₁, hukeys₁, hue₁, hmax₁⟩ :=
        asnConns_spec hwf hrank hrec index ip port.conns st maxLat st₁ maxLat₁ pend hc
          (fun u ps o hm ho => hedge ip port u ps o (List.mem_cons_self _ _) hm ho)
          (fun u ps hm => hne ip port u ps (List.mem_cons_self _ _) hm)
          hinv hpend
      obtain ⟨hinv', hpres', hdelta', hukeys', hue', hmax'⟩ :=
        ih st₁ maxLat₁ st' maxLat' pend h
          (fun ip₂ port₂ u ps o hm hm2 ho =>
            hedge ip₂ port₂ u ps o (List.mem_cons_of_mem _ hm) hm2 ho)
          (fun ip₂ port₂ u ps hm hm2 =>
            hne ip₂ port₂ u ps (List.mem_cons_of_mem _ hm) hm2)
          hinv₁ hpend
      have hsrcKeys : ∀ u ps, (u, ps) ∈ port.conns → u ∈ keysA st'.inter := by
        intro u ps hm
        obtain ⟨Δ₂, _, hk₂, _⟩ := hdelta'
        rw [hk₂]
        exact List.mem_append_left _ (hukeys₁ u ps hm)
      refine ⟨hinv', hpres₁.trans hpres', ?_, ?_, ?_, ?_⟩
      · obtain ⟨Δ₁, ho₁, hk₁, hr₁⟩ := hdelta₁
        obtain ⟨Δ₂, ho₂, hk₂, hr₂⟩ := hdelta'
        refine ⟨Δ₁ ++ Δ₂, by rw [ho₂, ho₁, List.append_assoc],
          by rw [hk₂, hk₁, List.append_assoc], ?_⟩
        intro x hx
        rcases List.mem_append.mp hx with hx | hx
        · obtain ⟨u, ps, hm, hre⟩ := hr₁ x hx
          exact ⟨ip, port, u, ps, List.mem_cons_self _ _, hm, hre⟩
        · obtain ⟨ip₂, port₂, u, ps, hm, hm2, hre⟩ := hr₂ x hx
          exact ⟨ip₂, port₂, u, ps, List.mem_cons_of_mem _ hm, hm2, hre⟩
      · intro ip₂ port₂ u ps hm hm2
        rcases List.mem_cons.mp hm with hm | hm
        · injection hm with hm1 hm2'
          subst hm1
          subst hm2'
          exact hsrcKeys u ps hm2
        · exact hukeys' ip₂ port₂ u ps hm hm2
      · intro ip₂ port₂ u ps o hm hm2 ho
        rcases List.mem_cons.mp hm with hm | hm
        · injection hm with hm1 hm2'
          subst hm1
          subst hm2'
          obtain ⟨r, hr, hpe⟩ := hue₁ u ps o hm2 ho
          obtain ⟨r', hr', _, hg⟩ := hpres' u r hr
          exact ⟨r', hr', hg _ _ _ hpe⟩
        · exact hue' ip₂ port₂ u ps o hm hm2 ho
      · rw [hmax', List.foldl_cons, hmax₁]
        congr 1
        apply foldl_ext_mem
        intro b c hc2
        apply foldl_ext_mem
        intro b2 p _
        have : interLat st'.inter c.1 = interLat st₁.inter c.1 := by
          apply hpres'.interLat_eq
          obtain ⟨c1, c2⟩ := c
          exact hukeys₁ c1 c2 hc2
        rw [this]

/-! ## Finalisation: appending the node after its inputs are processed -/

theorem addSink_finalize {g : Graph} {rank : Nat → Nat}
    (hwf : g.wfB = true)
    {st₁ st₂ : SchedState} {n maxLat : Nat} {node : GNode} {pend : Nat → Prop}
    (hg : g.getNode n = some node)
    (hinv₁ : SchedInv g st₁ (fun x => pend x ∨ x = n))
    (hpend : ∀ x, pend x → rank n < rank x)
    (hnone : lookupA st₁.inter n = none)
    (hukeys : ∀ ip port u ps, (ip, port) ∈ node.inputs → (u, ps) ∈ port.conns →
      u ∈ keysA st₁.inter)
    (hue : ∀ ip port u ps o, (ip, port) ∈ node.inputs → (u, ps) ∈ port.conns →
      o ∈ ps → UsedEdge st₁.inter u o n ip)
    (hmax : maxLat = maxInLatSpec g st₁.inter node)
    (hO : st₂.order = st₁.order ++ [n])
    (hM : st₂.inter = insertNewA st₁.inter n ⟨maxLat, []⟩) :
    SchedInv g st₂ pend ∧ Preserve st₁ st₂ ∧
    keysA st₂.inter = keysA st₁.inter ++ [n] ∧ n ∈ keysA st₂.inter := by
  have hnotin : n ∉ keysA st₁.inter := (lookupA_eq_none_iff _ _).mp hnone
  have hkeys2 : keysA st₂.inter = keysA st₁.inter ++ [n] := by
    rw [hM]
    exact keysA_append_single _ _ _
  have hlookOld : ∀ x r, lookupA st₁.inter x = some r → lookupA st₂.inter x = some r := by
    intro x r hx
    rw [hM, lookupA_insertNewA, hx]
  have hlookNone : ∀ x, lookupA st₁.inter x = none →
      lookupA st₂.inter x = (if n = x then some (⟨maxLat, []⟩ : UsedNode) else none) := by
    intro x hx
    rw [hM, lookupA_insertNewA, hx]
  have hintOld : ∀ x, x ∈ keysA st₁.inter →
      interLat st₂.inter x = interLat st₁.inter x := by
    intro x hx
    obtain ⟨r, hr⟩ := Option.isSome_iff_exists.mp ((lookupA_isSome_iff _ _).mpr hx)
    rw [interLat, interLat, hr, hlookOld x r hr]
  have hprodKeys : ∀ x gnx, g.getNode x = some gnx → x ∈ keysA st₁.inter →
      ∀ ip port u ps, (ip, port) ∈ gnx.inputs → (u, ps) ∈ port.conns → ps ≠ [] →
        u ∈ keysA st₁.inter := by
    intro x gnx hgx hxk ip port u ps hip hu hne2
    obtain ⟨o, ho⟩ := List.exists_mem_of_ne_nil ps hne2
    have hedge : g.HasEdge u o x ip :=
      ⟨gnx, port, ps, hgx, mem_lookupA (wfB_node_nodup hwf hgx).2 hip,
        mem_lookupA (wfB_port_nodup hwf hgx hip) hu, (List.elem_iff).mpr ho⟩
    exact (hinv₁.usedComplete x hxk u o ip hedge).1
  have hcongr : ∀ x gnx, g.getNode x = some gnx → x ∈ keysA st₁.inter →
      maxInLatSpec g st₁.inter gnx = maxInLatSpec g st₂.inter gnx := by
    intro x gnx hgx hxk
    apply maxInLatSpec_congr
    intro ip port u ps hip hu hne2
    exact (hintOld u (hprodKeys x gnx hgx hxk ip port u ps hip hu hne2)).symm
  have hcongrN : maxInLatSpec g st₁.inter node = maxInLatSpec g st₂.inter node := by
    apply maxInLatSpec_congr
    intro ip port u ps hip hu _
    exact (hintOld u (hukeys ip port u ps hip hu)).symm
  have hpres₂ : Preserve st₁ st₂ :=
    fun x r hx => ⟨r, hlookOld x r hx, rfl, fun _ _ _ hp => hp⟩
  refine ⟨⟨?_, ?_, ?_, ?_, ?_, ?_⟩, hpres₂, hkeys2, by rw [hkeys2]; simp⟩
  · rw [hO, hkeys2, hinv₁.orderKeys]
  · rw [hkeys2]
    exact List.Nodup.append hinv₁.nodup (List.nodup_singleton n)
      (fun a ha hb => hnotin (by
        have hb2 : a = n := by simpa using hb
        rwa [← hb2]))
  · intro x r hx
    rcases h1 : lookupA st₁.inter x with _ | r₀
    · rw [hlookNone x h1] at hx
      by_cases hnx : n = x
      · rw [if_pos hnx] at hx
        injection hx with hx
        subst hnx
        refine ⟨node, hg, ?_⟩
        rw [← hx]
        show maxLat = maxInLatSpec g st₂.inter node
        rw [hmax]
        exact hcongrN
      · rw [if_neg hnx] at hx
        exact absurd hx (by simp)
    · rw [hlookOld x r₀ h1] at hx
      injection hx with hx
      subst hx
      obtain ⟨gnx, hgx, hd⟩ := hinv₁.latEq x r₀ h1
      refine ⟨gnx, hgx, ?_⟩
      rw [hd]
      exact hcongr x gnx hgx ((lookupA_isSome_iff _ _).mp (by simp [h1]))
  · intro u o v i hUE
    obtain ⟨r, hr, hpe⟩ := hUE
    rcases h1 : lookupA st₁.inter u with _ | r₀
    · rw [hlookNone u h1] at hr
      by_cases hnu : n = u
      · rw [if_pos hnu] at hr
        injection hr with hr
        rw [← hr] at hpe
        obtain ⟨port, ps, hp, _⟩ := hpe
        exact absurd hp (by simp [lookupA])
      · rw [if_neg hnu] at hr
        exact absurd hr (by simp)
    · rw [hlookOld u r₀ h1] at hr
      injection hr with hr
      subst hr
      have hUE1 : UsedEdge st₁.inter u o v i := ⟨r₀, h1, hpe⟩
      obtain ⟨hedge, hu1, hv1, hb1⟩ := hinv₁.usedSound u o v i hUE1
      have hv1' : v ∈ keysA st₁.inter ∨ (pend v ∨ v = n) := hv1
      refine ⟨hedge, by rw [hkeys2]; exact List.mem_append_left _ hu1, ?_, ?_⟩
      · rcases hv1' with hv2 | hv2 | hv2
        · exact Or.inl (by rw [hkeys2]; exact List.mem_append_left _ hv2)
        · exact Or.inr hv2
        · subst hv2
          exact Or.inl (by rw [hkeys2]; simp)
      · intro hv3
        rw [hkeys2] at hv3
        rw [hO]
        rcases List.mem_append.mp hv3 with hv4 | hv4
        · exact beforeL_append_right _ (hb1 hv4)
        · have hvn : v = n := by simpa using hv4
          subst hvn
          apply beforeL_of_mem
          · rw [hinv₁.orderKeys]
            exact hu1
          · simp
  · intro x hx u o i hedge
    rw [hkeys2] at hx
    rcases List.mem_append.mp hx with hx1 | hx1
    · obtain ⟨hu1, hUE1⟩ := hinv₁.usedComplete x hx1 u o i hedge
      obtain ⟨r, hr, hpe⟩ := hUE1
      exact ⟨by rw [hkeys2]; exact List.mem_append_left _ hu1,
        ⟨r, hlookOld u r hr, hpe⟩⟩
    · have hxn : x = n := by simpa using hx1
      subst hxn
      obtain ⟨node2, port, ps, hg2, hi, hu2, ho⟩ := hedge
      rw [hg] at hg2
      injection hg2 with hg2
      subst hg2
      have hipm : (i, port) ∈ node.inputs := lookupA_mem hi
      have hum : (u, ps) ∈ port.conns := lookupA_mem hu2
      have hom : o ∈ ps := (List.elem_iff).mp ho
      obtain ⟨r, hr, hpe⟩ := hue i port u ps o hipm hum hom
      exact ⟨by rw [hkeys2]; exact List.mem_append_left _ (hukeys i port u ps hipm hum),
        ⟨r, hlookOld u r hr, hpe⟩⟩
  · intro x hpx
    rw [hkeys2]
    intro hmem
    rcases List.mem_append.mp hmem with hmem1 | hmem1
    · exact hinv₁.pendDisj x (Or.inl hpx) hmem1
    · have hxn : x = n := by simpa using hmem1
      subst hxn
      exact absurd (hpend x hpx) (lt_irrefl _)

/-! ## The master induction on fuel -/

theorem addSinkNode_master {g : Graph} {rank : Nat → Nat}
    (hwf : g.wfB = true) (hrank : g.rankedB rank = true) :
    ∀ fuel, RecSpec g rank (addSinkNode g fuel) := by
  intro fuel
  induction fuel with
  | zero =>
    intro st n st' pend h hi hp
    rw [addSinkNode] at h
    exact absurd h (by simp)
  | succ f ih =>
    intro st n st' pend h hinv hpend
    rw [addSinkNode] at h
    by_cases hmem : (lookupA st.inter n).isSome
    · rw [if_pos hmem] at h
      injection h with h
      subst h
      exact ⟨hinv, Preserve.refl st, ⟨[], by simp, by simp, by simp⟩,
        (lookupA_isSome_iff _ _).mp hmem⟩
    · rw [if_neg hmem] at h
      rcases hg : g.getNode n with _ | node
      · rw [hg] at h
        exact absurd h (by simp)
      · rcases hasn : asnInputs g (addSinkNode g f) n node.inputs st 0 with _ | _ | pr
        · simp only [hg] at h
          rw [hasn] at h
          exact absurd h (by simp)
        · simp only [hg] at h
          rw [hasn] at h
          exact absurd h (by simp)
        · obtain ⟨st₁, maxLat⟩ := pr
          simp only [hg, hasn] at h
          by_cases hmem₁ : (lookupA st₁.inter n).isSome
          · rw [if_pos hmem₁] at h
            exact absurd h (by simp)
          · rw [if_neg hmem₁] at h
            injection h with h
            have hnone₁ : lookupA st₁.inter n = none :=
              Option.not_isSome_iff_eq_none.mp hmem₁
            have hinv' : SchedInv g st (fun x => pend x ∨ x = n) := by
              refine ⟨hinv.orderKeys, hinv.nodup, hinv.latEq, ?_, hinv.usedComplete, ?_⟩
              · intro u o v i hUE
                obtain ⟨he, hu, hv, hb⟩ := hinv.usedSound u o v i hUE
                exact ⟨he, hu, hv.imp_right Or.inl, hb⟩
              · intro x hx
                rcases hx with hx1 | hx1
                · exact hinv.pendDisj x hx1
                · subst hx1
                  exact fun hm => hmem ((lookupA_isSome_iff _ _).mpr hm)
            have hedge : ∀ ip port u ps o, (ip, port) ∈ node.inputs →
                (u, ps) ∈ port.conns → o ∈ ps → g.HasEdge u o n ip := by
              intro ip port u ps o hip hu ho
              exact ⟨node, port, ps, hg, mem_lookupA (wfB_node_nodup hwf hg).2 hip,
                mem_lookupA (wfB_port_nodup hwf hg hip) hu, (List.elem_iff).mpr ho⟩
            have hne : ∀ ip port u ps, (ip, port) ∈ node.inputs →
                (u, ps) ∈ port.conns → ps ≠ [] := by
              intro ip port u ps hip hu
              exact (wfB_conn hwf hg hip hu).1
            obtain ⟨hinv₁, hpres₁, hdelta₁, hukeys₁, hue₁, hmax₁⟩ :=
              asnInputs_spec hwf hrank ih n node.inputs st 0 st₁ maxLat pend hasn
                hedge hne hinv' hpend
            have hmaxspec : maxLat = maxInLatSpec g st₁.inter node := hmax₁
            have hO : st'.order = st₁.order ++ [n] := by rw [← h]
            have hM : st'.inter = insertNewA st₁.inter n ⟨maxLat, []⟩ := by rw [← h]
            obtain ⟨hinv₂, hpres₂, hK₂, hn₂⟩ :=
              addSink_finalize hwf hg hinv₁ hpend hnone₁ hukeys₁ hue₁ hmaxspec hO hM
            refine ⟨hinv₂, hpres₁.trans hpres₂, ?_, hn₂⟩
            obtain ⟨Δ₁, ho₁, hk₁, hr₁⟩ := hdelta₁
            refine ⟨Δ₁ ++ [n], ?_, ?_, ?_⟩
            · rw [hO, ho₁, List.append_assoc]
            · rw [hK₂, hk₁, List.append_assoc]
            · intro x hx
              rcases List.mem_append.mp hx with hx1 | hx1
              · obtain ⟨ip, port, u, ps, hip, hu, hre⟩ := hr₁ x hx1
                obtain ⟨o, ho⟩ := List.exists_mem_of_ne_nil ps (hne ip port u ps hip hu)
                exact Relation.ReflTransGen.tail hre ⟨o, ip, hedge ip port u ps o hip hu ho⟩
              · have hxn : x = n := by simpa using hx1
                subst hxn
                exact Relation.ReflTransGen.refl

/-! ## Recording one producer preserves the invariant -/

theorem recordStep {g : Graph} {pend : Nat → Prop} {index destPortId u : Nat}
    {st₁ : SchedState} {srcRec : UsedNode} {ps : List Nat} {uo' : List (Nat × Port)}
    (hinv₁ : SchedInv g st₁ (fun x => pend x ∨ x = index))
    (hsr : lookupA st₁.inter u = some srcRec)
    (hiff : ∀ o v i, PortEdge uo' o v i ↔
      (PortEdge srcRec.usedOutputs o v i ∨ (o ∈ ps ∧ v = index ∧ i = destPortId)))
    (hedge : ∀ o ∈ ps, g.HasEdge u o index destPortId) :
    SchedInv g { st₁ with inter := (modifyA ⟨0, []⟩
        (fun r => { r with usedOutputs := uo' }) st₁.inter u) }
      (fun x => pend x ∨ x = index) ∧
    Preserve st₁ { st₁ with inter := (modifyA ⟨0, []⟩
        (fun r => { r with usedOutputs := uo' }) st₁.inter u) } := by
  have hukeys₁ : u ∈ keysA st₁.inter :=
    (lookupA_isSome_iff _ _).mp (by simp [hsr])
  set st₂ : SchedState := { st₁ with inter := (modifyA ⟨0, []⟩
    (fun r => { r with usedOutputs := uo' }) st₁.inter u) } with hst₂
  have hlook₂ : ∀ x, lookupA st₂.inter x =
      if x = u then some ⟨srcRec.maxDelay, uo'⟩ else lookupA st₁.inter x := by
    intro x
    by_cases hxu : x = u
    · subst hxu
      rw [if_pos rfl]
      show lookupA (modifyA _ _ _ _) x = _
      rw [lookupA_modifyA_self, hsr]
      rfl
    · rw [if_neg hxu]
      show lookupA (modifyA _ _ _ _) x = _
      rw [lookupA_modifyA_ne _ _ _ _ _ hxu]
  have hkeys₂ : keysA st₂.inter = keysA st₁.inter := by
    show keysA (modifyA _ _ _ _) = _
    exact keysA_modifyA_mem _ _ _ _ (by simp [hsr])
  have horder₂ : st₂.order = st₁.order := rfl
  have hIL₂ : ∀ y, interLat st₂.inter y = interLat st₁.inter y := by
    intro y
    rw [interLat, interLat, hlook₂ y]
    by_cases hyu : y = u
    · subst hyu
      rw [if_pos rfl, hsr]
    · rw [if_neg hyu]
  have hUE₂ : ∀ x o v i, UsedEdge st₂.inter x o v i ↔
      (UsedEdge st₁.inter x o v i ∨
        (x = u ∧ o ∈ ps ∧ v = index ∧ i = destPortId)) := by
    intro x o v i
    by_cases hxu : x = u
    · subst hxu
      constructor
      · rintro ⟨r, hr, hpe⟩
        rw [hlook₂ x, if_pos rfl] at hr
        injection hr with hr
        subst hr
        rcases (hiff o v i).mp hpe with hold | ⟨h1, h2, h3⟩
        · exact Or.inl ⟨srcRec, hsr, hold⟩
        · exact Or.inr ⟨rfl, h1, h2, h3⟩
      · rintro (⟨r, hr, hpe⟩ | ⟨_, h1, h2, h3⟩)
        · rw [hsr] at hr
          injection hr with hr
          subst hr
          exact ⟨_, by rw [hlook₂ x, if_pos rfl], (hiff o v i).mpr (Or.inl hpe)⟩
        · rw [h2, h3]
          exact ⟨_, by rw [hlook₂ x, if_pos rfl],
            (hiff o index destPortId).mpr (Or.inr ⟨h1, rfl, rfl⟩)⟩
    · constructor
      · rintro ⟨r, hr, hpe⟩
        rw [hlook₂ x, if_neg hxu] at hr
        exact Or.inl ⟨r, hr, hpe⟩
      · rintro (⟨r, hr, hpe⟩ | ⟨h1, _⟩)
        · exact ⟨r, by rw [hlook₂ x, if_neg hxu]; exact hr, hpe⟩
        · exact absurd h1 hxu
  refine ⟨⟨?_, ?_, ?_, ?_, ?_, ?_⟩, ?_⟩
  · rw [horder₂, hkeys₂]
    exact hinv₁.orderKeys
  · rw [hkeys₂]
    exact hinv₁.nodup
  · intro x r hr
    rw [hlook₂ x] at hr
    by_cases hxu : x = u
    · subst hxu
      rw [if_pos rfl] at hr
      injection hr with hr
      subst hr
      obtain ⟨gn, hgn, hlat⟩ := hinv₁.latEq x srcRec hsr
      refine ⟨gn, hgn, ?_⟩
      show srcRec.maxDelay = _
      rw [hlat]
      exact maxInLatSpec_congr (fun ip port w qs _ _ _ => (hIL₂ w).symm)
    · rw [if_neg hxu] at hr
      obtain ⟨gn, hgn, hlat⟩ := hinv₁.latEq x r hr
      refine ⟨gn, hgn, ?_⟩
      rw [hlat]
      exact maxInLatSpec_congr (fun ip port w qs _ _ _ => (hIL₂ w).symm)
  · intro x o v i hx
    rcases (hUE₂ x o v i).mp hx with hold | ⟨h1, h2, h3, h4⟩
    · obtain ⟨he, hu, hv, hb⟩ := hinv₁.usedSound x o v i hold
      rw [hkeys₂, horder₂]
      exact ⟨he, hu, hv, hb⟩
    · rw [h1, h3, h4]
      refine ⟨hedge o h2, ?_, ?_, ?_⟩
      · rw [hkeys₂]
        exact hukeys₁
      · exact Or.inr (Or.inr rfl)
      · intro hik
        rw [hkeys₂] at hik
        exact absurd hik (hinv₁.pendDisj index (Or.inr rfl))
  · intro x hx u₂ o i he
    rw [hkeys₂] at hx
    obtain ⟨hu₂, hue⟩ := hinv₁.usedComplete x hx u₂ o i he
    rw [hkeys₂]
    exact ⟨hu₂, (hUE₂ u₂ o x i).mpr (Or.inl hue)⟩
  · intro x hx
    rw [hkeys₂]
    exact hinv₁.pendDisj x hx
  · intro x r hr
    by_cases hxu : x = u
    · subst hxu
      rw [hsr] at hr
      injection hr with hr
      subst hr
      exact ⟨⟨srcRec.maxDelay, uo'⟩, by rw [hlook₂ x, if_pos rfl], rfl,
        fun o v i hpe => (hiff o v i).mpr (Or.inl hpe)⟩
    · exact ⟨r, by rw [hlook₂ x, if_neg hxu]; exact hr, rfl,
        fun o v i hpe => hpe⟩

theorem asnSrcPorts_total {g : Graph} {srcNodeId : Nat} {src : GNode}
    (hsrc : g.getNode srcNodeId = some src) (index destPortId srcInputLat : Nat) :
    ∀ (l : List Nat), (∀ p ∈ l, (lookupA src.outLats p).isSome) →
      ∀ uo maxLat, ∃ res,
        asnSrcPorts g index destPortId srcNodeId srcInputLat l uo maxLat = some res := by
  intro l
  induction l with
  | nil =>
    intro _ uo maxLat
    exact ⟨(uo, maxLat), rfl⟩
  | cons p rest ih =>
    intro hp uo maxLat
    obtain ⟨plat, hplat⟩ := Option.isSome_iff_exists.mp (hp p (List.mem_cons_self _ _))
    obtain ⟨res, hres⟩ := ih (fun q hq => hp q (List.mem_cons_of_mem _ hq))
      (modifyA Port.empty (fun q => (q.insertConnection index destPortId).2) uo p)
      (max maxLat (srcInputLat + plat))
    refine ⟨res, ?_⟩
    rw [asnSrcPorts]
    simp only [hsrc, hplat]
    exact hres

theorem asnConns_total {g : Graph} {rank : Nat → Nat}
    {rec : SchedState → Nat → DfsRes SchedState}
    (hwf : g.wfB = true) (hrank : g.rankedB rank = true) (hrec : RecSpec g rank rec)
    (index destPortId : Nat) (hrtot : RecTotalBelow g rank rec (rank index)) :
    ∀ (l : List (Nat × List Nat)) (st : SchedState) (maxLat : Nat) (pend : Nat → Prop),
      (∀ u ps o, (u, ps) ∈ l → o ∈ ps → g.HasEdge u o index destPortId) →
      (∀ u ps, (u, ps) ∈ l → ps ≠ []) →
      (∀ u ps, (u, ps) ∈ l → ∃ src, g.getNode u = some src ∧
        ∀ p ∈ ps, (lookupA src.outLats p).isSome) →
      SchedInv g st (fun x => pend x ∨ x = index) →
      (∀ x, pend x → rank index < rank x) →
      ∃ res, asnConns g rec index destPortId l st maxLat = .ok res := by
  intro l
  induction l with
  | nil =>
    intro st maxLat pend _ _ _ _ _
    exact ⟨(st, maxLat), rfl⟩
  | cons hd rest ih =>
    obtain ⟨u, ps⟩ := hd
    intro st maxLat pend hedge hne hsrcinfo hinv hpend
    obtain ⟨o₀, ho₀⟩ := List.exists_mem_of_ne_nil ps (hne u ps (List.mem_cons_self _ _))
    have hE : g.HasEdge u o₀ index destPortId :=
      hedge u ps o₀ (List.mem_cons_self _ _) ho₀
    have hltu : rank u < rank index := rankedB_lt hrank hE
    obtain ⟨src, hsrc, hports⟩ := hsrcinfo u ps (List.mem_cons_self _ _)
    have hpend' : ∀ x, (pend x ∨ x = index) → rank u < rank x := by
      rintro x (hx | rfl)
      · exact lt_trans hltu (hpend x hx)
      · exact hltu
    obtain ⟨st₁, hr1⟩ := hrtot st u _ hltu (by simp [hsrc]) hinv hpend'
    obtain ⟨hinv₁, hpres₁, hdelta₁, hukeys₁⟩ := hrec st u st₁ _ hr1 hinv hpend'
    obtain ⟨srcRec, hsr⟩ := Option.isSome_iff_exists.mp
      ((lookupA_isSome_iff _ _).mpr hukeys₁)
    obtain ⟨⟨uo', maxLat₁⟩, hsp⟩ := asnSrcPorts_total hsrc index destPortId
      srcRec.maxDelay ps hports srcRec.usedOutputs maxLat
    obtain ⟨hiff, _⟩ := asnSrcPorts_spec g index destPortId u srcRec.maxDelay
      ps srcRec.usedOutputs maxLat uo' maxLat₁ hsp
    obtain ⟨hinv₂, _⟩ := recordStep hinv₁ hsr hiff
      (fun o ho => hedge u ps o (List.mem_cons_self _ _) ho)
    obtain ⟨res, hres⟩ := ih _ maxLat₁ pend
      (fun u₂ ps₂ o hm ho => hedge u₂ ps₂ o (List.mem_cons_of_mem _ hm) ho)
      (fun u₂ ps₂ hm => hne u₂ ps₂ (List.mem_cons_of_mem _ hm))
      (fun u₂ ps₂ hm => hsrcinfo u₂ ps₂ (List.mem_cons_of_mem _ hm))
      hinv₂ hpend
    refine ⟨res, ?_⟩
    rw [asnConns]
    simp only [hr1, hsr, hsp]
    exact hres

theorem asnInputs_total {g : Graph} {rank : Nat → Nat}
    {rec : SchedState → Nat → DfsRes SchedState}
    (hwf : g.wfB = true) (hrank : g.rankedB rank = true) (hrec : RecSpec g rank rec)
    (index : Nat) (hrtot : RecTotalBelow g rank rec (rank index)) :
    ∀ (l : List (Nat × Port)) (st : SchedState) (maxLat : Nat) (pend : Nat → Prop),
      (∀ ip port u ps o, (ip, port) ∈ l → (u, ps) ∈ port.conns → o ∈ ps →
        g.HasEdge u o index ip) →
      (∀ ip port u ps, (ip, port) ∈ l → (u, ps) ∈ port.conns → ps ≠ []) →
      (∀ ip port u ps, (ip, port) ∈ l → (u, ps) ∈ port.conns → ∃ src,
        g.getNode u = some src ∧ ∀ p ∈ ps, (lookupA src.outLats p).isSome) →
      SchedInv g st (fun x => pend x ∨ x = index) →
      (∀ x, pend x → rank index < rank x) →
      ∃ res, asnInputs g rec index l st maxLat = .ok res := by
  intro l
  induction l with
  | nil =>
    intro st maxLat pend _ _ _ _ _
    exact ⟨(st, maxLat), rfl⟩
  | cons hd rest ih =>
    obtain ⟨ip, port⟩ := hd
    intro st maxLat pend hedge hne hsrcinfo hinv hpend
    obtain ⟨⟨st₁, maxLat₁⟩, hc⟩ := asnConns_total hwf hrank hrec index ip hrtot
      port.conns st maxLat pend
      (fun u ps o hm ho => hedge ip port u ps o (List.mem_cons_self _ _) hm ho)
      (fun u ps hm => hne ip port u ps (List.mem_cons_self _ _) hm)
      (fun u ps hm => hsrcinfo ip port u ps (List.mem_cons_self _ _) hm)
      hinv hpend
    obtain ⟨hinv₁, _, _, _, _, _⟩ :=
      asnConns_spec hwf hrank hrec index ip port.conns st maxLat st₁ maxLat₁ pend hc
        (fun u ps o hm ho => hedge ip port u ps o (List.mem_cons_self _ _) hm ho)
        (fun u ps hm => hne ip port u ps (List.mem_cons_self _ _) hm)
        hinv hpend
    obtain ⟨res, hres⟩ := ih st₁ maxLat₁ pend
      (fun ip₂ port₂ u ps o hm hm2 ho =>
        hedge ip₂ port₂ u ps o (List.mem_cons_of_mem _ hm) hm2 ho)
      (fun ip₂ port₂ u ps hm hm2 => hne ip₂ port₂ u ps (List.mem_cons_of_mem _ hm) hm2)
      (fun ip₂ port₂ u ps hm hm2 =>
        hsrcinfo ip₂ port₂ u ps (List.mem_cons_of_mem _ hm) hm2)
      hinv₁ hpend
    refine ⟨res, ?_⟩
    rw [asnInputs]
    simp only [hc]
    exact hres

theorem addSinkNode_total {g : Graph} {rank : Nat → Nat}
    (hwf : g.wfB = true) (hrank : g.rankedB rank = true) :
    ∀ (fuel : Nat) (st : SchedState) (n : Nat) (pend : Nat → Prop),
      rank n < fuel → (g.getNode n).isSome →
      SchedInv g st pend → (∀ x, pend x → rank n < rank x) →
      ∃ st', addSinkNode g fuel st n = .ok st' := by
  intro fuel
  induction fuel with
  | zero =>
    intro st n pend h
    omega
  | succ f ih =>
    intro st n pend hfuel hg0 hinv hpend
    by_cases hmem : (lookupA st.inter n).isSome
    · exact ⟨st, by rw [addSinkNode, if_pos hmem]⟩
    · obtain ⟨node, hg⟩ := Option.isSome_iff_exists.mp hg0
      have hinv' : SchedInv g st (fun x => pend x ∨ x = n) := by
        refine ⟨hinv.orderKeys, hinv.nodup, hinv.latEq, ?_, hinv.usedComplete, ?_⟩
        · intro u o v i hUE
          obtain ⟨he, hu, hv, hb⟩ := hinv.usedSound u o v i hUE
          exact ⟨he, hu, hv.imp_right Or.inl, hb⟩
        · intro x hx
          rcases hx with hx1 | hx1
          · exact hinv.pendDisj x hx1
          · subst hx1
            exact fun hm => hmem ((lookupA_isSome_iff _ _).mpr hm)
      have hedge : ∀ ip port u ps o, (ip, port) ∈ node.inputs →
          (u, ps) ∈ port.conns → o ∈ ps → g.HasEdge u o n ip := by
        intro ip port u ps o hip hu ho
        exact ⟨node, port, ps, hg, mem_lookupA (wfB_node_nodup hwf hg).2 hip,
          mem_lookupA (wfB_port_nodup hwf hg hip) hu, (List.elem_iff).mpr ho⟩
      have hne : ∀ ip port u ps, (ip, port) ∈ node.inputs →
          (u, ps) ∈ port.conns → ps ≠ [] := by
        intro ip port u ps hip hu
        exact (wfB_conn hwf hg hip hu).1
      have hsrcinfo : ∀ ip port u ps, (ip, port) ∈ node.inputs →
          (u, ps) ∈ port.conns → ∃ src, g.getNode u = some src ∧
            ∀ p ∈ ps, (lookupA src.outLats p).isSome := by
        intro ip port u ps hip hu
        obtain ⟨_, _, src, hsrc, hps⟩ := wfB_conn hwf hg hip hu
        exact ⟨src, hsrc, hps⟩
      have hrtot : RecTotalBelow g rank (addSinkNode g f) (rank n) := by
        intro st₂ m pend₂ hm hgm hinv₂ hpend₂
        exact ih st₂ m pend₂ (by omega) hgm hinv₂ hpend₂
      obtain ⟨⟨st₁, maxLat⟩, hasn⟩ :=
        asnInputs_total hwf hrank (addSinkNode_master hwf hrank f) n hrtot
          node.inputs st 0 pend hedge hne hsrcinfo hinv' hpend
      obtain ⟨_, _, hdelta₁, _, _, _⟩ :=
        asnInputs_spec hwf hrank (addSinkNode_master hwf hrank f) n node.inputs st 0
          st₁ maxLat pend hasn hedge hne hinv' hpend
      obtain ⟨Δ, ho₁, hk₁, hr₁⟩ := hdelta₁
      have hnotin : ¬ (lookupA st₁.inter n).isSome := by
        rw [lookupA_isSome_iff, hk₁]
        intro hmem₂
        rcases List.mem_append.mp hmem₂ with h2 | h2
        · exact hmem ((lookupA_isSome_iff _ _).mpr h2)
        · obtain ⟨ip, port, u, ps, hip, hu, hre⟩ := hr₁ n h2
          obtain ⟨o, ho⟩ := List.exists_mem_of_ne_nil ps (hne ip port u ps hip hu)
          have h3 : rank n ≤ rank u := reaches_rank_le hrank hre
          have h4 : rank u < rank n := rankedB_lt hrank (hedge ip port u ps o hip hu ho)
          omega
      refine ⟨⟨st₁.order ++ [n], insertNewA st₁.inter n ⟨maxLat, []⟩⟩, ?_⟩
      rw [addSinkNode, if_neg hmem]
      simp only [hg, hasn]
      rw [if_neg hnotin]

/-! ## The empty scheduler state satisfies the invariant -/

theorem schedInv_empty (g : Graph) : SchedInv g SchedState.empty (fun _ => False) := by
  refine ⟨rfl, List.nodup_nil, ?_, ?_, ?_, ?_⟩
  · intro x r h
    exact absurd h (by simp [SchedState.empty, lookupA])
  · rintro u o v i ⟨r, hr, _⟩
    exact absurd hr (by simp [SchedState.empty, lookupA])
  · intro x hx
    exact absurd hx (by simp [SchedState.empty, keysA])
  · intro x hx
    exact hx.elim

/-- A node all of whose input ports have no connections gets latency `0`. -/
theorem maxInLatSpec_no_inputs {g : Graph} {M : List (Nat × UsedNode)} {gn : GNode}
    (h : ∀ ip port, (ip, port) ∈ gn.inputs → port.conns = []) :
    maxInLatSpec g M gn = 0 := by
  unfold maxInLatSpec
  have h2 : ∀ (l : List (Nat × Port)) (acc : Nat),
      (∀ ip port, (ip, port) ∈ l → port.conns = []) →
      l.foldl (fun acc pr => pr.2.conns.foldl
        (fun acc2 c => c.2.foldl
          (fun acc3 p => max acc3 (interLat M c.1 + latOf g c.1 p)) acc2) acc) acc
        = acc := by
    intro l
    induction l with
    | nil => intro acc _; rfl
    | cons hd tl ih =>
      intro acc hc
      rw [List.foldl_cons]
      rw [show hd.2.conns = [] from hc hd.1 hd.2 (by
        obtain ⟨a, b⟩ := hd
        exact List.mem_cons_self _ _)]
      exact ih acc (fun ip port hm => hc ip port (List.mem_cons_of_mem _ hm))
  exact h2 _ 0 h

/-! ## Claim theorems on the traversal -/

/-- C1.  After a successful `add_sink_node` call (from any state reached by
such calls, the empty state included), every recorded node has
`max_input_latency` equal to the maximum over its incoming edges of the
upstream recorded latency plus the source output latency, and equal to `0`
for a node with no incoming connections. -/
theorem addSinkNode_latencies {g : Graph} {rank : Nat → Nat} {fuel : Nat}
    {st st' : SchedState} {n : Nat} {pend : Nat → Prop}
    (hwf : g.wfB = true) (hrank : g.rankedB rank = true)
    (hinv : SchedInv g st pend) (hpend : ∀ x, pend x → rank n < rank x)
    (hok : addSinkNode g fuel st n = .ok st') :
    (∀ x r, lookupA st'.inter x = some r → ∃ gn, g.getNode x = some gn ∧
      r.maxDelay = maxInLatSpec g st'.inter gn) ∧
    (∀ x r gn, lookupA st'.inter x = some r → g.getNode x = some gn →
      (∀ ip port, (ip, port) ∈ gn.inputs → port.conns = []) → r.maxDelay = 0) := by
  obtain ⟨hinv', _, _, _⟩ := addSinkNode_master hwf hrank fuel st n st' pend hok hinv hpend
  refine ⟨hinv'.latEq, ?_⟩
  intro x r gn hr hg hconns
  obtain ⟨gn₀, hg₀, hd⟩ := hinv'.latEq x r hr
  rw [hg] at hg₀
  injection hg₀ with hg₀
  subst hg₀
  rw [hd]
  exact maxInLatSpec_no_inputs hconns

/-- C9.  `add_sink_node` on a node id absent from the graph panics (the
node lookup is unwrapped); on a well-formed acyclic graph whose node is
present, with fuel exceeding the node rank, it returns `ok` — it never
panics. -/
theorem addSinkNode_panic_spec {g : Graph} {rank : Nat → Nat} (fuel n : Nat)
    (hwf : g.wfB = true) (hrank : g.rankedB rank = true) :
    (g.getNode n = none → addSinkNode g (fuel + 1) SchedState.empty n = .panic) ∧
    (∀ st (pend : Nat → Prop), (g.getNode n).isSome → rank n < fuel →
      SchedInv g st pend → (∀ x, pend x → rank n < rank x) →
      ∃ st', addSinkNode g fuel st n = .ok st') := by
  constructor
  · intro hnone
    rw [addSinkNode, if_neg (by simp [SchedState.empty, lookupA]), hnone]
  · intro st pend hsome hfuel hinv hpend
    exact addSinkNode_total hwf hrank fuel st n pend hfuel hsome hinv hpend

/-- The intermediate map is closed under reverse reachability: once the
target of a path is recorded, so is every node that reaches it (the map is
upstream-closed by `usedComplete`). -/
theorem reaches_mem_inter {g : Graph} {st : SchedState} {pend : Nat → Prop}
    (inv : SchedInv g st pend) {x n : Nat} (hn : n ∈ keysA st.inter)
    (hr : g.Reaches x n) : x ∈ keysA st.inter := by
  have hr2 : Relation.ReflTransGen (fun a b => g.EdgeNN a b) x n := hr
  induction hr2 using Relation.ReflTransGen.head_induction_on with
  | refl => exact hn
  | head h2 htail ih =>
    obtain ⟨o, i, he⟩ := h2
    exact (inv.usedComplete _ (ih htail) _ o i he).1

/-- C10.  On a well-formed acyclic graph the traversal terminates: with
fuel above the node's rank `add_sink_node` returns `ok`, visiting and
appending each reverse-reachable node exactly once (every node reaching the
sink is recorded, the order is duplicate-free, and the appended nodes all
reach the sink); a repeated call on a visited node is a no-op; and
`is_connected` likewise terminates with fuel above the start node's rank. -/
theorem addSinkNode_terminates {g : Graph} {rank : Nat → Nat}
    (hwf : g.wfB = true) (hrank : g.rankedB rank = true) :
    (∀ fuel st n (pend : Nat → Prop), rank n < fuel → (g.getNode n).isSome →
      SchedInv g st pend → (∀ x, pend x → rank n < rank x) →
      ∃ st', addSinkNode g fuel st n = .ok st' ∧ st'.order = keysA st'.inter ∧
        st'.order.Nodup ∧ n ∈ keysA st'.inter ∧
        (∀ x, g.Reaches x n → x ∈ keysA st'.inter) ∧
        ∃ Δ, st'.order = st.order ++ Δ ∧ ∀ x ∈ Δ, g.Reaches x n) ∧
    (∀ fuel st n, (lookupA st.inter n).isSome →
      addSinkNode g (fuel + 1) st n = .ok st) ∧
    (∀ fuel frm tgt, rank frm < fuel → (g.getNode frm).isSome →
      ∃ b, g.isConnected fuel frm tgt = some b) := by
  refine ⟨?_, ?_, ?_⟩
  · intro fuel st n pend hfuel hsome hinv hpend
    obtain ⟨st', hok⟩ := addSinkNode_total hwf hrank fuel st n pend hfuel hsome hinv hpend
    obtain ⟨hinv', _, hdelta, hmem⟩ :=
      addSinkNode_master hwf hrank fuel st n st' pend hok hinv hpend
    obtain ⟨Δ, ho, _, hr⟩ := hdelta
    refine ⟨st', hok, hinv'.orderKeys, ?_, hmem,
      fun x hx => reaches_mem_inter hinv' hmem hx, Δ, ho, hr⟩
    rw [hinv'.orderKeys]
    exact hinv'.nodup
  · intro fuel st n h
    rw [addSinkNode, if_pos h]
  · intro fuel frm tgt hfuel hsome
    obtain ⟨b, hb, _⟩ := isConnected_spec hwf hrank fuel frm tgt hfuel hsome
    exact ⟨b, hb⟩

/-! ## Helpers for sum-index ranges -/

theorem range'_append_one (s m n : Nat) :
    List.range' s m ++ List.range' (s + m) n = List.range' s (m + n) := by
  have := List.range'_append s m n 1
  simp only [one_mul] at this
  rw [Nat.add_comm m n]
  simpa using this

theorem mem_range'_iff (s n a : Nat) : a ∈ List.range' s n ↔ s ≤ a ∧ a < s + n :=
  List.mem_range'_1

theorem srcBound_mono {L L' : Nat} (h : L ≤ L') {src : InputSource}
    (hs : SrcBound L src) : SrcBound L' src :=
  fun j hj => lt_of_lt_of_le (hs j hj) h

/-- Entries of `removeA` are entries of the original list. -/
theorem mem_removeA {V : Type} {m : List (Nat × V)} {k : Nat} {e : Nat × V}
    (h : e ∈ removeA m k) : e ∈ m := by
  induction m with
  | nil => simpa [removeA] using h
  | cons hd tl ih =>
    obtain ⟨k', v⟩ := hd
    rw [removeA] at h
    by_cases h2 : k' = k
    · rw [if_pos h2] at h
      exact List.mem_cons_of_mem _ h
    · rw [if_neg h2] at h
      rcases List.mem_cons.mp h with h | h
      · exact h ▸ List.mem_cons_self _ _
      · exact List.mem_cons_of_mem _ (ih h)

/-- Entries of `modifyA` are old entries or the image of an old entry or of
the default. -/
theorem mem_modifyA_weak {V : Type} (d : V) (f : V → V) :
    ∀ (m : List (Nat × V)) (k : Nat) (e : Nat × V), e ∈ modifyA d f m k →
      e ∈ m ∨ ∃ v, e = (k, f v) ∧ (v = d ∨ (k, v) ∈ m) := by
  intro m
  induction m with
  | nil =>
    intro k e he
    rw [modifyA] at he
    exact Or.inr ⟨d, by simpa using he, Or.inl rfl⟩
  | cons hd tl ih =>
    obtain ⟨k', v₁⟩ := hd
    intro k e he
    rw [modifyA] at he
    by_cases h2 : k' = k
    · rw [if_pos h2] at he
      rcases List.mem_cons.mp he with he | he
      · exact Or.inr ⟨v₁, by rw [he, h2], Or.inr (by rw [h2]; exact List.mem_cons_self _ _)⟩
      · exact Or.inl (List.mem_cons_of_mem _ he)
    · rw [if_neg h2] at he
      rcases List.mem_cons.mp he with he | he
      · exact Or.inl (he ▸ List.mem_cons_self _ _)
      · rcases ih k e he with h3 | ⟨v, h3, h4⟩
        · exact Or.inl (List.mem_cons_of_mem _ h3)
        · rcases h4 with h4 | h4
          · exact Or.inr ⟨v, h3, Or.inl h4⟩
          · exact Or.inr ⟨v, h3, Or.inr (List.mem_cons_of_mem _ h4)⟩

theorem dcBound_mono {L L' : Nat} (h : L ≤ L') {dc} (hd : DcBound L dc) :
    DcBound L' dc :=
  fun e he => srcBound_mono h (hd e he)

theorem claimsBound_mono {L L' : Nat} (h : L ≤ L') {claims} (hc : ClaimsBound L claims) :
    ClaimsBound L' claims :=
  fun c hc2 => dcBound_mono h (hc c hc2)

theorem sumsWF_append {sums ns : List SumNode} (h : SumsWF sums)
    (hns : ∀ jj s, ns[jj]? = some s → (∃ d u o, s.summands.2 = .graphNode d u o) ∧
      ∀ j, s.summands.1 = .sumNode j → j < sums.length + jj) :
    SumsWF (sums ++ ns) := by
  intro k s hk
  by_cases hlt : k < sums.length
  · rw [List.getElem?_append_left hlt] at hk
    exact h k s hk
  · rw [List.getElem?_append_right (by omega)] at hk
    obtain ⟨hd, hb⟩ := hns (k - sums.length) s hk
    exact ⟨hd, fun j hj => by have := hb j hj; omega⟩

/-! ## Structure of the sum-synthesis loops (claim C3) -/

theorem cmpSumPorts_struct (w o : Nat) :
    ∀ (l : List (Nat × (Nat × Nat))) (dc : List (Nat × (Nat × InputSource)))
      (alloc : Allocator) (sums : List SumNode) (tasks : List Task)
      dc' alloc' sums' tasks',
      cmpSumPorts w o l dc alloc sums tasks = some (dc', alloc', sums', tasks') →
      DcBound sums.length dc →
      ∃ ns, sums' = sums ++ ns ∧
        tasks' = tasks ++ (List.range' sums.length ns.length).map Task.sum ∧
        (∀ sm ∈ ns, ∃ d, sm.summands.2 = .graphNode d w o) ∧
        (∀ jj s, ns[jj]? = some s → ∀ j, s.summands.1 = .sumNode j →
          j < sums.length + jj) ∧
        DcBound sums'.length dc' := by
  intro l
  induction l with
  | nil =>
    intro dc alloc sums tasks dc' alloc' sums' tasks' h hb
    rw [cmpSumPorts] at h
    injection h with h
    injection h with h1 h
    injection h with h2 h
    injection h with h3 h4
    subst h1; subst h3; subst h4
    exact ⟨[], by simp, by simp, by simp, by simp, hb⟩
  | cons hd rest ih =>
    obtain ⟨dp, oh, delay⟩ := hd
    intro dc alloc sums tasks dc' alloc' sums' tasks' h hb
    rw [cmpSumPorts] at h
    rcases hdc : lookupA dc dp with _ | pr
    · rw [hdc] at h
      exact absurd h (by simp)
    · obtain ⟨th, lhs⟩ := pr
      simp only [hdc] at h
      by_cases hck : (lookupA (removeA dc dp) dp).isSome = true
      · rw [if_pos hck] at h
        exact absurd h (by simp)
      · rw [if_neg hck] at h
        obtain ⟨ns₁, hs1, ht1, hrhs1, hlhs1, hb1⟩ := ih _ _ _ _ _ _ _ _ h (by
          intro e he
          rw [insertNewA] at he
          rcases List.mem_append.mp he with he | he
          · exact srcBound_mono (by simp) (hb e (mem_removeA he))
          · have he2 : e = (dp, ((findFreeBuffer (if lhs.delayOf = 0
                then dropH (if delay = 0 then dropH alloc oh else alloc) th
                else if delay = 0 then dropH alloc oh else alloc)).1,
                InputSource.sumNode sums.length)) := by simpa using he
            rw [he2]
            intro j hj
            injection hj with hj
            subst hj
            simp)
        rw [List.append_assoc, List.singleton_append] at hs1
        refine ⟨_, hs1, ?_, ?_, ?_, ?_⟩
        · rw [ht1]
          simp [List.range'_succ, List.append_assoc, List.length_append]
        · intro sm hsm
          rcases List.mem_cons.mp hsm with hsm | hsm
          · subst hsm
            exact ⟨delay, rfl⟩
          · exact hrhs1 sm hsm
        · intro jj s hjj
          cases jj with
          | zero =>
            simp only [List.getElem?_cons_zero] at hjj
            injection hjj with hjj
            subst hjj
            intro j hj
            have := hb (dp, (th, lhs)) (lookupA_mem hdc) j hj
            omega
          | succ jj =>
            simp only [List.getElem?_cons_succ] at hjj
            intro j hj
            have := hlhs1 jj s hjj j hj
            simp only [List.length_append, List.length_singleton] at this
            omega
        · exact hb1

theorem cmpSumConns_struct (w o : Nat) :
    ∀ (l : Repeats) (claims : Claims) (alloc : Allocator) (sums : List SumNode)
      (tasks : List Task) claims' alloc' sums' tasks',
      cmpSumConns w o l claims alloc sums tasks = some (claims', alloc', sums', tasks') →
      ClaimsBound sums.length claims →
      ∃ ns, sums' = sums ++ ns ∧
        tasks' = tasks ++ (List.range' sums.length ns.length).map Task.sum ∧
        (∀ sm ∈ ns, ∃ d, sm.summands.2 = .graphNode d w o) ∧
        (∀ jj s, ns[jj]? = some s → ∀ j, s.summands.1 = .sumNode j →
          j < sums.length + jj) ∧
        ClaimsBound sums'.length claims' := by
  intro l
  induction l with
  | nil =>
    intro claims alloc sums tasks claims' alloc' sums' tasks' h hb
    rw [cmpSumConns] at h
    injection h with h
    injection h with h1 h
    injection h with h2 h
    injection h with h3 h4
    subst h1; subst h3; subst h4
    exact ⟨[], by simp, by simp, by simp, by simp, hb⟩
  | cons hd rest ih =>
    obtain ⟨v, prev⟩ := hd
    intro claims alloc sums tasks claims' alloc' sums' tasks' h hb
    rw [cmpSumConns] at h
    rcases hcl : lookupA claims v with _ | dc
    · rw [hcl] at h
      exact absurd h (by simp)
    · simp only [hcl] at h
      rcases hsp : cmpSumPorts w o prev dc alloc sums tasks with _ | q
      · rw [hsp] at h
        exact absurd h (by simp)
      · obtain ⟨dc', alloc₁, sums₁, tasks₁⟩ := q
        simp only [hsp] at h
        obtain ⟨ns₀, hs0, ht0, hrhs0, hlhs0, hb0⟩ :=
          cmpSumPorts_struct w o prev dc alloc sums tasks dc' alloc₁ sums₁ tasks₁ hsp
            (hb (v, dc) (lookupA_mem hcl))
        have hb1 : ClaimsBound sums₁.length
            (modifyA [] (fun _ => dc') claims v) := by
          intro c hc
          rcases mem_modifyA_weak [] (fun _ => dc') claims v c hc with hc2 | ⟨dc₂, hc2, _⟩
          · exact dcBound_mono (by rw [hs0]; simp) (hb c hc2)
          · rw [hc2]
            exact hb0
        obtain ⟨ns₁, hs1, ht1, hrhs1, hlhs1, hb2⟩ :=
          ih _ _ _ _ _ _ _ _ h hb1
        refine ⟨ns₀ ++ ns₁, ?_, ?_, ?_, ?_, ?_⟩
        · rw [hs1, hs0, List.append_assoc]
        · rw [ht1, ht0]
          have hlen : sums₁.length = sums.length + ns₀.length := by
            rw [hs0]
            simp
          rw [hlen, List.append_assoc, ← List.map_append, range'_append_one]
          simp
        · intro sm hsm
          rcases List.mem_append.mp hsm with hsm | hsm
          · exact hrhs0 sm hsm
          · exact hrhs1 sm hsm
        · intro jj s hjj
          by_cases hlt : jj < ns₀.length
          · rw [List.getElem?_append_left hlt] at hjj
            exact hlhs0 jj s hjj
          · rw [List.getElem?_append_right (by omega)] at hjj
            intro j hj
            have := hlhs1 (jj - ns₀.length) s hjj j hj
            have hlen : sums₁.length = sums.length + ns₀.length := by
              rw [hs0]
              simp
            omega
        · exact hb2

theorem cmpSums_struct (w : Nat) :
    ∀ (l : RepeatAssignees) (claims : Claims) (alloc : Allocator)
      (sums : List SumNode) (tasks : List Task) claims' alloc' sums' tasks',
      cmpSums w l claims alloc sums tasks = some (claims', alloc', sums', tasks') →
      ClaimsBound sums.length claims →
      ∃ ns, sums' = sums ++ ns ∧
        tasks' = tasks ++ (List.range' sums.length ns.length).map Task.sum ∧
        (∀ sm ∈ ns, ∃ d o, sm.summands.2 = .graphNode d w o) ∧
        (∀ jj s, ns[jj]? = some s → ∀ j, s.summands.1 = .sumNode j →
          j < sums.length + jj) ∧
        ClaimsBound sums'.length claims' := by
  intro l
  induction l with
  | nil =>
    intro claims alloc sums tasks claims' alloc' sums' tasks' h hb
    rw [cmpSums] at h
    injection h with h
    injection h with h1 h
    injection h with h2 h
    injection h with h3 h4
    subst h1; subst h3; subst h4
    exact ⟨[], by simp, by simp, by simp, by simp, hb⟩
  | cons hd rest ih =>
    obtain ⟨o, repeats⟩ := hd
    intro claims alloc sums tasks claims' alloc' sums' tasks' h hb
    rw [cmpSums] at h
    rcases hsc : cmpSumConns w o repeats claims alloc sums tasks with _ | q
    · rw [hsc] at h
      exact absurd h (by simp)
    · obtain ⟨claims₁, alloc₁, sums₁, tasks₁⟩ := q
      simp only [hsc] at h
      obtain ⟨ns₀, hs0, ht0, hrhs0, hlhs0, hb0⟩ :=
        cmpSumConns_struct w o repeats claims alloc sums tasks claims₁ alloc₁ sums₁
          tasks₁ hsc hb
      obtain ⟨ns₁, hs1, ht1, hrhs1, hlhs1, hb1⟩ := ih _ _ _ _ _ _ _ _ h hb0
      refine ⟨ns₀ ++ ns₁, ?_, ?_, ?_, ?_, ?_⟩
      · rw [hs1, hs0, List.append_assoc]
      · rw [ht1, ht0]
        have hlen : sums₁.length = sums.length + ns₀.length := by
          rw [hs0]
          simp
        rw [hlen, List.append_assoc, ← List.map_append, range'_append_one]
        simp
      · intro sm hsm
        rcases List.mem_append.mp hsm with hsm | hsm
        · obtain ⟨d, hd2⟩ := hrhs0 sm hsm
          exact ⟨d, o, hd2⟩
        · exact hrhs1 sm hsm
      · intro jj s hjj
        by_cases hlt : jj < ns₀.length
        · rw [List.getElem?_append_left hlt] at hjj
          exact hlhs0 jj s hjj
        · rw [List.getElem?_append_right (by omega)] at hjj
          intro j hj
          have := hlhs1 (jj - ns₀.length) s hjj j hj
          have hlen : sums₁.length = sums.length + ns₀.length := by
            rw [hs0]
            simp
          omega
      · exact hb1

/-! ## Claims bound preservation through the output loops -/

theorem cmpDestPorts_bound {L : Nat} (w o buf delay v : Nat) :
    ∀ (l : List Nat) (alloc : Allocator) (claims : Claims)
      (prev : List (Nat × (Nat × Nat))),
      ClaimsBound L claims →
      ClaimsBound L (cmpDestPorts w o buf delay v l alloc claims prev).2.1 := by
  intro l
  induction l with
  | nil =>
    intro alloc claims prev hb
    exact hb
  | cons i rest ih =>
    intro alloc claims prev hb
    rw [cmpDestPorts]
    by_cases hcl : claimedAt claims v i = true
    · rw [if_pos hcl]
      exact ih _ _ _ hb
    · rw [if_neg hcl]
      refine ih _ _ _ ?_
      intro c hc
      rcases mem_modifyA_weak [] _ claims v c hc with hc2 | ⟨dcv, hc2, hdcv⟩
      · exact hb c hc2
      · rw [hc2]
        intro e he
        rw [insertNewA] at he
        rcases List.mem_append.mp he with he | he
        · rcases hdcv with hdcv | hdcv
          · rw [hdcv] at he
            simp at he
          · exact hb (v, dcv) hdcv e he
        · have he2 : e = (i, (buf, InputSource.graphNode delay w o)) := by
            simpa using he
          rw [he2]
          intro j hj
          exact absurd hj (by simp)

theorem cmpConns_bound {L : Nat} {inter : List (Nat × UsedNode)}
    (w o buf stl : Nat) :
    ∀ (l : List (Nat × List Nat)) (alloc : Allocator) (claims : Claims)
      (maxD : Nat) (repeats : Repeats) alloc' claims' maxD' repeats',
      cmpConns inter w o buf stl l alloc claims maxD repeats =
        some (alloc', claims', maxD', repeats') →
      ClaimsBound L claims → ClaimsBound L claims' := by
  intro l
  induction l with
  | nil =>
    intro alloc claims maxD repeats alloc' claims' maxD' repeats' h hb
    rw [cmpConns] at h
    injection h with h
    injection h with h1 h
    injection h with h2 h
    subst h2
    exact hb
  | cons hd rest ih =>
    obtain ⟨v, dps⟩ := hd
    intro alloc claims maxD repeats alloc' claims' maxD' repeats' h hb
    rw [cmpConns] at h
    rcases hdr : lookupA inter v with _ | destRec
    · rw [hdr] at h
      exact absurd h (by simp)
    · simp only [hdr] at h
      exact ih _ _ _ _ _ _ _ _ h (cmpDestPorts_bound w o buf _ v dps alloc claims [] hb)

theorem cmpOutputs_bound {L : Nat} {inter : List (Nat × UsedNode)} (w md : Nat) :
    ∀ (l : List (Nat × Nat)) (uo : List (Nat × Port)) (alloc : Allocator)
      (claims : Claims) (outputs : List (Nat × Option NodeOutput))
      (ra : RepeatAssignees) alloc' claims' outputs' ra',
      cmpOutputs inter w md l uo alloc claims outputs ra =
        some (alloc', claims', outputs', ra') →
      ClaimsBound L claims → ClaimsBound L claims' := by
  intro l
  induction l with
  | nil =>
    intro uo alloc claims outputs ra alloc' claims' outputs' ra' h hb
    rw [cmpOutputs] at h
    injection h with h
    injection h with h1 h
    injection h with h2 h
    subst h2
    exact hb
  | cons hd rest ih =>
    obtain ⟨o, lat⟩ := hd
    intro uo alloc claims outputs ra alloc' claims' outputs' ra' h hb
    rw [cmpOutputs] at h
    rcases huo : lookupA uo o with _ | srcPort
    · rw [huo] at h
      exact ih _ _ _ _ _ _ _ _ _ h hb
    · simp only [huo] at h
      by_cases hemp : srcPort.isEmptyP = true
      · rw [if_pos hemp] at h
        exact absurd h (by simp)
      · rw [if_neg hemp] at h
        rcases hcc : cmpConns inter w o (findFreeBuffer alloc).1 (md + lat)
            srcPort.conns (findFreeBuffer alloc).2 claims 0 [] with _ | q
        · rw [hcc] at h
          exact absurd h (by simp)
        · obtain ⟨alloc₂, claims₂, maxD, repeats⟩ := q
          simp only [hcc] at h
          exact ih _ _ _ _ _ _ _ _ _ h
            (cmpConns_bound w o (findFreeBuffer alloc).1 (md + lat) srcPort.conns
              (findFreeBuffer alloc).2 claims 0 [] alloc₂ claims₂ maxD repeats hcc hb)

/-! ## Output bindings produced by the output loop (claim C7) -/

theorem cmpOutputs_outputs {inter : List (Nat × UsedNode)} (w md : Nat) :
    ∀ (l : List (Nat × Nat)) (uo : List (Nat × Port)) (alloc : Allocator)
      (claims : Claims) (outputs : List (Nat × Option NodeOutput))
      (ra : RepeatAssignees) alloc' claims' outputs' ra',
      cmpOutputs inter w md l uo alloc claims outputs ra =
        some (alloc', claims', outputs', ra') →
      (keysA l).Nodup →
      keysA outputs' = keysA outputs ++ keysA l ∧
      (∀ o, o ∉ keysA l → lookupA outputs' o = lookupA outputs o) ∧
      (∀ o lat, (o, lat) ∈ l → o ∉ keysA outputs →
        ((lookupA uo o = none → lookupA outputs' o = some none) ∧
         (∀ p, lookupA uo o = some p →
           ∃ b m2, lookupA outputs' o = some (some ⟨b, m2⟩)))) := by
  intro l
  induction l with
  | nil =>
    intro uo alloc claims outputs ra alloc' claims' outputs' ra' h hnd
    rw [cmpOutputs] at h
    injection h with h
    injection h with h1 h
    injection h with h2 h
    injection h with h3 h4
    subst h3
    exact ⟨by simp [keysA], fun o _ => rfl, by simp⟩
  | cons hd rest ih =>
    obtain ⟨o₀, lat₀⟩ := hd
    intro uo alloc claims outputs ra alloc' claims' outputs' ra' h hnd
    have hnd2 : (keysA rest).Nodup := by
      simpa [keysA] using hnd.of_cons
    have ho₀ : o₀ ∉ keysA rest := by
      simp only [keysA, List.map_cons, List.nodup_cons] at hnd
      exact hnd.1
    rw [cmpOutputs] at h
    have hmain : ∀ (X : Option NodeOutput) alloc₂ claims₂ ra₂,
        cmpOutputs inter w md rest uo alloc₂ claims₂ (outputs ++ [(o₀, X)]) ra₂ =
          some (alloc', claims', outputs', ra') →
        keysA outputs' = keysA outputs ++ keysA ((o₀, lat₀) :: rest) ∧
        (∀ o, o ∉ keysA ((o₀, lat₀) :: rest) →
          lookupA outputs' o = lookupA outputs o) ∧
        (∀ o, o ∈ keysA ((o₀, lat₀) :: rest) → o ∉ keysA outputs →
          (o = o₀ → lookupA outputs' o = some X) ∧
          (o ≠ o₀ → ∀ lat, (o, lat) ∈ rest →
            ((lookupA uo o = none → lookupA outputs' o = some none) ∧
             (∀ p, lookupA uo o = some p →
               ∃ b m2, lookupA outputs' o = some (some ⟨b, m2⟩))))) := by
      intro X alloc₂ claims₂ ra₂ h2
      obtain ⟨hk, hold, hnew⟩ := ih _ _ _ _ _ _ _ _ _ h2 hnd2
      refine ⟨?_, ?_, ?_⟩
      · rw [hk]
        simp [keysA, List.append_assoc]
      · intro o ho
        have ho1 : o ≠ o₀ := by
          intro hh
          exact ho (by rw [hh]; simp [keysA])
        have ho2 : o ∉ keysA rest := by
          intro hh
          exact ho (by simp [keysA]; exact Or.inr (by simpa [keysA] using hh))
        rw [hold o ho2, lookupA_append]
        rcases h3 : lookupA outputs o with _ | x
        · simp [lookupA, Ne.symm ho1]
        · rfl
      · intro o ho hon
        constructor
        · intro hoo
          subst hoo
          rw [hold o ho₀, lookupA_append]
          rcases h3 : lookupA outputs o with _ | x
          · simp [lookupA]
          · exact absurd ((lookupA_isSome_iff _ _).mp (by simp [h3])) hon
        · intro hne lat hmem
          have hres := hnew o lat hmem (by
            intro hh
            rw [keysA, List.map_append] at hh
            rcases List.mem_append.mp hh with hh | hh
            · exact hon hh
            · exact hne (by simpa [keysA] using hh))
          exact hres
    rcases huo : lookupA uo o₀ with _ | srcPort
    · rw [huo] at h
      obtain ⟨hk, hold, hspec⟩ := hmain none _ _ _ h
      refine ⟨hk, hold, ?_⟩
      intro o lat hmem hon
      rcases List.mem_cons.mp hmem with hc1 | hc2
      · injection hc1 with hm1 hm2
        subst hm1
        constructor
        · intro _
          exact (hspec o (by simp [keysA]) hon).1 rfl
        · intro p hp
          rw [hp] at huo
          exact absurd huo (by simp)
      · by_cases heq : o = o₀
        · subst heq
          exact absurd (show o ∈ keysA rest from List.mem_map_of_mem Prod.fst hc2) ho₀
        · exact (hspec o (by simp [keysA]; exact Or.inr ⟨lat, hc2⟩) hon).2 heq lat hc2
    · simp only [huo] at h
      by_cases hemp : srcPort.isEmptyP = true
      · rw [if_pos hemp] at h
        exact absurd h (by simp)
      · rw [if_neg hemp] at h
        rcases hcc : cmpConns inter w o₀ (findFreeBuffer alloc).1 (md + lat₀)
            srcPort.conns (findFreeBuffer alloc).2 claims 0 [] with _ | q
        · rw [hcc] at h
          exact absurd h (by simp)
        · obtain ⟨alloc₂, claims₂, maxD, repeats⟩ := q
          simp only [hcc] at h
          obtain ⟨hk, hold, hspec⟩ := hmain (some ⟨(findFreeBuffer alloc).1, maxD⟩) _ _ _ h
          refine ⟨hk, hold, ?_⟩
          intro o lat hmem hon
          rcases List.mem_cons.mp hmem with hc1 | hc2
          · injection hc1 with hm1 hm2
            subst hm1
            constructor
            · intro hnone
              rw [hnone] at huo
              exact absurd huo (by simp)
            · intro p hp
              exact ⟨(findFreeBuffer alloc).1, maxD,
                (hspec o (by simp [keysA]) hon).1 rfl⟩
          · by_cases heq : o = o₀
            · subst heq
              exact absurd (show o ∈ keysA rest from List.mem_map_of_mem Prod.fst hc2) ho₀
            · exact (hspec o (by simp [keysA]; exact Or.inr ⟨lat, hc2⟩) hon).2 heq lat hc2

/-! ## Finalisation keeps only prior claims -/

theorem cmpFinalize_sub :
    ∀ (l : List (Nat × Port)) (claimed : List (Nat × (Nat × InputSource)))
      (alloc : Allocator) (inputs : List (Nat × Option InputSource))
      claimed' alloc' inputs',
      cmpFinalize l claimed alloc inputs = some (claimed', alloc', inputs') →
      ∀ e ∈ claimed', e ∈ claimed := by
  intro l
  induction l with
  | nil =>
    intro claimed alloc inputs claimed' alloc' inputs' h e he
    rw [cmpFinalize] at h
    injection h with h
    injection h with h1 h
    subst h1
    exact he
  | cons hd rest ih =>
    obtain ⟨i, port⟩ := hd
    intro claimed alloc inputs claimed' alloc' inputs' h e he
    rw [cmpFinalize] at h
    by_cases hck : (lookupA inputs i).isSome = true
    · rw [if_pos hck] at h
      exact absurd h (by simp)
    · rw [if_neg hck] at h
      rcases hcl : lookupA claimed i with _ | pr
      · rw [hcl] at h
        exact ih _ _ _ _ _ _ h e he
      · obtain ⟨handle, source⟩ := pr
        simp only [hcl] at h
        exact mem_removeA (ih _ _ _ _ _ _ h e he)

/-! ## Structure of one compile step -/

theorem compileStep_struct {g : Graph} {inter : List (Nat × UsedNode)}
    {cs cs' : CompSt} {v : Nat} (hwf : g.wfB = true)
    (h : compileStep g inter cs v = some cs')
    (hcb : ClaimsBound cs.sumNodes.length cs.claims)
    (hwfs : SumsWF cs.sumNodes) :
    ∃ ns, cs'.sumNodes = cs.sumNodes ++ ns ∧
      cs'.tasks = cs.tasks ++ [Task.node v] ++
        (List.range' cs.sumNodes.length ns.length).map Task.sum ∧
      (∀ sm ∈ ns, ∃ d o, sm.summands.2 = .graphNode d v o) ∧
      SumsWF cs'.sumNodes ∧
      ClaimsBound cs'.sumNodes.length cs'.claims ∧
      ∃ nio, cs'.nodeIO = insertNewA cs.nodeIO v nio ∧ lookupA cs.nodeIO v = none ∧
        ∃ gn urec, g.getNode v = some gn ∧ lookupA inter v = some urec ∧
          keysA nio.outputs = keysA gn.outLats ∧
          (∀ o lat, (o, lat) ∈ gn.outLats →
            ((lookupA urec.usedOutputs o = none → lookupA nio.outputs o = some none) ∧
             (∀ p, lookupA urec.usedOutputs o = some p →
               ∃ b m2, lookupA nio.outputs o = some (some ⟨b, m2⟩)))) := by
  rw [compileStep] at h
  rcases hurec : lookupA inter v with _ | urec
  · rw [hurec] at h
    exact absurd h (by simp)
  · simp only [hurec] at h
    rcases hgn : g.getNode v with _ | gn
    · rw [hgn] at h
      exact absurd h (by simp)
    · simp only [hgn] at h
      rcases hco : cmpOutputs inter v urec.maxDelay gn.outLats urec.usedOutputs
          cs.alloc cs.claims [] [] with _ | q
      · rw [hco] at h
        exact absurd h (by simp)
      · obtain ⟨alloc₁, claims₁, outputs, ra⟩ := q
        simp only [hco] at h
        rcases hcs : cmpSums v ra claims₁ alloc₁ cs.sumNodes
            (cs.tasks ++ [Task.node v]) with _ | q2
        · rw [hcs] at h
          exact absurd h (by simp)
        · obtain ⟨claims₂, alloc₂, sums₂, tasks₂⟩ := q2
          simp only [hcs] at h
          have hb1 : ClaimsBound cs.sumNodes.length claims₁ :=
            cmpOutputs_bound v urec.maxDelay gn.outLats urec.usedOutputs cs.alloc
              cs.claims [] [] alloc₁ claims₁ outputs ra hco hcb
          obtain ⟨ns, hs, ht, hrhs, hlhs, hb2⟩ :=
            cmpSums_struct v ra claims₁ alloc₁ cs.sumNodes (cs.tasks ++ [Task.node v])
              claims₂ alloc₂ sums₂ tasks₂ hcs hb1
          obtain ⟨hkout, _, hspec⟩ :=
            cmpOutputs_outputs v urec.maxDelay gn.outLats urec.usedOutputs cs.alloc
              cs.claims [] [] alloc₁ claims₁ outputs ra hco
              (wfB_node_nodup hwf hgn).1
          have hwfs2 : SumsWF sums₂ := by
            rw [hs]
            refine sumsWF_append hwfs ?_
            intro jj s hjj
            refine ⟨?_, hlhs jj s hjj⟩
            obtain ⟨d, o, hd⟩ := hrhs s ((List.mem_iff_getElem?).mpr ⟨jj, hjj⟩)
            exact ⟨d, v, o, hd⟩
          have houts : keysA outputs = keysA gn.outLats ∧
              (∀ o lat, (o, lat) ∈ gn.outLats →
                ((lookupA urec.usedOutputs o = none → lookupA outputs o = some none) ∧
                 (∀ p, lookupA urec.usedOutputs o = some p →
                   ∃ b m2, lookupA outputs o = some (some ⟨b, m2⟩)))) := by
            refine ⟨by simpa [keysA] using hkout, ?_⟩
            intro o lat hmem
            exact hspec o lat hmem (by simp [keysA])
          rcases hclv : lookupA claims₂ v with _ | claimed
          · simp only [hclv] at h
            by_cases hio : (lookupA cs.nodeIO v).isSome = true
            · rw [if_pos hio] at h
              exact absurd h (by simp)
            · rw [if_neg hio] at h
              injection h with h
              subst h
              refine ⟨ns, hs, ht, ?_, hwfs2, hb2, ⟨[], outputs⟩, rfl,
                Option.not_isSome_iff_eq_none.mp hio, gn, urec, rfl, rfl,
                houts.1, houts.2⟩
              intro sm hsm
              exact hrhs sm hsm
          · simp only [hclv] at h
            rcases hcf : cmpFinalize gn.inputs claimed alloc₂ [] with _ | q3
            · rw [hcf] at h
              exact absurd h (by simp)
            · obtain ⟨claimed', alloc₃, inputsL⟩ := q3
              simp only [hcf] at h
              by_cases hio : (lookupA cs.nodeIO v).isSome = true
              · rw [if_pos hio] at h
                exact absurd h (by simp)
              · rw [if_neg hio] at h
                injection h with h
                subst h
                refine ⟨ns, hs, ht, hrhs, hwfs2, ?_, ⟨inputsL, outputs⟩, rfl,
                  Option.not_isSome_iff_eq_none.mp hio, gn, urec, rfl, rfl,
                  houts.1, houts.2⟩
                intro c hc
                rcases mem_modifyA_weak [] (fun _ => claimed') claims₂ v c hc
                  with hc2 | ⟨dcv, hc2, _⟩
                · exact hb2 c hc2
                · rw [hc2]
                  intro e he
                  exact hb2 (v, claimed) (lookupA_mem hclv) e
                    (cmpFinalize_sub gn.inputs claimed alloc₂ [] claimed' alloc₃
                      inputsL hcf e he)

/-! ## Structure of the whole compile loop -/

theorem compileGo_struct {g : Graph} {inter : List (Nat × UsedNode)}
    (hwf : g.wfB = true) :
    ∀ (l : List Nat) (cs cs' : CompSt),
      compileGo g inter l cs = some cs' →
      ClaimsBound cs.sumNodes.length cs.claims →
      SumsWF cs.sumNodes →
      ∃ segs : List (Nat × List Task),
        segs.map Prod.fst = l ∧
        cs'.tasks = cs.tasks ++ (segs.map (fun p => Task.node p.1 :: p.2)).flatten ∧
        (∃ ns, cs'.sumNodes = cs.sumNodes ++ ns) ∧
        SumsWF cs'.sumNodes ∧
        ClaimsBound cs'.sumNodes.length cs'.claims ∧
        (∀ (idx u : Nat) (s : List Task), segs[idx]? = some (u, s) → ∀ t ∈ s,
          ∃ (k : Nat) (sm : SumNode) (d o : Nat), t = Task.sum k ∧
          cs'.sumNodes[k]? = some sm ∧ sm.summands.2 = .graphNode d u o ∧
          cs.sumNodes.length ≤ k) ∧
        (∀ k, cs.sumNodes.length ≤ k → k < cs'.sumNodes.length →
          ∃ (idx u : Nat) (s : List Task), segs[idx]? = some (u, s) ∧
            Task.sum k ∈ s) ∧
        keysA cs'.nodeIO = keysA cs.nodeIO ++ l ∧
        (∀ x, (lookupA cs.nodeIO x).isSome →
          lookupA cs'.nodeIO x = lookupA cs.nodeIO x) ∧
        (∀ x nio, lookupA cs'.nodeIO x = some nio → lookupA cs.nodeIO x = some nio ∨
          (x ∈ l ∧ ∃ gn urec, g.getNode x = some gn ∧ lookupA inter x = some urec ∧
            keysA nio.outputs = keysA gn.outLats ∧
            (∀ o lat, (o, lat) ∈ gn.outLats →
              ((lookupA urec.usedOutputs o = none → lookupA nio.outputs o = some none) ∧
               (∀ p, lookupA urec.usedOutputs o = some p →
                 ∃ b m2, lookupA nio.outputs o = some (some ⟨b, m2⟩)))))) := by
  intro l
  induction l with
  | nil =>
    intro cs cs' h hcb hwfs
    rw [compileGo] at h
    injection h with h
    subst h
    refine ⟨[], rfl, by simp, ⟨[], by simp⟩, hwfs, hcb, ?_, ?_, by simp, ?_, ?_⟩
    · intro idx u s hseg
      exact absurd hseg (by simp)
    · intro k h1 h2
      omega
    · intro x _
      rfl
    · intro x nio h1
      exact Or.inl h1
  | cons v rest ih =>
    intro cs cs' h hcb hwfs
    rw [compileGo] at h
    rcases hstep : compileStep g inter cs v with _ | cs₁
    · rw [hstep] at h
      exact absurd h (by simp)
    · simp only [hstep] at h
      obtain ⟨ns₀, hs0, ht0, hrhs0, hwfs1, hcb1, nio₀, hio0, hio0n, ioFacts⟩ :=
        compileStep_struct hwf hstep hcb hwfs
      obtain ⟨segs₁, hmap1, ht1, ⟨ns₁, hs1⟩, hwfs2, hcb2, hassoc1, hconv1, hk1,
        hpres1, hnew1⟩ := ih cs₁ cs' h hcb1 hwfs1
      have hlen1 : cs₁.sumNodes.length = cs.sumNodes.length + ns₀.length := by
        rw [hs0]
        simp
      refine ⟨(v, (List.range' cs.sumNodes.length ns₀.length).map Task.sum) :: segs₁,
        ?_, ?_, ?_, hwfs2, hcb2, ?_, ?_, ?_, ?_, ?_⟩
      · simp [hmap1]
      · rw [ht1, ht0]
        simp [List.append_assoc]
      · exact ⟨ns₀ ++ ns₁, by rw [hs1, hs0, List.append_assoc]⟩
      · intro idx u s hseg t ht
        cases idx with
        | zero =>
          simp only [List.getElem?_cons_zero] at hseg
          injection hseg with hseg
          have hu : u = v := (congrArg Prod.fst hseg).symm
          have hsv : s = (List.range' cs.sumNodes.length ns₀.length).map Task.sum :=
            (congrArg Prod.snd hseg).symm
          rw [hsv] at ht
          obtain ⟨k, hkmem, hkt⟩ := List.mem_map.mp ht
          have hkr := (mem_range'_iff _ _ _).mp hkmem
          have hklt : k < (cs.sumNodes ++ ns₀).length := by
            simp only [List.length_append]
            omega
          have hget : cs'.sumNodes[k]? = ns₀[k - cs.sumNodes.length]? := by
            rw [hs1, hs0, List.getElem?_append_left hklt,
              List.getElem?_append_right (by omega)]
          rcases hn : ns₀[k - cs.sumNodes.length]? with _ | sm
          · rw [hn] at hget
            rw [List.getElem?_eq_none_iff] at hn
            simp only [List.length_append] at hklt
            omega
          · rw [hn] at hget
            obtain ⟨d, o, hd⟩ := hrhs0 sm ((List.mem_iff_getElem?).mpr
              ⟨k - cs.sumNodes.length, hn⟩)
            exact ⟨k, sm, d, o, hkt.symm, hget, by rw [← hu] at hd; exact hd, hkr.1⟩
        | succ idx =>
          simp only [List.getElem?_cons_succ] at hseg
          obtain ⟨k, sm, d, o, h1, h2, h3, h4⟩ := hassoc1 idx u s hseg t ht
          exact ⟨k, sm, d, o, h1, h2, h3, by omega⟩
      · intro k hk1b hk2
        by_cases hlt : k < cs₁.sumNodes.length
        · refine ⟨0, v, (List.range' cs.sumNodes.length ns₀.length).map Task.sum,
            by simp, ?_⟩
          refine List.mem_map.mpr ⟨k, ?_, rfl⟩
          rw [mem_range'_iff]
          omega
        · obtain ⟨idx, u, s, hseg, hmem⟩ := hconv1 k (by omega) hk2
          exact ⟨idx + 1, u, s, by rw [List.getElem?_cons_succ]; exact hseg, hmem⟩
      · rw [hk1, hio0, keysA_append_single]
        simp
      · intro x hx
        have hx1 : lookupA cs₁.nodeIO x = lookupA cs.nodeIO x := by
          rw [hio0, lookupA_insertNewA]
          obtain ⟨w, hw⟩ := Option.isSome_iff_exists.mp hx
          rw [hw]
        rw [hpres1 x (by rw [hx1]; exact hx), hx1]
      · intro x nio h1
        rcases hnew1 x nio h1 with h2 | ⟨h2, facts⟩
        · rw [hio0, lookupA_insertNewA] at h2
          rcases h3 : lookupA cs.nodeIO x with _ | w
          · simp only [h3] at h2
            by_cases hvx : v = x
            · rw [if_pos hvx] at h2
              injection h2 with h2
              subst hvx
              refine Or.inr ⟨List.mem_cons_self _ _, ?_⟩
              rw [← h2]
              exact ioFacts
            · rw [if_neg hvx] at h2
              exact absurd h2 (by simp)
          · simp only [h3] at h2
            injection h2 with h2
            subst h2
            exact Or.inl rfl
        · exact Or.inr ⟨List.mem_cons_of_mem _ h2, facts⟩

/-! ## Position reasoning in flattened task segments -/

theorem flatten_decomp {α : Type} {L : List (List α)} :
    ∀ {j : Nat} {lj : List α}, L[j]? = some lj →
    L.flatten = (L.take j).flatten ++ lj ++ (L.drop (j + 1)).flatten := by
  induction L with
  | nil =>
    intro j lj h
    exact absurd h (by simp)
  | cons hd tl ih =>
    intro j lj h
    cases j with
    | zero =>
      simp only [List.getElem?_cons_zero] at h
      injection h with h
      subst h
      simp
    | succ j =>
      simp only [List.getElem?_cons_succ] at h
      have := ih h
      simp only [List.flatten_cons, this, List.take_succ_cons, List.drop_succ_cons]
      simp [List.append_assoc]

theorem beforeL_flatten_cross {α : Type} {L : List (List α)} {i j : Nat}
    {li lj : List α} {a b : α} (hij : i < j) (hi : L[i]? = some li)
    (hj : L[j]? = some lj) (ha : a ∈ li) (hb : b ∈ lj) :
    beforeL L.flatten a b := by
  rw [flatten_decomp hj]
  rw [List.append_assoc]
  apply beforeL_of_mem
  · rw [List.mem_flatten]
    refine ⟨li, ?_, ha⟩
    rw [List.mem_iff_getElem?]
    refine ⟨i, ?_⟩
    rw [List.getElem?_take_of_lt hij]
    exact hi
  · exact List.mem_append_left _ hb

theorem beforeL_flatten_within {α : Type} {L : List (List α)} {j : Nat}
    {x : α} {s : List α} {b : α} (hj : L[j]? = some (x :: s)) (hb : b ∈ s) :
    beforeL L.flatten x b := by
  rw [flatten_decomp hj]
  apply beforeL_append_right
  apply beforeL_append_left
  exact beforeL_of_mem (List.mem_singleton_self x) hb

theorem nodup_getElem?_inj {α : Type} {l : List α} (hnd : l.Nodup) {i j : Nat}
    {a : α} (hi : l[i]? = some a) (hj : l[j]? = some a) : i = j := by
  have hil : i < l.length := by
    by_contra hc
    rw [List.getElem?_eq_none (by omega)] at hi
    exact Option.noConfusion hi
  exact List.getElem?_inj hil hnd (by rw [hi, hj])

/-! ## Claim C3: the compiled task list respects the graph topology -/

/-- C3.  For every used edge `(u,o) → (v,i)` of the compiled subgraph,
`Node u` precedes `Node v` in the task list, and every `Sum` task whose
direct summand is an output of `u` comes after `Node u` and before `Node v`
for every consumer `v` of that output. -/
theorem compile_topological {g : Graph} {st : SchedState} {sched : GraphSchedule}
    (hwf : g.wfB = true)
    (hinv : SchedInv g st (fun _ => False))
    (hc : st.compile g = some sched) :
    (∀ u o v i, UsedEdge st.inter u o v i →
      beforeL sched.tasks (Task.node u) (Task.node v)) ∧
    (∀ (k : Nat) (sm : SumNode) (d u o : Nat), sched.sumNodes[k]? = some sm →
      sm.summands.2 = .graphNode d u o →
      beforeL sched.tasks (Task.node u) (Task.sum k) ∧
      ∀ v i, UsedEdge st.inter u o v i →
        beforeL sched.tasks (Task.sum k) (Task.node v)) := by
  rw [SchedState.compile] at hc
  rcases hgo : compileGo g st.inter st.order ⟨[], [], [], [], []⟩ with _ | cs
  · rw [hgo] at hc
    exact absurd hc (by simp)
  · simp only [hgo] at hc
    injection hc with hc
    have hT : sched.tasks = cs.tasks := by rw [← hc]
    have hS : sched.sumNodes = cs.sumNodes := by rw [← hc]
    obtain ⟨segs, hmap, htasks, _, _, _, hassoc, hconv, _, _, _⟩ :=
      compileGo_struct hwf st.order ⟨[], [], [], [], []⟩ cs hgo
        (fun c hc2 => absurd hc2 (by simp)) (fun k sm hk => absurd hk (by simp))
    have hnd : st.order.Nodup := by
      rw [hinv.orderKeys]
      exact hinv.nodup
    have hseg_of_pos : ∀ (i : Nat) (u : Nat), st.order[i]? = some u →
        ∃ s, segs[i]? = some (u, s) := by
      intro i u hi
      rw [← hmap] at hi
      rw [List.getElem?_map] at hi
      rcases hp : segs[i]? with _ | p
      · rw [hp] at hi
        exact absurd hi (by simp)
      · rw [hp] at hi
        obtain ⟨p1, p2⟩ := p
        simp at hi
        exact ⟨p2, by rw [hi]⟩
    have hM : ∀ (i u : Nat) (s : List Task), segs[i]? = some (u, s) →
        (segs.map (fun p => Task.node p.1 :: p.2))[i]? = some (Task.node u :: s) := by
      intro i u s hi
      rw [List.getElem?_map, hi]
      rfl
    have htasks2 : sched.tasks = (segs.map (fun p => Task.node p.1 :: p.2)).flatten := by
      rw [hT, htasks]
      simp
    have hbefore : ∀ u v, beforeL st.order u v →
        ∃ (iu iv : Nat) (su sv : List Task), iu < iv ∧ segs[iu]? = some (u, su) ∧
          segs[iv]? = some (v, sv) := by
      intro u v hb
      obtain ⟨iu, iv, hlt, hu, hv⟩ := hb
      obtain ⟨su, hsu⟩ := hseg_of_pos iu u hu
      obtain ⟨sv, hsv⟩ := hseg_of_pos iv v hv
      exact ⟨iu, iv, su, sv, hlt, hsu, hsv⟩
    constructor
    · intro u o v i hue
      obtain ⟨_, hu, hv, hbo⟩ := hinv.usedSound u o v i hue
      have hv2 : v ∈ keysA st.inter := by
        rcases hv with hv | hv
        · exact hv
        · exact hv.elim
      obtain ⟨iu, iv, su, sv, hlt, hsu, hsv⟩ := hbefore u v (hbo hv2)
      rw [htasks2]
      exact beforeL_flatten_cross hlt (hM iu u su hsu) (hM iv v sv hsv)
        (List.mem_cons_self _ _) (List.mem_cons_self _ _)
    · intro k sm d u o hk hrhs
      have hk0 : (0 : Nat) ≤ k := Nat.zero_le k
      rw [hS] at hk
      have hklen : k < cs.sumNodes.length := by
        by_contra hc2
        rw [List.getElem?_eq_none (by omega)] at hk
        exact Option.noConfusion hk
      obtain ⟨idx, u', s, hseg, hmem⟩ := hconv k (Nat.zero_le k) hklen
      obtain ⟨k', sm', d', o', ht1, ht2, ht3, _⟩ :=
        hassoc idx u' s hseg (Task.sum k) hmem
      have hkk : k = k' := by
        have h2 := ht1
        simp only [Task.sum.injEq] at h2
        exact h2
      subst hkk
      rw [hk] at ht2
      injection ht2 with ht2
      subst ht2
      rw [hrhs] at ht3
      injection ht3 with h1 h2 h3
      subst h2
      have hnode : beforeL sched.tasks (Task.node u) (Task.sum k) := by
        rw [htasks2]
        exact beforeL_flatten_within (hM idx u s hseg) hmem
      refine ⟨hnode, ?_⟩
      intro v i hue
      obtain ⟨_, hu, hv, hbo⟩ := hinv.usedSound u o v i hue
      have hv2 : v ∈ keysA st.inter := by
        rcases hv with hv | hv
        · exact hv
        · exact hv.elim
      obtain ⟨iu, iv, su, sv, hlt, hsu, hsv⟩ := hbefore u v (hbo hv2)
      have hidx : iu = idx := by
        have h1 : st.order[iu]? = some u := by
          rw [← hmap, List.getElem?_map, hsu]
          rfl
        have h2 : st.order[idx]? = some u := by
          rw [← hmap, List.getElem?_map, hseg]
          rfl
        exact nodup_getElem?_inj hnd h1 h2
      subst hidx
      have hsame : su = s := by
        rw [hsu] at hseg
        injection hseg with hseg
        exact congrArg Prod.snd hseg
      subst hsame
      rw [htasks2]
      exact beforeL_flatten_cross hlt (hM iu u su hsu) (hM iv v sv hsv)
        (List.mem_cons_of_mem _ hmem) (List.mem_cons_self _ _)

theorem tidyInter_empty : TidyInter SchedState.empty.inter := by
  intro x r h
  exact absurd h (by simp [SchedState.empty, lookupA])

theorem tidyUO_nil : TidyUO [] := by
  refine ⟨List.nodup_nil, ?_⟩
  intro o port h
  exact absurd h (by simp)

theorem tidyUO_insert {uo : List (Nat × Port)} (h : TidyUO uo) (n i o : Nat) :
    TidyUO (modifyA Port.empty (fun p => (p.insertConnection n i).2) uo o) := by
  obtain ⟨hk, hp⟩ := h
  constructor
  · rcases ho : lookupA uo o with _ | port₀
    · rw [keysA_modifyA_not_mem _ _ _ _ ho]
      refine List.Nodup.append hk (List.nodup_singleton o) ?_
      intro a ha hb
      have hab : a = o := by simpa using hb
      subst hab
      exact (lookupA_eq_none_iff _ _).mp ho ha
    · rw [keysA_modifyA_mem _ _ _ _ (by simp [ho])]
      exact hk
  · intro o₂ port₂ hmem
    rcases mem_modifyA_weak Port.empty (fun p => (p.insertConnection n i).2) uo o
        (o₂, port₂) hmem with hmem2 | ⟨p₀, hmem2, hp₀⟩
    · exact hp o₂ port₂ hmem2
    · have hport₂ : port₂ = (p₀.insertConnection n i).2 := congrArg Prod.snd hmem2
      have hp₀facts : (keysA p₀.conns).Nodup ∧
          ∀ v ps, (v, ps) ∈ p₀.conns → ps.Nodup ∧ ps ≠ [] := by
        rcases hp₀ with hp₀ | hp₀
        · rw [hp₀]
          exact ⟨List.nodup_nil, fun v ps hv => absurd hv (by
            simp [Port.empty])⟩
        · obtain ⟨h1, _, h3⟩ := hp o p₀ hp₀
          exact ⟨h1, h3⟩
      rcases hcn : lookupA p₀.conns n with _ | ports
      · have hport₂2 : port₂ = ⟨insertNewA p₀.conns n [i]⟩ := by
          rw [hport₂]
          simp only [Port.insertConnection, hcn]
        rw [hport₂2]
        refine ⟨?_, by simp [insertNewA], ?_⟩
        · show (keysA (insertNewA p₀.conns n [i])).Nodup
          rw [keysA_append_single]
          refine List.Nodup.append hp₀facts.1 (List.nodup_singleton n) ?_
          intro a ha hb
          have hab : a = n := by simpa using hb
          subst hab
          exact (lookupA_eq_none_iff _ _).mp hcn ha
        · intro v ps hv
          have hv2 : (v, ps) ∈ insertNewA p₀.conns n [i] := hv
          rw [insertNewA] at hv2
          rcases List.mem_append.mp hv2 with hv3 | hv3
          · exact hp₀facts.2 v ps hv3
          · have hps : ps = [i] := by
              have h5 : (v, ps) = (n, [i]) := by simpa using hv3
              exact congrArg Prod.snd h5
            rw [hps]
            exact ⟨List.nodup_singleton i, by simp⟩
      · by_cases hin : ports.contains i = true
        · have hport₂2 : port₂ = p₀ := by
            rw [hport₂]
            simp [Port.insertConnection, hcn, hin]
            rw [if_pos ((List.elem_iff).mp hin)]
          rw [hport₂2]
          refine ⟨hp₀facts.1, ?_, hp₀facts.2⟩
          intro hc
          rw [hc] at hcn
          exact absurd hcn (by simp [lookupA])
        · have hin2 : ports.contains i = false := by
            cases hcb : ports.contains i
            · rfl
            · exact absurd hcb hin
          have hport₂2 : port₂ = ⟨modifyA [] (fun ps => ps ++ [i]) p₀.conns n⟩ := by
            rw [hport₂]
            simp [Port.insertConnection, hcn, hin2]
            rw [if_neg (fun hh => hin ((List.elem_iff).mpr hh))]
          rw [hport₂2]
          refine ⟨?_, ?_, ?_⟩
          · show (keysA (modifyA [] (fun ps => ps ++ [i]) p₀.conns n)).Nodup
            rw [keysA_modifyA_mem _ _ _ _ (by simp [hcn])]
            exact hp₀facts.1
          · show (⟨modifyA [] (fun ps => ps ++ [i]) p₀.conns n⟩ : Port).conns ≠ []
            show modifyA [] (fun ps => ps ++ [i]) p₀.conns n ≠ []
            intro hc
            have hkeys := keysA_modifyA_mem ([] : List Nat)
              (fun ps => ps ++ [i]) p₀.conns n (by simp [hcn])
            rw [hc] at hkeys
            have hn : n ∈ keysA p₀.conns := (lookupA_isSome_iff _ _).mp (by simp [hcn])
            rw [← hkeys] at hn
            simp [keysA] at hn
          · intro v ps hv
            have hv2 : (v, ps) ∈ modifyA [] (fun ps => ps ++ [i]) p₀.conns n := hv
            rcases mem_modifyA_weak [] (fun ps => ps ++ [i]) p₀.conns n
                (v, ps) hv2 with hv3 | ⟨ps₀, hv3, hps₀⟩
            · exact hp₀facts.2 v ps hv3
            · have hps : ps = ps₀ ++ [i] := congrArg Prod.snd hv3
              rcases hps₀ with hps₀ | hps₀
              · rw [hps, hps₀]
                exact ⟨List.nodup_singleton i, by simp⟩
              · obtain ⟨hnd, _⟩ := hp₀facts.2 n ps₀ hps₀
                rw [hps]
                constructor
                · refine List.Nodup.append hnd (List.nodup_singleton i) ?_
                  intro a ha hb
                  have hab : a = i := by simpa using hb
                  subst hab
                  have hpp : ps₀ = ports := by
                    have h6 := mem_lookupA hp₀facts.1 hps₀
                    rw [h6] at hcn
                    exact Option.some.inj hcn
                  rw [hpp] at ha
                  exact hin ((List.elem_iff).mpr ha)
                · simp

theorem tidy_asnSrcPorts (g : Graph) (index destPortId srcNodeId srcInputLat : Nat) :
    ∀ (l : List Nat) (uo : List (Nat × Port)) (maxLat : Nat) uo' maxLat',
      asnSrcPorts g index destPortId srcNodeId srcInputLat l uo maxLat =
        some (uo', maxLat') →
      TidyUO uo → TidyUO uo' := by
  intro l
  induction l with
  | nil =>
    intro uo maxLat uo' maxLat' h ht
    rw [asnSrcPorts] at h
    injection h with h
    injection h with h1 h2
    subst h1
    exact ht
  | cons p rest ih =>
    intro uo maxLat uo' maxLat' h ht
    rw [asnSrcPorts] at h
    rcases hsrc : g.getNode srcNodeId with _ | srcNode
    · rw [hsrc] at h
      exact absurd h (by simp)
    · simp only [hsrc] at h
      rcases hlat : lookupA srcNode.outLats p with _ | plat
      · rw [hlat] at h
        exact absurd h (by simp)
      · simp only [hlat] at h
        exact ih _ _ _ _ h (tidyUO_insert ht index destPortId p)

theorem tidy_asnConns {g : Graph} {rec : SchedState → Nat → DfsRes SchedState}
    (hrt : RecTidy rec) (index destPortId : Nat) :
    ∀ (l : List (Nat × List Nat)) (st : SchedState) (maxLat : Nat) st' maxLat',
      asnConns g rec index destPortId l st maxLat = .ok (st', maxLat') →
      TidyInter st.inter → TidyInter st'.inter := by
  intro l
  induction l with
  | nil =>
    intro st maxLat st' maxLat' h ht
    rw [asnConns] at h
    injection h with h
    injection h with h1 h2
    subst h1
    exact ht
  | cons hd rest ih =>
    obtain ⟨u, ps⟩ := hd
    intro st maxLat st' maxLat' h ht
    rw [asnConns] at h
    rcases hr1 : rec st u with _ | _ | st₁
    · rw [hr1] at h
      exact absurd h (by simp)
    · rw [hr1] at h
      exact absurd h (by simp)
    · simp only [hr1] at h
      have ht1 : TidyInter st₁.inter := hrt st u st₁ hr1 ht
      rcases hsr : lookupA st₁.inter u with _ | srcRec
      · rw [hsr] at h
        exact absurd h (by simp)
      · simp only [hsr] at h
        rcases hsp : asnSrcPorts g index destPortId u srcRec.maxDelay ps
            srcRec.usedOutputs maxLat with _ | pr
        · rw [hsp] at h
          exact absurd h (by simp)
        · obtain ⟨uo', maxLat₁⟩ := pr
          simp only [hsp] at h
          refine ih _ _ _ _ h ?_
          intro x r hx
          have hx2 : lookupA (modifyA (⟨0, []⟩ : UsedNode)
              (fun r => { r with usedOutputs := uo' }) st₁.inter u) x = some r := hx
          by_cases hxu : x = u
          · subst hxu
            rw [lookupA_modifyA_self, hsr] at hx2
            injection hx2 with hx2
            rw [← hx2]
            exact tidy_asnSrcPorts g index destPortId x srcRec.maxDelay ps
              srcRec.usedOutputs maxLat uo' maxLat₁ hsp (ht1 x srcRec hsr)
          · rw [lookupA_modifyA_ne _ _ _ _ _ hxu] at hx2
            exact ht1 x r hx2

theorem tidy_asnInputs {g : Graph} {rec : SchedState → Nat → DfsRes SchedState}
    (hrt : RecTidy rec) (index : Nat) :
    ∀ (l : List (Nat × Port)) (st : SchedState) (maxLat : Nat) st' maxLat',
      asnInputs g rec index l st maxLat = .ok (st', maxLat') →
      TidyInter st.inter → TidyInter st'.inter := by
  intro l
  induction l with
  | nil =>
    intro st maxLat st' maxLat' h ht
    rw [asnInputs] at h
    injection h with h
    injection h with h1 h2
    subst h1
    exact ht
  | cons hd rest ih =>
    obtain ⟨ip, port⟩ := hd
    intro st maxLat st' maxLat' h ht
    rw [asnInputs] at h
    rcases hc : asnConns g rec index ip port.conns st maxLat with _ | _ | pr
    · rw [hc] at h
      exact absurd h (by simp)
    · rw [hc] at h
      exact absurd h (by simp)
    · obtain ⟨st₁, maxLat₁⟩ := pr
      simp only [hc] at h
      exact ih _ _ _ _ h (tidy_asnConns hrt index ip port.conns st maxLat st₁ maxLat₁ hc ht)

theorem tidy_addSinkNode (g : Graph) : ∀ (fuel : Nat), RecTidy (addSinkNode g fuel) := by
  intro fuel
  induction fuel with
  | zero =>
    intro st n st' h ht
    rw [addSinkNode] at h
    exact absurd h (by simp)
  | succ f ih =>
    intro st n st' h ht
    rw [addSinkNode] at h
    by_cases hmem : (lookupA st.inter n).isSome
    · rw [if_pos hmem] at h
      injection h with h
      subst h
      exact ht
    · rw [if_neg hmem] at h
      rcases hg : g.getNode n with _ | node
      · rw [hg] at h
        exact absurd h (by simp)
      · rcases hasn : asnInputs g (addSinkNode g f) n node.inputs st 0 with _ | _ | pr
        · simp only [hg] at h
          rw [hasn] at h
          exact absurd h (by simp)
        · simp only [hg] at h
          rw [hasn] at h
          exact absurd h (by simp)
        · obtain ⟨st₁, maxLat⟩ := pr
          simp only [hg, hasn] at h
          by_cases hmem₁ : (lookupA st₁.inter n).isSome
          · rw [if_pos hmem₁] at h
            exact absurd h (by simp)
          · rw [if_neg hmem₁] at h
            injection h with h
            have ht1 : TidyInter st₁.inter :=
              tidy_asnInputs ih n node.inputs st 0 st₁ maxLat hasn ht
            intro x r hx
            rw [← h] at hx
            have hx2 : lookupA (insertNewA st₁.inter n ⟨maxLat, []⟩) x = some r := hx
            rw [lookupA_insertNewA] at hx2
            rcases h3 : lookupA st₁.inter x with _ | r₀
            · simp only [h3] at hx2
              by_cases hnx : n = x
              · rw [if_pos hnx] at hx2
                injection hx2 with hx2
                rw [← hx2]
                exact tidyUO_nil
              · rw [if_neg hnx] at hx2
                exact absurd hx2 (by simp)
            · simp only [h3] at hx2
              injection hx2 with hx2
              subst hx2
              exact ht1 x r₀ h3

/-! ## Claim C7: unused outputs are bound to none, unreachable nodes omitted -/

/-- C7.  In the compiled schedule, `node_io`'s keys are exactly the
traversal order (nodes not reverse-reachable from a sink are omitted), every
`Node` task belongs to the order, and a scheduled node's output port is
bound to `none` exactly when it has no recorded downstream consumer. -/
theorem compile_unused_outputs {g : Graph} {st : SchedState} {sched : GraphSchedule}
    (hwf : g.wfB = true)
    (hinv : SchedInv g st (fun _ => False))
    (htidy : TidyInter st.inter)
    (hc : st.compile g = some sched) :
    keysA sched.nodeIO = st.order ∧
    (∀ x, Task.node x ∈ sched.tasks → x ∈ st.order) ∧
    (∀ v nio, lookupA sched.nodeIO v = some nio →
      ∃ gn, g.getNode v = some gn ∧
        keysA nio.outputs = keysA gn.outLats ∧
        ∀ o lat, (o, lat) ∈ gn.outLats →
          (lookupA nio.outputs o = some none ↔
            ¬ ∃ w i, UsedEdge st.inter v o w i)) := by
  rw [SchedState.compile] at hc
  rcases hgo : compileGo g st.inter st.order ⟨[], [], [], [], []⟩ with _ | cs
  · rw [hgo] at hc
    exact absurd hc (by simp)
  · simp only [hgo] at hc
    injection hc with hc
    have hT : sched.tasks = cs.tasks := by rw [← hc]
    have hioeq : sched.nodeIO = cs.nodeIO := by rw [← hc]
    obtain ⟨segs, hmap, htasks, _, _, _, hassoc, _, hk1, _, hnew1⟩ :=
      compileGo_struct hwf st.order ⟨[], [], [], [], []⟩ cs hgo
        (fun c hc2 => absurd hc2 (by simp)) (fun k sm hk => absurd hk (by simp))
    refine ⟨?_, ?_, ?_⟩
    · rw [hioeq, hk1]
      simp [keysA]
    · intro x hx
      rw [hT, htasks] at hx
      simp only [List.nil_append] at hx
      rw [List.mem_flatten] at hx
      obtain ⟨li, hli, hx2⟩ := hx
      obtain ⟨p, hp, hpli⟩ := List.mem_map.mp hli
      obtain ⟨idx, hidx⟩ := (List.mem_iff_getElem?).mp hp
      obtain ⟨u, sseg⟩ := p
      rw [← hpli] at hx2
      rcases List.mem_cons.mp hx2 with hx3 | hx3
      · have hxu : x = u := by
          have h2 := hx3
          simp only [Task.node.injEq] at h2
          exact h2
        subst hxu
        rw [← hmap]
        exact List.mem_map_of_mem Prod.fst hp
      · obtain ⟨k, sm, d, o, hk2, _, _, _⟩ := hassoc idx u sseg hidx (Task.node x) hx3
        exact absurd hk2 (by simp)
    · intro v nio hv
      rw [hioeq] at hv
      rcases hnew1 v nio hv with h2 | ⟨hvl, gn, urec, hgn, hur, hko, hofacts⟩
      · exact absurd h2 (by simp [lookupA])
      · refine ⟨gn, hgn, hko, ?_⟩
        intro o lat hmem
        constructor
        · intro hnone hcons
          obtain ⟨w, i, r, hr, hpe⟩ := hcons
          rw [hur] at hr
          injection hr with hr
          subst hr
          obtain ⟨port, ps, hport, _, _⟩ := hpe
          obtain ⟨b, m2, hsome⟩ := (hofacts o lat hmem).2 port hport
          rw [hnone] at hsome
          injection hsome with hsome
          exact absurd hsome (by simp)
        · intro hncons
          rcases huo : lookupA urec.usedOutputs o with _ | port
          · exact (hofacts o lat hmem).1 huo
          · exfalso
            have htuo : TidyUO urec.usedOutputs := htidy v urec hur
            obtain ⟨_, hports⟩ := htuo
            obtain ⟨hcnd, hcne, hpsf⟩ := hports o port (lookupA_mem huo)
            obtain ⟨e, he⟩ := List.exists_mem_of_ne_nil port.conns hcne
            obtain ⟨w, ps⟩ := e
            obtain ⟨_, hpsne⟩ := hpsf w ps he
            obtain ⟨i, hi⟩ := List.exists_mem_of_ne_nil ps hpsne
            exact hncons ⟨w, i, urec, hur, port, ps, huo,
              mem_lookupA hcnd he, hi⟩

/-! ## Chain evaluation: unfolding equations and stability -/

theorem chainList_graphNode (sums : List SumNode) (F d u o : Nat) :
    chainList sums F (.graphNode d u o) = [(u, o, d)] := by
  cases F <;> rfl

theorem chainList_sum0 (sums : List SumNode) (k : Nat) :
    chainList sums 0 (.sumNode k) = [] := rfl

theorem chainList_sumS (sums : List SumNode) (f k : Nat) :
    chainList sums (f + 1) (.sumNode k) =
      (match sums.get? k with
       | none => []
       | some sn => chainList sums f sn.summands.1 ++
           chainList sums f sn.summands.2) := rfl

theorem chainSums_graphNode (sums : List SumNode) (F d u o : Nat) :
    chainSums sums F (.graphNode d u o) = [] := by
  cases F <;> rfl

theorem chainSums_sum0 (sums : List SumNode) (k : Nat) :
    chainSums sums 0 (.sumNode k) = [k] := rfl

theorem chainSums_sumS (sums : List SumNode) (f k : Nat) :
    chainSums sums (f + 1) (.sumNode k) =
      (match sums.get? k with
       | none => [k]
       | some sn => k :: (chainSums sums f sn.summands.1 ++
           chainSums sums f sn.summands.2)) := rfl

theorem chainList_congr {sums : List SumNode} (hwfs : SumsWF sums) :
    ∀ (j : Nat), j < sums.length → ∀ (F₁ F₂ : Nat), j < F₁ → j < F₂ →
      chainList sums F₁ (.sumNode j) = chainList sums F₂ (.sumNode j) := by
  intro j
  induction j using Nat.strong_induction_on with
  | _ j ih =>
    intro hj F₁ F₂ h1 h2
    obtain ⟨a, rfl⟩ : ∃ a, F₁ = a + 1 := ⟨F₁ - 1, by omega⟩
    obtain ⟨b, rfl⟩ : ∃ b, F₂ = b + 1 := ⟨F₂ - 1, by omega⟩
    obtain ⟨s, hs⟩ : ∃ s, sums[j]? = some s := by
      rcases hh : sums[j]? with _ | s
      · rw [List.getElem?_eq_none_iff] at hh
        omega
      · exact ⟨s, rfl⟩
    rw [chainList_sumS, chainList_sumS, List.get?_eq_getElem?, hs]
    obtain ⟨hrhs, hlhs⟩ := hwfs j s hs
    obtain ⟨d, u, o, hro⟩ := hrhs
    simp only []
    congr 1
    · rcases hsl : s.summands.1 with ⟨d2, u2, o2⟩ | ⟨j2⟩
      · rw [chainList_graphNode, chainList_graphNode]
      · have hj2 := hlhs j2 hsl
        exact ih j2 hj2 (by omega) a b (by omega) (by omega)
    · rw [hro, chainList_graphNode, chainList_graphNode]

theorem chainList_fuel_src {sums : List SumNode} {src : InputSource}
    (hwfs : SumsWF sums) (hb : SrcBound sums.length src)
    {F₁ F₂ : Nat} (h1 : sums.length ≤ F₁) (h2 : sums.length ≤ F₂) :
    chainList sums F₁ src = chainList sums F₂ src := by
  cases src with
  | graphNode d u o => rw [chainList_graphNode, chainList_graphNode]
  | sumNode j =>
    have hj := hb j rfl
    exact chainList_congr hwfs j hj F₁ F₂ (by omega) (by omega)

theorem chainList_append {sums Δ : List SumNode} (hwfs : SumsWF sums) :
    ∀ (F j : Nat), j < sums.length →
      chainList (sums ++ Δ) F (.sumNode j) = chainList sums F (.sumNode j) := by
  intro F
  induction F with
  | zero =>
    intro j hj
    rw [chainList_sum0, chainList_sum0]
  | succ f ihf =>
    intro j hj
    obtain ⟨s, hs⟩ : ∃ s, sums[j]? = some s := by
      rcases hh : sums[j]? with _ | s
      · rw [List.getElem?_eq_none_iff] at hh
        omega
      · exact ⟨s, rfl⟩
    rw [chainList_sumS, chainList_sumS, List.get?_eq_getElem?, List.get?_eq_getElem?,
      List.getElem?_append_left hj, hs]
    obtain ⟨hrhs, hlhs⟩ := hwfs j s hs
    obtain ⟨d, u, o, hro⟩ := hrhs
    simp only []
    congr 1
    · rcases hsl : s.summands.1 with ⟨d2, u2, o2⟩ | ⟨j2⟩
      · rw [chainList_graphNode, chainList_graphNode]
      · exact ihf j2 (lt_trans (hlhs j2 hsl) hj)
    · rw [hro, chainList_graphNode, chainList_graphNode]

theorem chainList_append_src {sums Δ : List SumNode} {src : InputSource}
    (hwfs : SumsWF sums) (hb : SrcBound sums.length src) (F : Nat) :
    chainList (sums ++ Δ) F src = chainList sums F src := by
  cases src with
  | graphNode d u o => rw [chainList_graphNode, chainList_graphNode]
  | sumNode j => exact chainList_append hwfs F j (hb j rfl)

theorem chainSums_congr {sums : List SumNode} (hwfs : SumsWF sums) :
    ∀ (j : Nat), j < sums.length → ∀ (F₁ F₂ : Nat), j < F₁ → j < F₂ →
      chainSums sums F₁ (.sumNode j) = chainSums sums F₂ (.sumNode j) := by
  intro j
  induction j using Nat.strong_induction_on with
  | _ j ih =>
    intro hj F₁ F₂ h1 h2
    obtain ⟨a, rfl⟩ : ∃ a, F₁ = a + 1 := ⟨F₁ - 1, by omega⟩
    obtain ⟨b, rfl⟩ : ∃ b, F₂ = b + 1 := ⟨F₂ - 1, by omega⟩
    obtain ⟨s, hs⟩ : ∃ s, sums[j]? = some s := by
      rcases hh : sums[j]? with _ | s
      · rw [List.getElem?_eq_none_iff] at hh
        omega
      · exact ⟨s, rfl⟩
    rw [chainSums_sumS, chainSums_sumS, List.get?_eq_getElem?, hs]
    obtain ⟨hrhs, hlhs⟩ := hwfs j s hs
    obtain ⟨d, u, o, hro⟩ := hrhs
    simp only []
    congr 2
    · rcases hsl : s.summands.1 with ⟨d2, u2, o2⟩ | ⟨j2⟩
      · rw [chainSums_graphNode, chainSums_graphNode]
      · have hj2 := hlhs j2 hsl
        exact ih j2 hj2 (by omega) a b (by omega) (by omega)
    · rw [hro, chainSums_graphNode, chainSums_graphNode]

theorem chainSums_fuel_src {sums : List SumNode} {src : InputSource}
    (hwfs : SumsWF sums) (hb : SrcBound sums.length src)
    {F₁ F₂ : Nat} (h1 : sums.length ≤ F₁) (h2 : sums.length ≤ F₂) :
    chainSums sums F₁ src = chainSums sums F₂ src := by
  cases src with
  | graphNode d u o => rw [chainSums_graphNode, chainSums_graphNode]
  | sumNode j =>
    have hj := hb j rfl
    exact chainSums_congr hwfs j hj F₁ F₂ (by omega) (by omega)

theorem chainSums_append {sums Δ : List SumNode} (hwfs : SumsWF sums) :
    ∀ (F j : Nat), j < sums.length →
      chainSums (sums ++ Δ) F (.sumNode j) = chainSums sums F (.sumNode j) := by
  intro F
  induction F with
  | zero =>
    intro j hj
    rw [chainSums_sum0, chainSums_sum0]
  | succ f ihf =>
    intro j hj
    obtain ⟨s, hs⟩ : ∃ s, sums[j]? = some s := by
      rcases hh : sums[j]? with _ | s
      · rw [List.getElem?_eq_none_iff] at hh
        omega
      · exact ⟨s, rfl⟩
    rw [chainSums_sumS, chainSums_sumS, List.get?_eq_getElem?, List.get?_eq_getElem?,
      List.getElem?_append_left hj, hs]
    obtain ⟨hrhs, hlhs⟩ := hwfs j s hs
    obtain ⟨d, u, o, hro⟩ := hrhs
    simp only []
    congr 2
    · rcases hsl : s.summands.1 with ⟨d2, u2, o2⟩ | ⟨j2⟩
      · rw [chainSums_graphNode, chainSums_graphNode]
      · exact ihf j2 (lt_trans (hlhs j2 hsl) hj)
    · rw [hro, chainSums_graphNode, chainSums_graphNode]

theorem chainSums_append_src {sums Δ : List SumNode} {src : InputSource}
    (hwfs : SumsWF sums) (hb : SrcBound sums.length src) (F : Nat) :
    chainSums (sums ++ Δ) F src = chainSums sums F src := by
  cases src with
  | graphNode d u o => rw [chainSums_graphNode, chainSums_graphNode]
  | sumNode j => exact chainSums_append hwfs F j (hb j rfl)

theorem chainOK_congrP {g inter sums v src} {P Q : Nat → Nat → Prop}
    (h : ChainOK g inter sums v src P) (hpq : ∀ u o, P u o ↔ Q u o) :
    ChainOK g inter sums v src Q := by
  refine ⟨?_, h.nodupFst, h.countEq, h.bound, h.nonempty⟩
  intro u o d
  rw [h.memIff u o d]
  exact and_congr_left (fun _ => hpq u o)

theorem chainOK_direct {g : Graph} {inter : List (Nat × UsedNode)}
    {sums : List SumNode} {v w o d : Nat}
    (hd : d = delaySpec g inter w o v) :
    ChainOK g inter sums v (.graphNode d w o) (fun u₂ o₂ => u₂ = w ∧ o₂ = o) := by
  refine ⟨?_, ?_, ?_, ?_, ?_⟩
  · intro u₂ o₂ d₂
    rw [chainList_graphNode]
    constructor
    · intro hm
      have hm2 : (u₂, o₂, d₂) = (w, o, d) := by simpa using hm
      injection hm2 with h1 h2
      injection h2 with h2 h3
      subst h1; subst h2; subst h3
      exact ⟨⟨rfl, rfl⟩, hd⟩
    · rintro ⟨⟨rfl, rfl⟩, rfl⟩
      rw [hd]
      simp
  · rw [chainList_graphNode]
    simp
  · rw [chainList_graphNode, chainSums_graphNode]
    simp
  · intro j hj
    exact absurd hj (by simp)
  · rw [chainList_graphNode]
    simp

theorem chainOK_stable {g inter sums v src P} {Δ : List SumNode}
    (h : ChainOK g inter sums v src P) (hwfs : SumsWF sums) :
    ChainOK g inter (sums ++ Δ) v src P := by
  have hCL : chainList (sums ++ Δ) (sums ++ Δ).length src =
      chainList sums sums.length src := by
    rw [chainList_append_src hwfs h.bound]
    exact chainList_fuel_src hwfs h.bound (by simp) le_rfl
  have hCS : chainSums (sums ++ Δ) (sums ++ Δ).length src =
      chainSums sums sums.length src := by
    rw [chainSums_append_src hwfs h.bound]
    exact chainSums_fuel_src hwfs h.bound (by simp) le_rfl
  exact ⟨by rw [hCL]; exact h.memIff, by rw [hCL]; exact h.nodupFst,
    by rw [hCL, hCS]; exact h.countEq,
    srcBound_mono (by simp) h.bound, by rw [hCL]; exact h.nonempty⟩

theorem chainOK_sum {g : Graph} {inter : List (Nat × UsedNode)}
    {sums : List SumNode} {v w o d buf : Nat} {lhs : InputSource}
    {P : Nat → Nat → Prop}
    (h : ChainOK g inter sums v lhs P) (hwfs : SumsWF sums)
    (hd : d = delaySpec g inter w o v) (hnew : ¬ P w o) :
    ChainOK g inter (sums ++ [⟨(lhs, .graphNode d w o), buf⟩]) v
      (.sumNode sums.length)
      (fun u₂ o₂ => P u₂ o₂ ∨ (u₂ = w ∧ o₂ = o)) := by
  set sums₂ := sums ++ [(⟨(lhs, .graphNode d w o), buf⟩ : SumNode)] with hs₂
  have hlen : sums₂.length = sums.length + 1 := by
    rw [hs₂]
    simp
  have hget : sums₂.get? sums.length = some ⟨(lhs, .graphNode d w o), buf⟩ := by
    rw [List.get?_eq_getElem?, hs₂, List.getElem?_append_right (by omega)]
    simp
  have hCL : chainList sums₂ sums₂.length (.sumNode sums.length) =
      chainList sums sums.length lhs ++ [(w, o, d)] := by
    rw [hlen, chainList_sumS, hget]
    simp only []
    congr 1
    · show chainList sums₂ sums.length lhs = chainList sums sums.length lhs
      rw [hs₂, chainList_append_src hwfs h.bound]
    · show chainList sums₂ sums.length (.graphNode d w o) = [(w, o, d)]
      rw [chainList_graphNode]
  have hCS : chainSums sums₂ sums₂.length (.sumNode sums.length) =
      sums.length :: chainSums sums sums.length lhs := by
    rw [hlen, chainSums_sumS, hget]
    simp only []
    congr 1
    have h1 : chainSums sums₂ sums.length lhs = chainSums sums sums.length lhs := by
      rw [hs₂, chainSums_append_src hwfs h.bound]
    have h2 : chainSums sums₂ sums.length (.graphNode d w o) = [] := by
      rw [chainSums_graphNode]
    rw [h1, h2, List.append_nil]
  refine ⟨?_, ?_, ?_, ?_, ?_⟩
  · intro u₂ o₂ d₂
    rw [hCL, List.mem_append]
    constructor
    · rintro (hm | hm)
      · obtain ⟨hp, hd2⟩ := (h.memIff u₂ o₂ d₂).mp hm
        exact ⟨Or.inl hp, hd2⟩
      · have hm2 : (u₂, o₂, d₂) = (w, o, d) := by simpa using hm
        injection hm2 with h1 h2
        injection h2 with h2 h3
        subst h1; subst h2; subst h3
        exact ⟨Or.inr ⟨rfl, rfl⟩, hd⟩
    · rintro ⟨hp | ⟨rfl, rfl⟩, rfl⟩
      · exact Or.inl ((h.memIff _ _ _).mpr ⟨hp, rfl⟩)
      · rw [hd]
        simp
  · rw [hCL, List.map_append]
    refine List.Nodup.append h.nodupFst (by simp) ?_
    intro e he hb
    have he2 : e = (w, o) := by simpa using hb
    subst he2
    obtain ⟨t, hmt, hproj⟩ := List.mem_map.mp he
    obtain ⟨hp, _⟩ := (h.memIff t.1 t.2.1 t.2.2).mp (by
      have : t = (t.1, t.2.1, t.2.2) := rfl
      rw [← this]
      exact hmt)
    have h1 : t.1 = w := congrArg Prod.fst hproj
    have h2 : t.2.1 = o := congrArg Prod.snd hproj
    rw [h1, h2] at hp
    exact hnew hp
  · rw [hCL, hCS]
    simp only [List.length_cons, List.length_append, List.length_nil]
    have := h.countEq
    omega
  · intro j hj
    injection hj with hj
    subst hj
    rw [hs₂]
    simp
  · rw [hCL]
    simp

/-! ## Small helpers for the claims machinery -/

theorem claimedAt_eq (claims : Claims) (v j : Nat) :
    claimedAt claims v j = (lookupC claims v j).isSome := by
  rw [claimedAt, lookupC]
  rcases lookupA claims v with _ | dc
  · rfl
  · rfl

theorem keysA_cons {V : Type} (k : Nat) (v : V) (m : List (Nat × V)) :
    keysA ((k, v) :: m) = k :: keysA m := rfl

theorem lookupC_update {claims : Claims} {v i : Nat} {X : Nat × InputSource}
    (hun : lookupC claims v i = none) :
    ∀ x j, lookupC (modifyA [] (fun m => insertNewA m i X) claims v) x j =
      if x = v ∧ j = i then some X else lookupC claims x j := by
  intro x j
  by_cases hxv : x = v
  · subst hxv
    have hdcv : ∀ j2, lookupC claims x j2 =
        lookupA ((lookupA claims x).getD []) j2 := by
      intro j2
      rw [lookupC]
      rcases lookupA claims x with _ | dc
      · simp [lookupA]
      · rfl
    have hL : lookupC (modifyA [] (fun m => insertNewA m i X) claims x) x j =
        lookupA (insertNewA ((lookupA claims x).getD []) i X) j := by
      rw [lookupC, lookupA_modifyA_self]
    rw [hL, lookupA_insertNewA, ← hdcv j]
    by_cases hij : j = i
    · subst hij
      rw [hun]
      simp
    · rcases hcj : lookupC claims x j with _ | w
      · simp [hij, Ne.symm hij]
      · simp [hij]
  · rw [lookupC, lookupA_modifyA_ne _ _ _ _ _ hxv, if_neg (fun hh => hxv hh.1)]
    rfl

theorem removeA_sublist {V : Type} (m : List (Nat × V)) (k : Nat) :
    (removeA m k).Sublist m := by
  induction m with
  | nil => simp [removeA]
  | cons hd tl ih =>
    obtain ⟨k2, v⟩ := hd
    rw [removeA]
    by_cases h2 : k2 = k
    · rw [if_pos h2]
      exact (List.sublist_cons_self _ _)
    · rw [if_neg h2]
      exact List.Sublist.cons₂ _ ih

theorem keysA_removeA_nodup {V : Type} {m : List (Nat × V)} {k : Nat}
    (h : (keysA m).Nodup) : (keysA (removeA m k)).Nodup :=
  List.Nodup.sublist (List.Sublist.map Prod.fst (removeA_sublist m k)) h

theorem not_mem_removeA_self {V : Type} {m : List (Nat × V)} {k : Nat} {x : V}
    (h : (keysA m).Nodup) : (k, x) ∉ removeA m k := by
  induction m with
  | nil => simp [removeA]
  | cons hd tl ih =>
    obtain ⟨k2, v⟩ := hd
    simp only [keysA, List.map_cons, List.nodup_cons] at h
    rw [removeA]
    by_cases h2 : k2 = k
    · rw [if_pos h2]
      intro hmem
      subst h2
      exact h.1 (List.mem_map_of_mem Prod.fst hmem)
    · rw [if_neg h2]
      intro hmem
      rcases List.mem_cons.mp hmem with h3 | h3
      · exact h2 (congrArg Prod.fst h3).symm
      · exact ih h.2 h3

theorem lookupA_removeA_none {V : Type} {m : List (Nat × V)} {k : Nat}
    (h : (keysA m).Nodup) : lookupA (removeA m k) k = none := by
  rcases hl : lookupA (removeA m k) k with _ | x
  · rfl
  · exact absurd (lookupA_mem hl) (not_mem_removeA_self h)

/-- Finalisation: leftovers lie outside the scanned ports; with a claimed
map whose keys are scanned ports, nothing is left. -/
theorem cmpFinalize_leftover :
    ∀ (l : List (Nat × Port)) (claimed : List (Nat × (Nat × InputSource)))
      (alloc : Allocator) (inputs : List (Nat × Option InputSource))
      claimed' alloc' inputs',
      cmpFinalize l claimed alloc inputs = some (claimed', alloc', inputs') →
      (keysA claimed).Nodup →
      ∀ e ∈ claimed', e ∈ claimed ∧ e.1 ∉ keysA l := by
  intro l
  induction l with
  | nil =>
    intro claimed alloc inputs claimed' alloc' inputs' h hnd e he
    rw [cmpFinalize] at h
    injection h with h
    injection h with h1 h
    subst h1
    exact ⟨he, by simp [keysA]⟩
  | cons hd rest ih =>
    obtain ⟨i, port⟩ := hd
    intro claimed alloc inputs claimed' alloc' inputs' h hnd e he
    rw [cmpFinalize] at h
    by_cases hck : (lookupA inputs i).isSome = true
    · rw [if_pos hck] at h
      exact absurd h (by simp)
    · rw [if_neg hck] at h
      rcases hcl : lookupA claimed i with _ | pr
      · rw [hcl] at h
        obtain ⟨hmem, hkeys⟩ := ih _ _ _ _ _ _ h hnd e he
        refine ⟨hmem, ?_⟩
        intro hkey
        rw [keysA_cons] at hkey
        rcases List.mem_cons.mp hkey with h2 | h2
        · rw [← h2] at hcl
          have : (lookupA claimed e.1).isSome := by
            obtain ⟨e1, e2⟩ := e
            have := mem_lookupA hnd hmem
            simp [this]
          rw [hcl] at this
          exact absurd this (by simp)
        · exact hkeys h2
      · obtain ⟨handle, source⟩ := pr
        simp only [hcl] at h
        obtain ⟨hmem, hkeys⟩ := ih _ _ _ _ _ _ h (keysA_removeA_nodup hnd) e he
        refine ⟨mem_removeA hmem, ?_⟩
        intro hkey
        rw [keysA_cons] at hkey
        rcases List.mem_cons.mp hkey with h2 | h2
        · obtain ⟨e1, e2⟩ := e
          simp only [] at h2
          subst h2
          exact not_mem_removeA_self hnd hmem
        · exact hkeys h2

/-- Finalisation builds the inputs map: claimed ports keep their source,
unclaimed scanned ports get `none`. -/
theorem cmpFinalize_inputs :
    ∀ (l : List (Nat × Port)) (claimed : List (Nat × (Nat × InputSource)))
      (alloc : Allocator) (inputs : List (Nat × Option InputSource))
      claimed' alloc' inputs',
      cmpFinalize l claimed alloc inputs = some (claimed', alloc', inputs') →
      (keysA l).Nodup → (keysA claimed).Nodup →
      keysA inputs' = keysA inputs ++ keysA l ∧
      (∀ j, j ∉ keysA l → lookupA inputs' j = lookupA inputs j) ∧
      (∀ j, j ∈ keysA l → j ∉ keysA inputs →
        (∀ pr3, lookupA claimed j = some pr3 →
          lookupA inputs' j = some (some pr3.2)) ∧
        (lookupA claimed j = none → lookupA inputs' j = some none)) := by
  intro l
  induction l with
  | nil =>
    intro claimed alloc inputs claimed' alloc' inputs' h hndl hndc
    rw [cmpFinalize] at h
    injection h with h
    injection h with h1 h
    injection h with h2 h3
    subst h3
    exact ⟨by simp [keysA], fun j _ => rfl, by simp [keysA]⟩
  | cons hd rest ih =>
    obtain ⟨i, port⟩ := hd
    intro claimed alloc inputs claimed' alloc' inputs' h hndl hndc
    have hndl2 : (keysA rest).Nodup := by
      simpa [keysA] using hndl.of_cons
    have hil : i ∉ keysA rest := by
      simp only [keysA, List.map_cons, List.nodup_cons] at hndl
      exact hndl.1
    rw [cmpFinalize] at h
    by_cases hck : (lookupA inputs i).isSome = true
    · rw [if_pos hck] at h
      exact absurd h (by simp)
    · rw [if_neg hck] at h
      have hmain : ∀ (X : Option InputSource) claimed₂ alloc₂,
          cmpFinalize rest claimed₂ alloc₂ (inputs ++ [(i, X)]) =
            some (claimed', alloc', inputs') →
          (keysA claimed₂).Nodup →
          (∀ j, j ≠ i → lookupA claimed₂ j = lookupA claimed j) →
          keysA inputs' = keysA inputs ++ keysA ((i, port) :: rest) ∧
          (∀ j, j ∉ keysA ((i, port) :: rest) →
            lookupA inputs' j = lookupA inputs j) ∧
          (∀ j, j ∈ keysA ((i, port) :: rest) → j ∉ keysA inputs →
            (j = i → lookupA inputs' j = some X) ∧
            (j ≠ i →
              (∀ pr3, lookupA claimed j = some pr3 →
                lookupA inputs' j = some (some pr3.2)) ∧
              (lookupA claimed j = none → lookupA inputs' j = some none))) := by
        intro X claimed₂ alloc₂ h2 hnd2 hrel
        obtain ⟨hk, hold, hnew⟩ := ih _ _ _ _ _ _ h2 hndl2 hnd2
        refine ⟨?_, ?_, ?_⟩
        · rw [hk]
          simp [keysA, List.append_assoc]
        · intro j hj
          have hj1 : j ≠ i := by
            intro hh
            exact hj (by rw [hh]; simp [keysA])
          have hj2 : j ∉ keysA rest := by
            intro hh
            exact hj (by simp [keysA]; exact Or.inr (by simpa [keysA] using hh))
          rw [hold j hj2, lookupA_append]
          rcases h3 : lookupA inputs j with _ | x
          · simp [lookupA, Ne.symm hj1]
          · rfl
        · intro j hj hjn
          constructor
          · intro hji
            subst hji
            rw [hold j hil, lookupA_append]
            rcases h3 : lookupA inputs j with _ | x
            · simp [lookupA]
            · exact absurd ((lookupA_isSome_iff _ _).mp (by simp [h3])) hjn
          · intro hji
            have hjr : j ∈ keysA rest := by
              rw [keysA_cons] at hj
              rcases List.mem_cons.mp hj with h3 | h3
              · exact absurd h3 hji
              · exact h3
            have hjn2 : j ∉ keysA (inputs ++ [(i, X)]) := by
              rw [keysA, List.map_append]
              intro hh
              rcases List.mem_append.mp hh with hh | hh
              · exact hjn hh
              · exact hji (by simpa [keysA] using hh)
            obtain ⟨ha, hb⟩ := hnew j hjr hjn2
            rw [hrel j hji] at ha hb
            exact ⟨ha, hb⟩
      rcases hcl : lookupA claimed i with _ | pr
      · rw [hcl] at h
        obtain ⟨hk, hold, hnew⟩ := hmain none claimed alloc h hndc (fun _ _ => rfl)
        refine ⟨hk, hold, ?_⟩
        intro j hj hjn
        by_cases hji : j = i
        · subst hji
          refine ⟨fun pr3 hpr3 => ?_, fun _ => (hnew j hj hjn).1 rfl⟩
          rw [hcl] at hpr3
          exact absurd hpr3 (by simp)
        · exact (hnew j hj hjn).2 hji
      · obtain ⟨handle, source⟩ := pr
        simp only [hcl] at h
        obtain ⟨hk, hold, hnew⟩ := hmain (some source) (removeA claimed i)
          (dropH alloc handle) h (keysA_removeA_nodup hndc)
          (fun j hji => lookupA_removeA_ne _ _ _ hji)
        refine ⟨hk, hold, ?_⟩
        intro j hj hjn
        by_cases hji : j = i
        · subst hji
          refine ⟨fun pr3 hpr3 => ?_, fun hnone => ?_⟩
          · rw [hcl] at hpr3
            injection hpr3 with hpr3
            rw [(hnew j hj hjn).1 rfl, ← hpr3]
          · rw [hcl] at hnone
            exact absurd hnone (by simp)
        · exact (hnew j hj hjn).2 hji

/-! ## Claims transform of the destination-port loop -/

theorem cmpDestPorts_claims_spec (w o buf delay v : Nat) :
    ∀ (dps : List Nat) (alloc : Allocator) (claims : Claims)
      (prev : List (Nat × (Nat × Nat))),
      dps.Nodup →
      (∀ x j, x ≠ v →
        lookupC (cmpDestPorts w o buf delay v dps alloc claims prev).2.1 x j =
          lookupC claims x j) ∧
      (∀ j, j ∉ dps →
        lookupC (cmpDestPorts w o buf delay v dps alloc claims prev).2.1 v j =
          lookupC claims v j) ∧
      (∀ j, j ∈ dps → (lookupC claims v j).isSome →
        lookupC (cmpDestPorts w o buf delay v dps alloc claims prev).2.1 v j =
          lookupC claims v j) ∧
      (∀ j, j ∈ dps → lookupC claims v j = none →
        lookupC (cmpDestPorts w o buf delay v dps alloc claims prev).2.1 v j =
          some (buf, .graphNode delay w o)) ∧
      (cmpDestPorts w o buf delay v dps alloc claims prev).2.2 =
        prev ++ (dps.filter (fun j => claimedAt claims v j)).map
          (fun j => (j, (buf, delay))) := by
  intro dps
  induction dps with
  | nil =>
    intro alloc claims prev hnd
    refine ⟨fun x j _ => rfl, fun j _ => rfl, by simp, by simp, by simp [cmpDestPorts]⟩
  | cons j₀ rest ih =>
    intro alloc claims prev hnd
    have hnd2 : rest.Nodup := hnd.of_cons
    have hj₀ : j₀ ∉ rest := (List.nodup_cons.mp hnd).1
    rw [cmpDestPorts]
    by_cases hcl : claimedAt claims v j₀ = true
    · rw [if_pos hcl]
      obtain ⟨ha, hb, hc, hd, he⟩ := ih (bumpH alloc buf) claims
        (prev ++ [(j₀, (buf, delay))]) hnd2
      refine ⟨ha, ?_, ?_, ?_, ?_⟩
      · intro j hj
        exact hb j (fun hh => hj (List.mem_cons_of_mem _ hh))
      · intro j hj hs
        rcases List.mem_cons.mp hj with hj2 | hj2
        · subst hj2
          exact hb j hj₀
        · exact hc j hj2 hs
      · intro j hj hn
        rcases List.mem_cons.mp hj with hj2 | hj2
        · subst hj2
          rw [claimedAt_eq, hn] at hcl
          exact absurd hcl (by simp)
        · exact hd j hj2 hn
      · rw [he, List.filter_cons, if_pos hcl]
        simp [List.append_assoc]
    · rw [if_neg hcl]
      have hn₀ : lookupC claims v j₀ = none := by
        rw [claimedAt_eq] at hcl
        exact Option.not_isSome_iff_eq_none.mp (by
          intro hh
          exact hcl (by rw [hh]))
      have hupd := lookupC_update (X := (buf, InputSource.graphNode delay w o)) hn₀
      obtain ⟨ha, hb, hc, hd, he⟩ := ih (bumpH alloc buf)
        (modifyA [] (fun m => insertNewA m j₀ (buf, .graphNode delay w o)) claims v)
        prev hnd2
      refine ⟨?_, ?_, ?_, ?_, ?_⟩
      · intro x j hx
        rw [ha x j hx, hupd x j, if_neg (fun hh => hx hh.1)]
      · intro j hj
        rw [hb j (fun hh => hj (List.mem_cons_of_mem _ hh)), hupd v j,
          if_neg (show ¬(v = v ∧ j = j₀) from
            fun hh => hj (by rw [hh.2]; exact List.mem_cons_self _ _))]
      · intro j hj hs
        rcases List.mem_cons.mp hj with hj2 | hj2
        · subst hj2
          rw [hn₀] at hs
          exact absurd hs (by simp)
        · have hne : j ≠ j₀ := by
            intro hh
            subst hh
            exact hj₀ hj2
          rw [hc j hj2 (by rw [hupd v j, if_neg (fun hh => hne hh.2)]; exact hs),
            hupd v j, if_neg (fun hh => hne hh.2)]
      · intro j hj hn
        rcases List.mem_cons.mp hj with hj2 | hj2
        · subst hj2
          rw [hb j hj₀, hupd v j, if_pos ⟨rfl, rfl⟩]
        · have hne : j ≠ j₀ := by
            intro hh
            subst hh
            exact hj₀ hj2
          exact hd j hj2 (by rw [hupd v j, if_neg (fun hh => hne hh.2)]; exact hn)
      · rw [he, List.filter_cons, if_neg hcl]
        congr 2
        apply List.filter_congr
        intro j hj
        have hne : j ≠ j₀ := by
          intro hh
          subst hh
          exact hj₀ hj
        rw [claimedAt_eq, claimedAt_eq, hupd v j, if_neg (fun hh => hne hh.2)]

/-! ## Claims transform of the connection loop -/

theorem cmpConns_claims_spec {inter : List (Nat × UsedNode)} (w o buf stl : Nat) :
    ∀ (conns : List (Nat × List Nat)) (alloc : Allocator) (claims : Claims)
      (maxD : Nat) (repeats : Repeats) alloc' claims' maxD' repeats',
      cmpConns inter w o buf stl conns alloc claims maxD repeats =
        some (alloc', claims', maxD', repeats') →
      (keysA conns).Nodup →
      (∀ v dps, (v, dps) ∈ conns → dps.Nodup) →
      (∀ x j, x ∉ keysA conns → lookupC claims' x j = lookupC claims x j) ∧
      (∀ v dps, (v, dps) ∈ conns →
        (∀ j, j ∉ dps → lookupC claims' v j = lookupC claims v j) ∧
        (∀ j, j ∈ dps → (lookupC claims v j).isSome →
          lookupC claims' v j = lookupC claims v j) ∧
        (∀ j, j ∈ dps → lookupC claims v j = none →
          lookupC claims' v j =
            some (buf, .graphNode (interLat inter v - stl) w o))) ∧
      repeats' = repeats ++ conns.map (fun c =>
        (c.1, (c.2.filter (fun j => claimedAt claims c.1 j)).map
          (fun j => (j, (buf, interLat inter c.1 - stl))))) := by
  intro conns
  induction conns with
  | nil =>
    intro alloc claims maxD repeats alloc' claims' maxD' repeats' h hnd hdnd
    rw [cmpConns] at h
    injection h with h
    injection h with h1 h
    injection h with h2 h
    injection h with h3 h4
    subst h2; subst h4
    exact ⟨fun x j _ => rfl, by simp, by simp⟩
  | cons hd rest ih =>
    obtain ⟨v, dps⟩ := hd
    intro alloc claims maxD repeats alloc' claims' maxD' repeats' h hnd hdnd
    have hnd2 : (keysA rest).Nodup := by
      simpa [keysA] using hnd.of_cons
    have hvrest : v ∉ keysA rest := by
      simp only [keysA, List.map_cons, List.nodup_cons] at hnd
      exact hnd.1
    rw [cmpConns] at h
    rcases hdr : lookupA inter v with _ | destRec
    · rw [hdr] at h
      exact absurd h (by simp)
    · simp only [hdr] at h
      have hIL : interLat inter v = destRec.maxDelay := by
        rw [interLat, hdr]
      obtain ⟨ha, hb, hc, hd2, he⟩ :=
        cmpDestPorts_claims_spec w o buf (destRec.maxDelay - stl) v dps alloc claims []
          (hdnd v dps (List.mem_cons_self _ _))
      obtain ⟨iha, ihb, ihc⟩ := ih _ _ _ _ _ _ _ _ h hnd2
        (fun v₂ dps₂ hm => hdnd v₂ dps₂ (List.mem_cons_of_mem _ hm))
      refine ⟨?_, ?_, ?_⟩
      · intro x j hx
        have hx1 : x ≠ v := by
          intro hh
          exact hx (by rw [hh, keysA_cons]; exact List.mem_cons_self _ _)
        have hx2 : x ∉ keysA rest := by
          intro hh
          exact hx (by rw [keysA_cons]; exact List.mem_cons_of_mem _ hh)
        rw [iha x j hx2, ha x j hx1]
      · intro v₂ dps₂ hm
        rcases List.mem_cons.mp hm with hm2 | hm2
        · injection hm2 with hm3 hm4
          subst hm3
          subst hm4
          refine ⟨?_, ?_, ?_⟩
          · intro j hj
            rw [iha v₂ j hvrest, hb j hj]
          · intro j hj hs
            rw [iha v₂ j hvrest, hc j hj hs]
          · intro j hj hn
            rw [iha v₂ j hvrest, hd2 j hj hn, hIL]
        · have hv₂ : v₂ ≠ v := by
            intro hh
            subst hh
            exact hvrest (List.mem_map_of_mem Prod.fst hm2)
          have htr : ∀ j, lookupC (cmpDestPorts w o buf (destRec.maxDelay - stl) v
              dps alloc claims []).2.1 v₂ j = lookupC claims v₂ j :=
            fun j => ha v₂ j hv₂
          obtain ⟨i1, i2, i3⟩ := ihb v₂ dps₂ hm2
          refine ⟨?_, ?_, ?_⟩
          · intro j hj
            rw [i1 j hj, htr j]
          · intro j hj hs
            rw [i2 j hj (by rw [htr j]; exact hs), htr j]
          · intro j hj hn
            rw [i3 j hj (by rw [htr j]; exact hn)]
      · rw [ihc, he]
        simp only [List.nil_append, List.map_cons]
        rw [List.append_assoc, List.singleton_append]
        congr 1
        congr 1
        · congr 1
          rw [hIL]
        · apply List.map_congr_left
          intro c hc2
          have hcv : c.1 ≠ v := by
            intro hh
            rw [← hh] at hvrest
            exact hvrest (List.mem_map_of_mem Prod.fst hc2)
          congr 1
          congr 1
          apply List.filter_congr
          intro j hj
          rw [claimedAt_eq, claimedAt_eq, ha c.1 j hcv]

theorem rtriples_append (o : Nat) (r₁ r₂ : Repeats) :
    Rtriples o (r₁ ++ r₂) = Rtriples o r₁ ++ Rtriples o r₂ := by
  induction r₁ with
  | nil => rfl
  | cons hd tl ih =>
    rw [List.cons_append, Rtriples, Rtriples, ih, List.append_assoc]

theorem btriples_append (ra₁ ra₂ : RepeatAssignees) :
    Btriples (ra₁ ++ ra₂) = Btriples ra₁ ++ Btriples ra₂ := by
  induction ra₁ with
  | nil => rfl
  | cons hd tl ih =>
    rw [List.cons_append, Btriples, Btriples, ih, List.append_assoc]

theorem mem_rtriples {o : Nat} {reps : Repeats} {t : Nat × Nat × Nat} :
    t ∈ Rtriples o reps ↔ ∃ r ∈ reps, ∃ pr ∈ r.2, t = (o, r.1, pr.1) := by
  induction reps with
  | nil => simp [Rtriples]
  | cons hd tl ih =>
    rw [Rtriples, List.mem_append, ih]
    constructor
    · rintro (h | ⟨r, hr, pr, hpr, rfl⟩)
      · obtain ⟨pr, hpr, heq⟩ := List.mem_map.mp h
        exact ⟨hd, List.mem_cons_self _ _, pr, hpr, heq.symm⟩
      · exact ⟨r, List.mem_cons_of_mem _ hr, pr, hpr, rfl⟩
    · rintro ⟨r, hr, pr, hpr, rfl⟩
      rcases List.mem_cons.mp hr with rfl | hr
      · exact Or.inl (List.mem_map.mpr ⟨pr, hpr, rfl⟩)
      · exact Or.inr ⟨r, hr, pr, hpr, rfl⟩

theorem mem_btriples {ra : RepeatAssignees} {t : Nat × Nat × Nat} :
    t ∈ Btriples ra ↔ ∃ b ∈ ra, t ∈ Rtriples b.1 b.2 := by
  induction ra with
  | nil => simp [Btriples]
  | cons hd tl ih =>
    rw [Btriples, List.mem_append, ih]
    constructor
    · rintro (h | ⟨b, hb, hm⟩)
      · exact ⟨hd, List.mem_cons_self _ _, h⟩
      · exact ⟨b, List.mem_cons_of_mem _ hb, hm⟩
    · rintro ⟨b, hb, hm⟩
      rcases List.mem_cons.mp hb with rfl | hb
      · exact Or.inl hm
      · exact Or.inr ⟨b, hb, hm⟩

/-! ## Bound and structure of the sum indices reachable from a source -/

theorem chainSums_lt {sums : List SumNode} (hwfs : SumsWF sums) :
    ∀ (j : Nat), j < sums.length → ∀ (F : Nat), j < F →
      ∀ k ∈ chainSums sums F (.sumNode j), k < sums.length := by
  intro j
  induction j using Nat.strong_induction_on with
  | _ j ih =>
    intro hj F hF k hk
    obtain ⟨a, rfl⟩ : ∃ a, F = a + 1 := ⟨F - 1, by omega⟩
    obtain ⟨s, hs⟩ : ∃ s, sums[j]? = some s := by
      rcases hh : sums[j]? with _ | s
      · rw [List.getElem?_eq_none_iff] at hh
        omega
      · exact ⟨s, rfl⟩
    rw [chainSums_sumS, List.get?_eq_getElem?, hs] at hk
    simp only [List.mem_cons, List.mem_append] at hk
    obtain ⟨hrhs, hlhs⟩ := hwfs j s hs
    rcases hk with rfl | hk | hk
    · exact hj
    · rcases hsl : s.summands.1 with ⟨d2, u2, o2⟩ | ⟨j2⟩
      · rw [hsl, chainSums_graphNode] at hk
        exact absurd hk (by simp)
      · have hj2 := hlhs j2 hsl
        rw [hsl] at hk
        exact ih j2 hj2 (by omega) a (by omega) k hk
    · obtain ⟨d, u, o, hro⟩ := hrhs
      rw [hro, chainSums_graphNode] at hk
      exact absurd hk (by simp)

theorem chainSums_lt_src {sums : List SumNode} (hwfs : SumsWF sums)
    {src : InputSource} (hb : SrcBound sums.length src) :
    ∀ k ∈ chainSums sums sums.length src, k < sums.length := by
  intro k hk
  rcases hsrc : src with ⟨d, u, o⟩ | ⟨j⟩
  · rw [hsrc, chainSums_graphNode] at hk
    exact absurd hk (by simp)
  · have hj : j < sums.length := hb j hsrc
    rw [hsrc] at hk
    exact chainSums_lt hwfs j hj sums.length hj k hk

theorem chainSums_rhs {sums : List SumNode} (hwfs : SumsWF sums) :
    ∀ (j : Nat), j < sums.length → ∀ (F : Nat), j < F →
      ∀ k ∈ chainSums sums F (.sumNode j),
        ∃ sm, sums[k]? = some sm ∧ ∃ d u o, sm.summands.2 = .graphNode d u o ∧
          (u, o, d) ∈ chainList sums F (.sumNode j) := by
  intro j
  induction j using Nat.strong_induction_on with
  | _ j ih =>
    intro hj F hF k hk
    obtain ⟨a, rfl⟩ : ∃ a, F = a + 1 := ⟨F - 1, by omega⟩
    obtain ⟨s, hs⟩ : ∃ s, sums[j]? = some s := by
      rcases hh : sums[j]? with _ | s
      · rw [List.getElem?_eq_none_iff] at hh
        omega
      · exact ⟨s, rfl⟩
    rw [chainSums_sumS, List.get?_eq_getElem?, hs] at hk
    rw [chainList_sumS, List.get?_eq_getElem?, hs]
    simp only [List.mem_cons, List.mem_append] at hk
    obtain ⟨hrhs, hlhs⟩ := hwfs j s hs
    obtain ⟨d, u, o, hro⟩ := hrhs
    rcases hk with rfl | hk | hk
    · refine ⟨s, hs, d, u, o, hro, ?_⟩
      simp only []
      rw [List.mem_append, hro, chainList_graphNode]
      exact Or.inr (by simp)
    · rcases hsl : s.summands.1 with ⟨d2, u2, o2⟩ | ⟨j2⟩
      · rw [hsl, chainSums_graphNode] at hk
        exact absurd hk (by simp)
      · have hj2 := hlhs j2 hsl
        rw [hsl] at hk
        obtain ⟨sm, hsm, d3, u3, o3, hro3, hmem⟩ :=
          ih j2 hj2 (by omega) a (by omega) k hk
        refine ⟨sm, hsm, d3, u3, o3, hro3, ?_⟩
        simp only []
        rw [List.mem_append, hsl]
        exact Or.inl hmem
    · rw [hro, chainSums_graphNode] at hk
      exact absurd hk (by simp)

theorem chainSums_rhs_src {sums : List SumNode} (hwfs : SumsWF sums)
    {src : InputSource} (hb : SrcBound sums.length src) :
    ∀ k ∈ chainSums sums sums.length src,
      ∃ sm, sums[k]? = some sm ∧ ∃ d u o, sm.summands.2 = .graphNode d u o ∧
        (u, o, d) ∈ chainList sums sums.length src := by
  intro k hk
  rcases hsrc : src with ⟨d, u, o⟩ | ⟨j⟩
  · rw [hsrc, chainSums_graphNode] at hk
    exact absurd hk (by simp)
  · have hj : j < sums.length := hb j hsrc
    rw [hsrc] at hk
    exact chainSums_rhs hwfs j hj sums.length hj k hk

/-! ## Chain threading through the sum-synthesis loops -/

theorem cmpSumPorts_chain {g : Graph} {inter : List (Nat × UsedNode)}
    {done : List Nat} {w o v : Nat} (hwdone : w ∉ done) :
    ∀ (prev : List (Nat × (Nat × Nat))) (dc : List (Nat × (Nat × InputSource)))
      (alloc : Allocator) (sums : List SumNode) (tasks : List Task)
      (B₀ : List (Nat × Nat × Nat)) dc' alloc' sums' tasks',
      cmpSumPorts w o prev dc alloc sums tasks = some (dc', alloc', sums', tasks') →
      SumsWF sums →
      (prev.map (fun pr => (o, v, pr.1)) ++ B₀).Nodup →
      (∀ pr ∈ prev, UsedEdge inter w o v pr.1) →
      (∀ pr ∈ prev, pr.2.2 = delaySpec g inter w o v) →
      (∀ j h₂ src, lookupA dc j = some (h₂, src) →
        ChainOK g inter sums v src
          (sumP inter done w (prev.map (fun pr => (o, v, pr.1)) ++ B₀) v j)) →
      ∃ Δ, sums' = sums ++ Δ ∧ SumsWF sums' ∧
        (∀ j, (lookupA dc j).isSome ↔ (lookupA dc' j).isSome) ∧
        (∀ j h₂ src, lookupA dc' j = some (h₂, src) →
          ChainOK g inter sums' v src (sumP inter done w B₀ v j)) := by
  intro prev
  induction prev with
  | nil =>
    intro dc alloc sums tasks B₀ dc' alloc' sums' tasks' h hwfs hBnd hedge hdelay hchain
    rw [cmpSumPorts] at h
    injection h with h
    injection h with h1 h
    injection h with h2 h
    injection h with h3 h4
    subst h1; subst h3
    simp only [List.map_nil, List.nil_append] at hchain
    exact ⟨[], by simp, hwfs, fun j => Iff.rfl, hchain⟩
  | cons hd rest ih =>
    obtain ⟨dp, oh, delay⟩ := hd
    intro dc alloc sums tasks B₀ dc' alloc' sums' tasks' h hwfs hBnd hedge hdelay hchain
    rw [cmpSumPorts] at h
    rcases hdc : lookupA dc dp with _ | pr
    · rw [hdc] at h
      exact absurd h (by simp)
    · obtain ⟨th, lhs⟩ := pr
      simp only [hdc] at h
      by_cases hck : (lookupA (removeA dc dp) dp).isSome = true
      · rw [if_pos hck] at h
        exact absurd h (by simp)
      · rw [if_neg hck] at h
        have hdc1 : lookupA (removeA dc dp) dp = none := by
          rcases hh : lookupA (removeA dc dp) dp with _ | x
          · rfl
          · exact absurd (by rw [hh]; rfl) hck
        have hBnd2 : ((dp, oh, delay) :: rest).map (fun pr => (o, v, pr.1)) ++ B₀ =
            (o, v, dp) :: (rest.map (fun pr => (o, v, pr.1)) ++ B₀) := by
          rw [List.map_cons, List.cons_append]
        rw [hBnd2] at hBnd hchain
        have hBndTl : (rest.map (fun pr => (o, v, pr.1)) ++ B₀).Nodup :=
          hBnd.of_cons
        have hHeadNot : (o, v, dp) ∉ rest.map (fun pr => (o, v, pr.1)) ++ B₀ := by
          rw [List.nodup_cons] at hBnd
          exact hBnd.1
        have hch := hchain dp th lhs hdc
        have hnew : ¬ sumP inter done w
            ((o, v, dp) :: (rest.map (fun pr => (o, v, pr.1)) ++ B₀)) v dp w o := by
          rintro (⟨_, hwd⟩ | ⟨_, _, hnin⟩)
          · exact hwdone hwd
          · exact hnin (List.mem_cons_self _ _)
        have hdel : delay = delaySpec g inter w o v :=
          hdelay (dp, oh, delay) (List.mem_cons_self _ _)
        have hedgeHd : UsedEdge inter w o v dp :=
          hedge (dp, oh, delay) (List.mem_cons_self _ _)
        have hsum2 : ChainOK g inter
            (sums ++ [⟨(lhs, .graphNode delay w o), (findFreeBuffer (if lhs.delayOf = 0
              then dropH (if delay = 0 then dropH alloc oh else alloc) th
              else if delay = 0 then dropH alloc oh else alloc)).1⟩]) v
            (.sumNode sums.length)
            (sumP inter done w (rest.map (fun pr => (o, v, pr.1)) ++ B₀) v dp) := by
          refine chainOK_congrP (chainOK_sum hch hwfs hdel hnew) ?_
          intro u₂ o₂
          constructor
          · rintro ((⟨he2, hu2⟩ | ⟨rfl, he2, hnin⟩) | ⟨rfl, rfl⟩)
            · exact Or.inl ⟨he2, hu2⟩
            · exact Or.inr ⟨rfl, he2, fun hh => hnin (List.mem_cons_of_mem _ hh)⟩
            · exact Or.inr ⟨rfl, hedgeHd, hHeadNot⟩
          · rintro (⟨he2, hu2⟩ | ⟨rfl, he2, hnin⟩)
            · exact Or.inl (Or.inl ⟨he2, hu2⟩)
            · by_cases ho2 : o₂ = o
              · subst ho2
                exact Or.inr ⟨rfl, rfl⟩
              · refine Or.inl (Or.inr ⟨rfl, he2, ?_⟩)
                intro hh
                rcases List.mem_cons.mp hh with hh2 | hh2
                · injection hh2 with hh3 _
                  exact ho2 hh3
                · exact hnin hh2
        have hwfs2 : SumsWF (sums ++ [⟨(lhs, .graphNode delay w o),
            (findFreeBuffer (if lhs.delayOf = 0
              then dropH (if delay = 0 then dropH alloc oh else alloc) th
              else if delay = 0 then dropH alloc oh else alloc)).1⟩]) := by
          refine sumsWF_append hwfs ?_
          intro jj s hjj
          have hjj0 : jj = 0 ∧ s = ⟨(lhs, .graphNode delay w o),
              (findFreeBuffer (if lhs.delayOf = 0
                then dropH (if delay = 0 then dropH alloc oh else alloc) th
                else if delay = 0 then dropH alloc oh else alloc)).1⟩ := by
            cases jj with
            | zero =>
              refine ⟨rfl, ?_⟩
              have h0 := hjj
              simp only [List.getElem?_cons_zero] at h0
              injection h0 with h0
              exact h0.symm
            | succ n => exact absurd hjj (by simp)
          obtain ⟨rfl, rfl⟩ := hjj0
          refine ⟨⟨delay, w, o, rfl⟩, ?_⟩
          intro j hj
          have := hch.bound j hj
          omega
        have hchain2 : ∀ j h₂ src,
            lookupA (insertNewA (removeA dc dp) dp
              ((findFreeBuffer (if lhs.delayOf = 0
                then dropH (if delay = 0 then dropH alloc oh else alloc) th
                else if delay = 0 then dropH alloc oh else alloc)).1,
                InputSource.sumNode sums.length)) j = some (h₂, src) →
            ChainOK g inter (sums ++ [⟨(lhs, .graphNode delay w o),
              (findFreeBuffer (if lhs.delayOf = 0
                then dropH (if delay = 0 then dropH alloc oh else alloc) th
                else if delay = 0 then dropH alloc oh else alloc)).1⟩]) v src
              (sumP inter done w (rest.map (fun pr => (o, v, pr.1)) ++ B₀) v j) := by
          intro j h₂ src hj
          rw [lookupA_insertNewA] at hj
          by_cases hjdp : j = dp
          · subst hjdp
            rw [hdc1] at hj
            simp only [if_pos rfl] at hj
            injection hj with hj
            have h₂eq : src = .sumNode sums.length := congrArg Prod.snd hj.symm
            rw [h₂eq]
            exact hsum2
          · rw [lookupA_removeA_ne _ _ _ hjdp] at hj
            rcases hh : lookupA dc j with _ | x
            · rw [hh] at hj
              simp only [] at hj
              rw [if_neg (fun hh2 => hjdp hh2.symm)] at hj
              exact absurd hj (by simp)
            · rw [hh] at hj
              simp only [] at hj
              injection hj with hj
              subst hj
              have hold := hchain j h₂ src hh
              refine chainOK_stable (chainOK_congrP hold ?_) hwfs
              intro u₂ o₂
              constructor
              · rintro (⟨he2, hu2⟩ | ⟨rfl, he2, hnin⟩)
                · exact Or.inl ⟨he2, hu2⟩
                · refine Or.inr ⟨rfl, he2, fun hh2 => hnin (List.mem_cons_of_mem _ hh2)⟩
              · rintro (⟨he2, hu2⟩ | ⟨rfl, he2, hnin⟩)
                · exact Or.inl ⟨he2, hu2⟩
                · refine Or.inr ⟨rfl, he2, ?_⟩
                  intro hh2
                  rcases List.mem_cons.mp hh2 with hh3 | hh3
                  · injection hh3 with _ hh4
                    injection hh4 with _ hh5
                    exact hjdp hh5
                  · exact hnin hh3
        obtain ⟨Δ', hs', hwfs', hiso', hchain'⟩ := ih _ _ _ _ _ _ _ _ _ h hwfs2
          hBndTl (fun pr hpr => hedge pr (List.mem_cons_of_mem _ hpr))
          (fun pr hpr => hdelay pr (List.mem_cons_of_mem _ hpr)) hchain2
        refine ⟨[⟨(lhs, .graphNode delay w o), (findFreeBuffer (if lhs.delayOf = 0
          then dropH (if delay = 0 then dropH alloc oh else alloc) th
          else if delay = 0 then dropH alloc oh else alloc)).1⟩] ++ Δ', ?_,
          hwfs', ?_, hchain'⟩
        · rw [hs', List.append_assoc]
        · intro j
          rw [← hiso' j]
          rw [lookupA_insertNewA]
          by_cases hj : j = dp
          · subst hj
            rw [hdc, hdc1]
            simp
          · rw [lookupA_removeA_ne _ _ _ hj]
            rcases hh : lookupA dc j with _ | x
            · simp [Ne.symm hj]
            · simp

theorem cmpSumConns_chain {g : Graph} {inter : List (Nat × UsedNode)}
    {done : List Nat} {w o : Nat} (hwdone : w ∉ done) :
    ∀ (reps : Repeats) (claims : Claims) (alloc : Allocator) (sums : List SumNode)
      (tasks : List Task) (B₀ : List (Nat × Nat × Nat)) claims' alloc' sums' tasks',
      cmpSumConns w o reps claims alloc sums tasks =
        some (claims', alloc', sums', tasks') →
      SumsWF sums →
      (Rtriples o reps ++ B₀).Nodup →
      (∀ r ∈ reps, ∀ pr ∈ r.2, UsedEdge inter w o r.1 pr.1) →
      (∀ r ∈ reps, ∀ pr ∈ r.2, pr.2.2 = delaySpec g inter w o r.1) →
      (∀ v j buf src, lookupC claims v j = some (buf, src) →
        ChainOK g inter sums v src
          (sumP inter done w (Rtriples o reps ++ B₀) v j)) →
      ∃ Δ, sums' = sums ++ Δ ∧ SumsWF sums' ∧
        (∀ v j, (lookupC claims v j).isSome ↔ (lookupC claims' v j).isSome) ∧
        (∀ v j buf src, lookupC claims' v j = some (buf, src) →
          ChainOK g inter sums' v src (sumP inter done w B₀ v j)) := by
  intro reps
  induction reps with
  | nil =>
    intro claims alloc sums tasks B₀ claims' alloc' sums' tasks' h hwfs hBnd
      hedge hdelay hchain
    rw [cmpSumConns] at h
    injection h with h
    injection h with h1 h
    injection h with h2 h
    injection h with h3 h4
    subst h1; subst h3
    simp only [Rtriples, List.nil_append] at hchain
    exact ⟨[], by simp, hwfs, fun v j => Iff.rfl, hchain⟩
  | cons hd rest ih =>
    obtain ⟨v, prev⟩ := hd
    intro claims alloc sums tasks B₀ claims' alloc' sums' tasks' h hwfs hBnd
      hedge hdelay hchain
    rw [cmpSumConns] at h
    rcases hdcv : lookupA claims v with _ | dc
    · rw [hdcv] at h
      exact absurd h (by simp)
    · simp only [hdcv] at h
      rcases hsp : cmpSumPorts w o prev dc alloc sums tasks with _ | res
      · rw [hsp] at h
        exact absurd h (by simp)
      · obtain ⟨dc', alloc₁, sums₁, tasks₁⟩ := res
        simp only [hsp] at h
        have hRcons : Rtriples o ((v, prev) :: rest) =
            prev.map (fun pr => (o, v, pr.1)) ++ Rtriples o rest := rfl
        rw [hRcons] at hBnd hchain
        have hlkv : ∀ j, lookupC claims v j = lookupA dc j := by
          intro j
          rw [lookupC, hdcv]
        have hchainDc : ∀ j h₂ src, lookupA dc j = some (h₂, src) →
            ChainOK g inter sums v src (sumP inter done w
              (prev.map (fun pr => (o, v, pr.1)) ++
                (Rtriples o rest ++ B₀)) v j) := by
          intro j h₂ src hj
          have hres := hchain v j h₂ src (by rw [hlkv j]; exact hj)
          rw [List.append_assoc] at hres
          exact hres
        obtain ⟨Δ₁, hs₁, hwfs₁, hiso₁, hchain₁⟩ := cmpSumPorts_chain hwdone
          prev dc alloc sums tasks (Rtriples o rest ++ B₀) dc' alloc₁ sums₁ tasks₁
          hsp hwfs (by rw [← List.append_assoc]; exact hBnd)
          (fun pr hpr => hedge (v, prev) (List.mem_cons_self _ _) pr hpr)
          (fun pr hpr => hdelay (v, prev) (List.mem_cons_self _ _) pr hpr)
          hchainDc
        have hlkv2 : ∀ j, lookupC (modifyA [] (fun _ => dc') claims v) v j =
            lookupA dc' j := by
          intro j
          rw [lookupC, lookupA_modifyA_self]
        have hlkx : ∀ x, x ≠ v → ∀ j,
            lookupC (modifyA [] (fun _ => dc') claims v) x j =
              lookupC claims x j := by
          intro x hxv j
          rw [lookupC, lookupA_modifyA_ne _ _ _ _ _ hxv, lookupC]
        have hchain₂ : ∀ x j buf src,
            lookupC (modifyA [] (fun _ => dc') claims v) x j = some (buf, src) →
            ChainOK g inter sums₁ x src
              (sumP inter done w (Rtriples o rest ++ B₀) x j) := by
          intro x j buf src hx
          by_cases hxv : x = v
          · subst hxv
            rw [hlkv2 j] at hx
            exact hchain₁ j buf src hx
          · rw [hlkx x hxv j] at hx
            have hold := hchain x j buf src hx
            rw [hs₁]
            refine chainOK_stable (chainOK_congrP hold ?_) hwfs
            intro u₂ o₂
            rw [List.append_assoc]
            constructor
            · rintro (⟨he2, hu2⟩ | ⟨rfl, he2, hnin⟩)
              · exact Or.inl ⟨he2, hu2⟩
              · refine Or.inr ⟨rfl, he2, fun hh => hnin (List.mem_append_right _ hh)⟩
            · rintro (⟨he2, hu2⟩ | ⟨rfl, he2, hnin⟩)
              · exact Or.inl ⟨he2, hu2⟩
              · refine Or.inr ⟨rfl, he2, ?_⟩
                intro hh
                rcases List.mem_append.mp hh with hh2 | hh2
                · obtain ⟨pr, _, heq⟩ := List.mem_map.mp hh2
                  have : v = x := congrArg (fun t => (t : Nat × Nat × Nat).2.1) heq
                  exact hxv this.symm
                · exact hnin hh2
        obtain ⟨Δ₂, hs₂, hwfs₂, hiso₂, hchain₃⟩ := ih _ _ _ _ _ _ _ _ _ h hwfs₁
          (by
            have := hBnd
            rw [List.append_assoc] at this
            exact this.of_append_right)
          (fun r hr pr hpr => hedge r (List.mem_cons_of_mem _ hr) pr hpr)
          (fun r hr pr hpr => hdelay r (List.mem_cons_of_mem _ hr) pr hpr)
          hchain₂
        refine ⟨Δ₁ ++ Δ₂, by rw [hs₂, hs₁, List.append_assoc], hwfs₂, ?_, hchain₃⟩
        intro x j
        rw [← hiso₂ x j]
        by_cases hxv : x = v
        · subst hxv
          rw [hlkv2 j, hlkv j]
          exact hiso₁ j
        · rw [hlkx x hxv j]

theorem cmpSums_chain {g : Graph} {inter : List (Nat × UsedNode)}
    {done : List Nat} {w : Nat} (hwdone : w ∉ done) :
    ∀ (ra : RepeatAssignees) (claims : Claims) (alloc : Allocator)
      (sums : List SumNode) (tasks : List Task) claims' alloc' sums' tasks',
      cmpSums w ra claims alloc sums tasks = some (claims', alloc', sums', tasks') →
      SumsWF sums →
      (Btriples ra).Nodup →
      (∀ b ∈ ra, ∀ r ∈ b.2, ∀ pr ∈ r.2, UsedEdge inter w b.1 r.1 pr.1) →
      (∀ b ∈ ra, ∀ r ∈ b.2, ∀ pr ∈ r.2, pr.2.2 = delaySpec g inter w b.1 r.1) →
      (∀ v j buf src, lookupC claims v j = some (buf, src) →
        ChainOK g inter sums v src (sumP inter done w (Btriples ra) v j)) →
      ∃ Δ, sums' = sums ++ Δ ∧ SumsWF sums' ∧
        (∀ v j, (lookupC claims v j).isSome ↔ (lookupC claims' v j).isSome) ∧
        (∀ v j buf src, lookupC claims' v j = some (buf, src) →
          ChainOK g inter sums' v src (sumP inter done w [] v j)) := by
  intro ra
  induction ra with
  | nil =>
    intro claims alloc sums tasks claims' alloc' sums' tasks' h hwfs hBnd
      hedge hdelay hchain
    rw [cmpSums] at h
    injection h with h
    injection h with h1 h
    injection h with h2 h
    injection h with h3 h4
    subst h1; subst h3
    simp only [Btriples] at hchain
    exact ⟨[], by simp, hwfs, fun v j => Iff.rfl, hchain⟩
  | cons hd rest ih =>
    obtain ⟨o, reps⟩ := hd
    intro claims alloc sums tasks claims' alloc' sums' tasks' h hwfs hBnd
      hedge hdelay hchain
    rw [cmpSums] at h
    rcases hsc : cmpSumConns w o reps claims alloc sums tasks with _ | res
    · rw [hsc] at h
      exact absurd h (by simp)
    · obtain ⟨claims₁, alloc₁, sums₁, tasks₁⟩ := res
      simp only [hsc] at h
      have hBcons : Btriples ((o, reps) :: rest) =
          Rtriples o reps ++ Btriples rest := rfl
      rw [hBcons] at hBnd hchain
      obtain ⟨Δ₁, hs₁, hwfs₁, hiso₁, hchain₁⟩ := cmpSumConns_chain hwdone
        reps claims alloc sums tasks (Btriples rest) claims₁ alloc₁ sums₁ tasks₁
        hsc hwfs hBnd
        (fun r hr pr hpr => hedge (o, reps) (List.mem_cons_self _ _) r hr pr hpr)
        (fun r hr pr hpr => hdelay (o, reps) (List.mem_cons_self _ _) r hr pr hpr)
        hchain
      obtain ⟨Δ₂, hs₂, hwfs₂, hiso₂, hchain₂⟩ := ih _ _ _ _ _ _ _ _ h hwfs₁
        hBnd.of_append_right
        (fun b hb r hr pr hpr => hedge b (List.mem_cons_of_mem _ hb) r hr pr hpr)
        (fun b hb r hr pr hpr => hdelay b (List.mem_cons_of_mem _ hb) r hr pr hpr)
        hchain₁
      refine ⟨Δ₁ ++ Δ₂, by rw [hs₂, hs₁, List.append_assoc], hwfs₂, ?_, hchain₂⟩
      intro v j
      rw [← hiso₂ v j, ← hiso₁ v j]

theorem rtriples_nodup {o : Nat} : ∀ {reps : Repeats},
    (keysA reps).Nodup →
    (∀ r ∈ reps, (r.2.map Prod.fst).Nodup) →
    (Rtriples o reps).Nodup := by
  intro reps
  induction reps with
  | nil =>
    intro _ _
    simp [Rtriples]
  | cons r rest ih =>
    intro hk hin
    rw [Rtriples]
    refine List.Nodup.append ?_ (ih (by simpa [keysA] using hk.of_cons)
      (fun r2 hr2 => hin r2 (List.mem_cons_of_mem _ hr2))) ?_
    · have h1 : r.2.map (fun pr => (o, r.1, pr.1)) =
          (r.2.map Prod.fst).map (fun j => (o, r.1, j)) := by
        rw [List.map_map]
        apply List.map_congr_left
        intro a _
        rfl
      rw [h1]
      refine List.Nodup.map ?_ (hin r (List.mem_cons_self _ _))
      intro a b hab
      simpa using hab
    · intro t ht1 ht2
      obtain ⟨pr, _, heq⟩ := List.mem_map.mp ht1
      obtain ⟨r2, hr2, pr2, hpr2, heq2⟩ := mem_rtriples.mp ht2
      rw [← heq] at heq2
      have hmid : r.1 = r2.1 := by
        have := congrArg (fun t => (t : Nat × Nat × Nat).2.1) heq2
        exact this
      simp only [keysA, List.map_cons, List.nodup_cons] at hk
      exact hk.1 (by rw [hmid]; exact List.mem_map_of_mem Prod.fst hr2)

/-! ## Chain threading through the output scan (claims phase) -/

theorem cmpOutputs_chain {g : Graph} {inter : List (Nat × UsedNode)}
    {done : List Nat} {w md : Nat} {uo : List (Nat × Port)}
    {sums : List SumNode}
    (hedgeUO : ∀ o v j, PortEdge uo o v j ↔ UsedEdge inter w o v j)
    (htidy : TidyUO uo)
    (htgt : ∀ o v j, UsedEdge inter w o v j → v ∉ done) :
    ∀ (lats : List (Nat × Nat)) (alloc : Allocator) (claims : Claims)
      (outputs : List (Nat × Option NodeOutput)) (ra : RepeatAssignees)
      alloc' claims' outputs' ra',
      cmpOutputs inter w md lats uo alloc claims outputs ra =
        some (alloc', claims', outputs', ra') →
      (∀ o lat, (o, lat) ∈ lats → md + lat = interLat inter w + latOf g w o) →
      (keysA lats).Nodup →
      (∀ v j buf src, lookupC claims v j = some (buf, src) →
        ChainOK g inter sums v src
          (stepP inter done w lats (Btriples ra) v j)) →
      (∀ v j, v ∉ done → lookupC claims v j = none →
        ∀ u o, ¬ stepP inter done w lats (Btriples ra) v j u o) →
      (∀ t ∈ Btriples ra, UsedEdge inter w t.1 t.2.1 t.2.2 ∧
        (lookupC claims t.2.1 t.2.2).isSome) →
      (∀ t ∈ Btriples ra, t.1 ∉ keysA lats) →
      (Btriples ra).Nodup →
      (∀ b ∈ ra, ∀ r ∈ b.2, ∀ pr ∈ r.2, pr.2.2 = delaySpec g inter w b.1 r.1) →
      (∀ v j, (lookupC claims v j).isSome → (lookupC claims' v j).isSome) ∧
      (∀ v j, (lookupC claims' v j).isSome →
        (lookupC claims v j).isSome ∨ ∃ o, UsedEdge inter w o v j) ∧
      (∀ o v j, UsedEdge inter w o v j → o ∈ keysA lats →
        (lookupC claims' v j).isSome) ∧
      (∀ v j buf src, lookupC claims' v j = some (buf, src) →
        ChainOK g inter sums v src
          (stepP inter done w [] (Btriples ra') v j)) ∧
      (∀ t ∈ Btriples ra', UsedEdge inter w t.1 t.2.1 t.2.2 ∧
        (lookupC claims' t.2.1 t.2.2).isSome) ∧
      (Btriples ra').Nodup ∧
      (∀ b ∈ ra', ∀ r ∈ b.2, ∀ pr ∈ r.2, pr.2.2 = delaySpec g inter w b.1 r.1) := by
  intro lats
  induction lats with
  | nil =>
    intro alloc claims outputs ra alloc' claims' outputs' ra' h hlats hndl
      hchain hnone hB hBfst hBnd hBdel
    rw [cmpOutputs] at h
    injection h with h
    injection h with h1 h
    injection h with h2 h
    injection h with h3 h4
    subst h2; subst h4
    refine ⟨fun v j hs => hs, fun v j hs => Or.inl hs, ?_, hchain, hB, hBnd, hBdel⟩
    intro o v j _ hmem
    exact absurd hmem (by simp [keysA])
  | cons hd rest ih =>
    obtain ⟨o₀, lat₀⟩ := hd
    intro alloc claims outputs ra alloc' claims' outputs' ra' h hlats hndl
      hchain hnone hB hBfst hBnd hBdel
    have hnd2 : (keysA rest).Nodup := by
      simpa [keysA] using hndl.of_cons
    have ho₀ : o₀ ∉ keysA rest := by
      simp only [keysA, List.map_cons, List.nodup_cons] at hndl
      exact hndl.1
    rw [cmpOutputs] at h
    rcases huo : lookupA uo o₀ with _ | srcPort
    · -- unused output: nothing changes
      rw [huo] at h
      have hnoEdge0 : ∀ v j, ¬ UsedEdge inter w o₀ v j := by
        intro v j he
        obtain ⟨port, ps, hp1, _, _⟩ := (hedgeUO o₀ v j).mpr he
        rw [huo] at hp1
        exact absurd hp1 (by simp)
      have hequivN : ∀ v j u₂ o₂,
          stepP inter done w ((o₀, lat₀) :: rest) (Btriples ra) v j u₂ o₂ ↔
            stepP inter done w rest (Btriples ra) v j u₂ o₂ := by
        intro v j u₂ o₂
        constructor
        · rintro (⟨he2, hu2⟩ | ⟨rfl, he2, hk2, hb2⟩)
          · exact Or.inl ⟨he2, hu2⟩
          · refine Or.inr ⟨rfl, he2, ?_, hb2⟩
            intro hh
            exact hk2 (by rw [keysA_cons]; exact List.mem_cons_of_mem _ hh)
        · rintro (⟨he2, hu2⟩ | ⟨rfl, he2, hk2, hb2⟩)
          · exact Or.inl ⟨he2, hu2⟩
          · refine Or.inr ⟨rfl, he2, ?_, hb2⟩
            rw [keysA_cons]
            intro hh
            rcases List.mem_cons.mp hh with hh2 | hh2
            · subst hh2
              exact hnoEdge0 v j he2
            · exact hk2 hh2
      obtain ⟨Imono, Irev, Icov, Ichain, IB, IBnd, IBdel⟩ := ih _ _ _ _ _ _ _ _ h
        (fun o lat hm => hlats o lat (List.mem_cons_of_mem _ hm)) hnd2
        (fun v j buf src hlk => chainOK_congrP (hchain v j buf src hlk)
          (fun u₂ o₂ => hequivN v j u₂ o₂))
        (fun v j hv hn u₂ o₂ hst => hnone v j hv hn u₂ o₂
          ((hequivN v j u₂ o₂).mpr hst))
        hB
        (fun t ht hh => hBfst t ht (by rw [keysA_cons]; exact List.mem_cons_of_mem _ hh))
        hBnd hBdel
      refine ⟨Imono, Irev, ?_, Ichain, IB, IBnd, IBdel⟩
      intro o v j he hmem
      rw [keysA_cons] at hmem
      rcases List.mem_cons.mp hmem with hh | hh
      · subst hh
        exact absurd he (hnoEdge0 v j)
      · exact Icov o v j he hh
    · -- used output: the connection loop runs
      simp only [huo] at h
      by_cases hemp : srcPort.isEmptyP = true
      · rw [if_pos hemp] at h
        exact absurd h (by simp)
      · rw [if_neg hemp] at h
        rcases hcc : cmpConns inter w o₀ (findFreeBuffer alloc).1 (md + lat₀)
            srcPort.conns (findFreeBuffer alloc).2 claims 0 [] with _ | q
        · rw [hcc] at h
          exact absurd h (by simp)
        · obtain ⟨alloc₂, claims₂, maxD, repeats⟩ := q
          simp only [hcc] at h
          have hmemUO : (o₀, srcPort) ∈ uo := lookupA_mem huo
          obtain ⟨hknd, hports⟩ := htidy
          obtain ⟨hcnd, hcne, hdps⟩ := hports o₀ srcPort hmemUO
          obtain ⟨ha, hb, hc⟩ := @cmpConns_claims_spec inter w o₀
            (findFreeBuffer alloc).1 (md + lat₀) srcPort.conns
            (findFreeBuffer alloc).2 claims 0 [] alloc₂ claims₂ maxD repeats hcc
            hcnd (fun v dps hm => (hdps v dps hm).1)
          have hreps : repeats = srcPort.conns.map (fun c =>
              (c.1, (c.2.filter (fun j => claimedAt claims c.1 j)).map
                (fun j => (j, ((findFreeBuffer alloc).1,
                  interLat inter c.1 - (md + lat₀)))))) := by
            simpa using hc
          have hlats0 : md + lat₀ = interLat inter w + latOf g w o₀ :=
            hlats o₀ lat₀ (List.mem_cons_self _ _)
          have hPE : ∀ v j, UsedEdge inter w o₀ v j ↔
              ∃ dps, (v, dps) ∈ srcPort.conns ∧ j ∈ dps := by
            intro v j
            rw [← hedgeUO]
            constructor
            · rintro ⟨port, ps, hp1, hp2, hp3⟩
              rw [huo] at hp1
              injection hp1 with hp1
              subst hp1
              exact ⟨ps, lookupA_mem hp2, hp3⟩
            · rintro ⟨dps, hm, hj⟩
              exact ⟨srcPort, dps, huo, mem_lookupA hcnd hm, hj⟩
          have hNewB : ∀ (t : Nat × Nat × Nat), t ∈ Rtriples o₀ repeats ↔
              ∃ v dps j, (v, dps) ∈ srcPort.conns ∧ j ∈ dps ∧
                claimedAt claims v j = true ∧ t = (o₀, v, j) := by
            intro t
            rw [mem_rtriples, hreps]
            constructor
            · rintro ⟨r, hr, pr, hpr, rfl⟩
              obtain ⟨c, hcm, rfl⟩ := List.mem_map.mp hr
              obtain ⟨j, hjf, rfl⟩ := List.mem_map.mp hpr
              obtain ⟨hj1, hj2⟩ := List.mem_filter.mp hjf
              exact ⟨c.1, c.2, j, (by cases c; exact hcm), hj1,
                (by simpa using hj2), rfl⟩
            · rintro ⟨v, dps, j, hm, hj, hcl, rfl⟩
              refine ⟨(v, (dps.filter (fun j => claimedAt claims v j)).map
                  (fun j => (j, ((findFreeBuffer alloc).1,
                    interLat inter v - (md + lat₀))))),
                List.mem_map.mpr ⟨(v, dps), hm, rfl⟩,
                (j, ((findFreeBuffer alloc).1, interLat inter v - (md + lat₀))),
                List.mem_map.mpr ⟨j, List.mem_filter.mpr ⟨hj, by simpa using hcl⟩,
                  rfl⟩, rfl⟩
          have hkey : ∀ v, v ∈ keysA srcPort.conns →
              ∃ dps, (v, dps) ∈ srcPort.conns := by
            intro v hv
            obtain ⟨e, hm, hfst⟩ := List.mem_map.mp hv
            refine ⟨e.2, ?_⟩
            rw [← hfst]
            exact hm
          have hmono1 : ∀ v j, (lookupC claims v j).isSome →
              (lookupC claims₂ v j).isSome := by
            intro v j hs
            by_cases hvk : v ∈ keysA srcPort.conns
            · obtain ⟨dps, hm⟩ := hkey v hvk
              by_cases hjd : j ∈ dps
              · rw [(hb v dps hm).2.1 j hjd hs]
                exact hs
              · rw [(hb v dps hm).1 j hjd]
                exact hs
            · rw [ha v j hvk]
              exact hs
          have hrev1 : ∀ v j, (lookupC claims₂ v j).isSome →
              (lookupC claims v j).isSome ∨ UsedEdge inter w o₀ v j := by
            intro v j hs
            by_cases hvk : v ∈ keysA srcPort.conns
            · obtain ⟨dps, hm⟩ := hkey v hvk
              by_cases hjd : j ∈ dps
              · rcases hcl : lookupC claims v j with _ | x
                · exact Or.inr ((hPE v j).mpr ⟨dps, hm, hjd⟩)
                · exact Or.inl (by simp)
              · rw [(hb v dps hm).1 j hjd] at hs
                exact Or.inl hs
            · rw [ha v j hvk] at hs
              exact Or.inl hs
          have hcov1 : ∀ v j, UsedEdge inter w o₀ v j →
              (lookupC claims₂ v j).isSome := by
            intro v j he
            obtain ⟨dps, hm, hj⟩ := (hPE v j).mp he
            rcases hcl : lookupC claims v j with _ | x
            · rw [(hb v dps hm).2.2 j hj hcl]
              rfl
            · rw [(hb v dps hm).2.1 j hj (by rw [hcl]; rfl), hcl]
              rfl
          have hedge0T : ∀ v j, (o₀, v, j) ∉ Btriples ra := by
            intro v j hmem
            exact hBfst (o₀, v, j) hmem
              (by rw [keysA_cons]; exact List.mem_cons_self _ _)
          have hequiv : ∀ v j,
              (¬ UsedEdge inter w o₀ v j ∨ claimedAt claims v j = true) →
              ∀ u₂ o₂,
              stepP inter done w ((o₀, lat₀) :: rest) (Btriples ra) v j u₂ o₂ ↔
                stepP inter done w rest
                  (Btriples ra ++ Rtriples o₀ repeats) v j u₂ o₂ := by
            intro v j hcase u₂ o₂
            constructor
            · rintro (⟨he2, hu2⟩ | ⟨rfl, he2, hk2, hb2⟩)
              · exact Or.inl ⟨he2, hu2⟩
              · have ho2 : o₂ ≠ o₀ := by
                  intro hh
                  subst hh
                  exact hk2 (by rw [keysA_cons]; exact List.mem_cons_self _ _)
                refine Or.inr ⟨rfl, he2, ?_, ?_⟩
                · intro hh
                  exact hk2 (by rw [keysA_cons]; exact List.mem_cons_of_mem _ hh)
                · intro hh
                  rcases List.mem_append.mp hh with hm2 | hm2
                  · exact hb2 hm2
                  · obtain ⟨v₂, dps₂, j₂, _, _, _, heqt⟩ := (hNewB _).mp hm2
                    exact ho2 (congrArg (fun t => (t : Nat × Nat × Nat).1) heqt)
            · rintro (⟨he2, hu2⟩ | ⟨rfl, he2, hk2, hb2⟩)
              · exact Or.inl ⟨he2, hu2⟩
              · have ho2 : o₂ ≠ o₀ := by
                  intro hh
                  subst hh
                  rcases hcase with hne | hcl
                  · exact hne he2
                  · obtain ⟨dps, hm, hj⟩ := (hPE v j).mp he2
                    exact hb2 (List.mem_append_right _
                      ((hNewB _).mpr ⟨v, dps, j, hm, hj, hcl, rfl⟩))
                refine Or.inr ⟨rfl, he2, ?_,
                  fun hh => hb2 (List.mem_append_left _ hh)⟩
                rw [keysA_cons]
                intro hh
                rcases List.mem_cons.mp hh with hh2 | hh2
                · exact ho2 hh2
                · exact hk2 hh2
          have hchain₂ : ∀ v j buf src, lookupC claims₂ v j = some (buf, src) →
              ChainOK g inter sums v src
                (stepP inter done w rest
                  (Btriples ra ++ Rtriples o₀ repeats) v j) := by
            intro v j buf src hlk
            by_cases hvk : v ∈ keysA srcPort.conns
            · obtain ⟨dps, hm⟩ := hkey v hvk
              by_cases hjd : j ∈ dps
              · rcases hcl : lookupC claims v j with _ | x
                · -- fresh direct claim at output o₀
                  have hnewlk := (hb v dps hm).2.2 j hjd hcl
                  rw [hlk] at hnewlk
                  injection hnewlk with hnewlk
                  have hsrc : src = .graphNode (interLat inter v - (md + lat₀))
                      w o₀ := congrArg Prod.snd hnewlk
                  rw [hsrc]
                  have hedgev : UsedEdge inter w o₀ v j :=
                    (hPE v j).mpr ⟨dps, hm, hjd⟩
                  have hvd : v ∉ done := htgt o₀ v j hedgev
                  have hdirect := @chainOK_direct g inter sums v w o₀
                    (interLat inter v - (md + lat₀))
                    (by rw [delaySpec, hlats0])
                  refine chainOK_congrP hdirect ?_
                  intro u₂ o₂
                  constructor
                  · rintro ⟨rfl, rfl⟩
                    refine Or.inr ⟨rfl, hedgev, ho₀, ?_⟩
                    intro hmm
                    rcases List.mem_append.mp hmm with hm2 | hm2
                    · exact hedge0T v j hm2
                    · obtain ⟨v₂, dps₂, j₂, _, _, hcl₂, heqt⟩ := (hNewB _).mp hm2
                      have hv2 : v₂ = v :=
                        (congrArg (fun t => (t : Nat × Nat × Nat).2.1) heqt).symm
                      have hj2 : j₂ = j :=
                        (congrArg (fun t => (t : Nat × Nat × Nat).2.2) heqt).symm
                      rw [hv2, hj2, claimedAt_eq, hcl] at hcl₂
                      exact absurd hcl₂ (by simp)
                  · rintro (⟨he2, hu2⟩ | ⟨heq, he2, hk2, hb2⟩)
                    · exact absurd (show stepP inter done w ((o₀, lat₀) :: rest)
                          (Btriples ra) v j u₂ o₂ from Or.inl ⟨he2, hu2⟩)
                        (hnone v j hvd hcl u₂ o₂)
                    · by_cases ho2 : o₂ = o₀
                      · exact ⟨heq, ho2⟩
                      · have hold : stepP inter done w ((o₀, lat₀) :: rest)
                            (Btriples ra) v j u₂ o₂ := by
                          refine Or.inr ⟨heq, he2, ?_,
                            fun hmm => hb2 (List.mem_append_left _ hmm)⟩
                          rw [keysA_cons]
                          intro hh
                          rcases List.mem_cons.mp hh with hh2 | hh2
                          · exact ho2 hh2
                          · exact hk2 hh2
                        exact absurd hold (hnone v j hvd hcl u₂ o₂)
                · -- already claimed: unchanged, goes to the repeat bucket
                  have hunch : lookupC claims₂ v j = lookupC claims v j :=
                    (hb v dps hm).2.1 j hjd (by rw [hcl]; rfl)
                  have hold := hchain v j buf src (by rw [← hunch]; exact hlk)
                  exact chainOK_congrP hold
                    (hequiv v j (Or.inr (by rw [claimedAt_eq, hcl]; rfl)))
              · -- port not targeted by this output
                have hunch : lookupC claims₂ v j = lookupC claims v j :=
                  (hb v dps hm).1 j hjd
                have hold := hchain v j buf src (by rw [← hunch]; exact hlk)
                refine chainOK_congrP hold (hequiv v j (Or.inl ?_))
                intro he
                obtain ⟨dps₂, hm₂, hj₂⟩ := (hPE v j).mp he
                have hdps₂ : dps₂ = dps := by
                  have h1 := mem_lookupA hcnd hm₂
                  have h2 := mem_lookupA hcnd hm
                  rw [h1] at h2
                  injection h2
                rw [hdps₂] at hj₂
                exact hjd hj₂
            · -- destination not connected to this output at all
              have hunch : lookupC claims₂ v j = lookupC claims v j := ha v j hvk
              have hold := hchain v j buf src (by rw [← hunch]; exact hlk)
              refine chainOK_congrP hold (hequiv v j (Or.inl ?_))
              intro he
              obtain ⟨dps₂, hm₂, _⟩ := (hPE v j).mp he
              exact hvk (List.mem_map_of_mem Prod.fst hm₂)
          have hnone₂ : ∀ v j, v ∉ done → lookupC claims₂ v j = none →
              ∀ u₂ o₂, ¬ stepP inter done w rest
                (Btriples ra ++ Rtriples o₀ repeats) v j u₂ o₂ := by
            intro v j hv hn u₂ o₂ hst
            have hcl : lookupC claims v j = none := by
              rcases hcl : lookupC claims v j with _ | x
              · rfl
              · have := hmono1 v j (by rw [hcl]; rfl)
                rw [hn] at this
                exact absurd this (by simp)
            have hne0 : ¬ UsedEdge inter w o₀ v j := by
              intro he
              have := hcov1 v j he
              rw [hn] at this
              exact absurd this (by simp)
            exact hnone v j hv hcl u₂ o₂ ((hequiv v j (Or.inl hne0) u₂ o₂).mpr hst)
          have hBnew : Btriples (ra ++ [(o₀, repeats)]) =
              Btriples ra ++ Rtriples o₀ repeats := by
            rw [btriples_append]
            simp [Btriples]
          have hkeysR : keysA repeats = keysA srcPort.conns := by
            rw [hreps, keysA, keysA, List.map_map]
            apply List.map_congr_left
            intro c _
            rfl
          have hrin : ∀ r ∈ repeats, (r.2.map Prod.fst).Nodup := by
            intro r hr
            rw [hreps] at hr
            obtain ⟨c, hcm, rfl⟩ := List.mem_map.mp hr
            simp only [List.map_map]
            have hmapid : List.map (Prod.fst ∘ fun j =>
                (j, ((findFreeBuffer alloc).1, interLat inter c.1 - (md + lat₀))))
                (c.2.filter (fun j => claimedAt claims c.1 j)) =
                c.2.filter (fun j => claimedAt claims c.1 j) := by
              have := List.map_congr_left (l := c.2.filter
                  (fun j => claimedAt claims c.1 j))
                (f := Prod.fst ∘ fun j => (j, ((findFreeBuffer alloc).1,
                  interLat inter c.1 - (md + lat₀)))) (g := id)
                (fun a _ => rfl)
              rw [this, List.map_id]
            rw [hmapid]
            exact List.Nodup.filter _ ((hdps c.1 c.2 (by cases c; exact hcm)).1)
          have hB₂ : ∀ t ∈ Btriples ra ++ Rtriples o₀ repeats,
              UsedEdge inter w t.1 t.2.1 t.2.2 ∧
                (lookupC claims₂ t.2.1 t.2.2).isSome := by
            intro t ht
            rcases List.mem_append.mp ht with hm2 | hm2
            · obtain ⟨he, hs⟩ := hB t hm2
              exact ⟨he, hmono1 _ _ hs⟩
            · obtain ⟨v, dps, j, hm, hj, hcl, rfl⟩ := (hNewB _).mp hm2
              refine ⟨(hPE v j).mpr ⟨dps, hm, hj⟩, hmono1 v j ?_⟩
              rw [claimedAt_eq] at hcl
              exact hcl
          have hBfst₂ : ∀ t ∈ Btriples ra ++ Rtriples o₀ repeats,
              t.1 ∉ keysA rest := by
            intro t ht
            rcases List.mem_append.mp ht with hm2 | hm2
            · intro hh
              exact hBfst t hm2 (by rw [keysA_cons]; exact List.mem_cons_of_mem _ hh)
            · obtain ⟨v, dps, j, _, _, _, rfl⟩ := (hNewB _).mp hm2
              exact ho₀
          have hBnd₂ : (Btriples ra ++ Rtriples o₀ repeats).Nodup := by
            refine List.Nodup.append hBnd (rtriples_nodup (by rw [hkeysR]; exact hcnd)
              hrin) ?_
            intro t ht1 ht2
            obtain ⟨v, dps, j, _, _, _, rfl⟩ := (hNewB _).mp ht2
            exact hedge0T v j ht1
          have hBdel₂ : ∀ b ∈ ra ++ [(o₀, repeats)], ∀ r ∈ b.2, ∀ pr ∈ r.2,
              pr.2.2 = delaySpec g inter w b.1 r.1 := by
            intro b hb2 r hr pr hpr
            rcases List.mem_append.mp hb2 with hm2 | hm2
            · exact hBdel b hm2 r hr pr hpr
            · have hbe : b = (o₀, repeats) := by simpa using hm2
              subst hbe
              rw [hreps] at hr
              obtain ⟨c, hcm, rfl⟩ := List.mem_map.mp hr
              obtain ⟨j, _, rfl⟩ := List.mem_map.mp hpr
              show interLat inter c.1 - (md + lat₀) = delaySpec g inter w o₀ c.1
              rw [delaySpec, hlats0]
          obtain ⟨Imono, Irev, Icov, Ichain, IB, IBnd, IBdel⟩ := ih _ _ _ _ _ _ _ _ h
            (fun o lat hm => hlats o lat (List.mem_cons_of_mem _ hm)) hnd2
            (by rw [hBnew]; exact hchain₂)
            (by rw [hBnew]; exact hnone₂)
            (by rw [hBnew]; exact hB₂)
            (by rw [hBnew]; exact hBfst₂)
            (by rw [hBnew]; exact hBnd₂)
            hBdel₂
          refine ⟨fun v j hs => Imono v j (hmono1 v j hs), ?_, ?_, Ichain, IB,
            IBnd, IBdel⟩
          · intro v j hs
            rcases Irev v j hs with hs2 | hs2
            · rcases hrev1 v j hs2 with hs3 | hs3
              · exact Or.inl hs3
              · exact Or.inr ⟨o₀, hs3⟩
            · exact Or.inr hs2
          · intro o v j he hmem
            rw [keysA_cons] at hmem
            rcases List.mem_cons.mp hmem with hh | hh
            · subst hh
              exact Imono v j (hcov1 v j he)
            · exact Icov o v j he hh

theorem claimsTidy_update {claims : Claims} {v i : Nat} {X : Nat × InputSource}
    (ht : ClaimsTidy claims) (hun : lookupC claims v i = none) :
    ClaimsTidy (modifyA [] (fun m => insertNewA m i X) claims v) := by
  obtain ⟨hk, he⟩ := ht
  constructor
  · rcases hv : lookupA claims v with _ | dc
    · rw [keysA_modifyA_not_mem _ _ _ _ hv]
      refine List.Nodup.append hk (by simp) ?_
      intro a ha hb
      have hab : a = v := by simpa using hb
      subst hab
      exact (lookupA_eq_none_iff _ _).mp hv ha
    · rw [keysA_modifyA_mem _ _ _ _ (by rw [hv]; rfl)]
      exact hk
  · intro x dc hx
    by_cases hxv : x = v
    · subst hxv
      rw [lookupA_modifyA_self] at hx
      injection hx with hx
      subst hx
      have hdcv : (keysA ((lookupA claims x).getD [])).Nodup := by
        rcases hv : lookupA claims x with _ | dc2
        · simp [keysA]
        · exact he x dc2 hv
      have hiv : i ∉ keysA ((lookupA claims x).getD []) := by
        rw [lookupC] at hun
        by_cases hv : (lookupA claims x).isSome
        · obtain ⟨dc2, hv2⟩ := Option.isSome_iff_exists.mp hv
          rw [hv2] at hun ⊢
          have hun2 : lookupA dc2 i = none := hun
          exact (lookupA_eq_none_iff dc2 i).mp hun2
        · rw [Option.not_isSome_iff_eq_none] at hv
          rw [hv]
          simp [keysA]
      rw [insertNewA, keysA, List.map_append]
      refine List.Nodup.append hdcv (by simp) ?_
      intro a ha hb
      have hab : a = i := by simpa using hb
      subst hab
      exact hiv ha
    · rw [lookupA_modifyA_ne _ _ _ _ _ hxv] at hx
      exact he x dc hx

theorem cmpDestPorts_tidy (w o buf delay v : Nat) :
    ∀ (dps : List Nat) (alloc : Allocator) (claims : Claims)
      (prev : List (Nat × (Nat × Nat))),
      ClaimsTidy claims →
      ClaimsTidy (cmpDestPorts w o buf delay v dps alloc claims prev).2.1 := by
  intro dps
  induction dps with
  | nil =>
    intro alloc claims prev ht
    simpa [cmpDestPorts] using ht
  | cons j rest ih =>
    intro alloc claims prev ht
    rw [cmpDestPorts]
    by_cases hcl : claimedAt claims v j = true
    · rw [if_pos hcl]
      exact ih _ _ _ ht
    · rw [if_neg hcl]
      refine ih _ _ _ (claimsTidy_update ht ?_)
      rw [claimedAt_eq] at hcl
      rcases hq : lookupC claims v j with _ | x
      · rfl
      · rw [hq] at hcl
        exact absurd rfl hcl

theorem cmpConns_tidy {inter : List (Nat × UsedNode)} (w o buf stl : Nat) :
    ∀ (conns : List (Nat × List Nat)) (alloc : Allocator) (claims : Claims)
      (maxD : Nat) (repeats : Repeats) alloc' claims' maxD' repeats',
      cmpConns inter w o buf stl conns alloc claims maxD repeats =
        some (alloc', claims', maxD', repeats') →
      ClaimsTidy claims → ClaimsTidy claims' := by
  intro conns
  induction conns with
  | nil =>
    intro alloc claims maxD repeats alloc' claims' maxD' repeats' h ht
    rw [cmpConns] at h
    injection h with h
    injection h with h1 h
    injection h with h2 h
    subst h2
    exact ht
  | cons hd rest ih =>
    obtain ⟨v, dps⟩ := hd
    intro alloc claims maxD repeats alloc' claims' maxD' repeats' h ht
    rw [cmpConns] at h
    rcases hdr : lookupA inter v with _ | destRec
    · rw [hdr] at h
      exact absurd h (by simp)
    · simp only [hdr] at h
      exact ih _ _ _ _ _ _ _ _ h (cmpDestPorts_tidy w o buf
        (destRec.maxDelay - stl) v dps alloc claims [] ht)

theorem cmpOutputs_tidy {inter : List (Nat × UsedNode)} (w md : Nat) :
    ∀ (lats : List (Nat × Nat)) (uo : List (Nat × Port)) (alloc : Allocator)
      (claims : Claims) (outputs : List (Nat × Option NodeOutput))
      (ra : RepeatAssignees) alloc' claims' outputs' ra',
      cmpOutputs inter w md lats uo alloc claims outputs ra =
        some (alloc', claims', outputs', ra') →
      ClaimsTidy claims → ClaimsTidy claims' := by
  intro lats
  induction lats with
  | nil =>
    intro uo alloc claims outputs ra alloc' claims' outputs' ra' h ht
    rw [cmpOutputs] at h
    injection h with h
    injection h with h1 h
    injection h with h2 h
    subst h2
    exact ht
  | cons hd rest ih =>
    obtain ⟨o₀, lat₀⟩ := hd
    intro uo alloc claims outputs ra alloc' claims' outputs' ra' h ht
    rw [cmpOutputs] at h
    rcases huo : lookupA uo o₀ with _ | srcPort
    · rw [huo] at h
      exact ih _ _ _ _ _ _ _ _ _ h ht
    · simp only [huo] at h
      by_cases hemp : srcPort.isEmptyP = true
      · rw [if_pos hemp] at h
        exact absurd h (by simp)
      · rw [if_neg hemp] at h
        rcases hcc : cmpConns inter w o₀ (findFreeBuffer alloc).1 (md + lat₀)
            srcPort.conns (findFreeBuffer alloc).2 claims 0 [] with _ | q
        · rw [hcc] at h
          exact absurd h (by simp)
        · obtain ⟨alloc₂, claims₂, maxD, repeats⟩ := q
          simp only [hcc] at h
          exact ih _ _ _ _ _ _ _ _ _ h (cmpConns_tidy w o₀ (findFreeBuffer alloc).1
            (md + lat₀) srcPort.conns (findFreeBuffer alloc).2 claims 0 []
            alloc₂ claims₂ maxD repeats hcc ht)

theorem cmpSumPorts_keys (w o : Nat) :
    ∀ (prev : List (Nat × (Nat × Nat))) (dc : List (Nat × (Nat × InputSource)))
      (alloc : Allocator) (sums : List SumNode) (tasks : List Task)
      dc' alloc' sums' tasks',
      cmpSumPorts w o prev dc alloc sums tasks = some (dc', alloc', sums', tasks') →
      (keysA dc).Nodup → (keysA dc').Nodup := by
  intro prev
  induction prev with
  | nil =>
    intro dc alloc sums tasks dc' alloc' sums' tasks' h hnd
    rw [cmpSumPorts] at h
    injection h with h
    injection h with h1 h
    subst h1
    exact hnd
  | cons hd rest ih =>
    obtain ⟨dp, oh, delay⟩ := hd
    intro dc alloc sums tasks dc' alloc' sums' tasks' h hnd
    rw [cmpSumPorts] at h
    rcases hdc : lookupA dc dp with _ | pr
    · rw [hdc] at h
      exact absurd h (by simp)
    · obtain ⟨th, lhs⟩ := pr
      simp only [hdc] at h
      by_cases hck : (lookupA (removeA dc dp) dp).isSome = true
      · rw [if_pos hck] at h
        exact absurd h (by simp)
      · rw [if_neg hck] at h
        refine ih _ _ _ _ _ _ _ _ h ?_
        have hnd1 : (keysA (removeA dc dp)).Nodup := keysA_removeA_nodup hnd
        have hdp : dp ∉ keysA (removeA dc dp) := by
          rw [← lookupA_eq_none_iff]
          rcases hq : lookupA (removeA dc dp) dp with _ | x
          · rfl
          · exact absurd (by rw [hq]; rfl) hck
        rw [insertNewA, keysA, List.map_append]
        refine List.Nodup.append hnd1 (by simp) ?_
        intro a ha hb
        have hab : a = dp := by simpa using hb
        subst hab
        exact hdp ha

theorem cmpSumConns_tidy (w o : Nat) :
    ∀ (reps : Repeats) (claims : Claims) (alloc : Allocator) (sums : List SumNode)
      (tasks : List Task) claims' alloc' sums' tasks',
      cmpSumConns w o reps claims alloc sums tasks =
        some (claims', alloc', sums', tasks') →
      ClaimsTidy claims → ClaimsTidy claims' := by
  intro reps
  induction reps with
  | nil =>
    intro claims alloc sums tasks claims' alloc' sums' tasks' h ht
    rw [cmpSumConns] at h
    injection h with h
    injection h with h1 h
    subst h1
    exact ht
  | cons hd rest ih =>
    obtain ⟨v, prev⟩ := hd
    intro claims alloc sums tasks claims' alloc' sums' tasks' h ht
    rw [cmpSumConns] at h
    rcases hdcv : lookupA claims v with _ | dc
    · rw [hdcv] at h
      exact absurd h (by simp)
    · simp only [hdcv] at h
      rcases hsp : cmpSumPorts w o prev dc alloc sums tasks with _ | res
      · rw [hsp] at h
        exact absurd h (by simp)
      · obtain ⟨dc', alloc₁, sums₁, tasks₁⟩ := res
        simp only [hsp] at h
        refine ih _ _ _ _ _ _ _ _ h ?_
        obtain ⟨hk, he⟩ := ht
        constructor
        · rw [keysA_modifyA_mem _ _ _ _ (by rw [hdcv]; rfl)]
          exact hk
        · intro x dc₂ hx
          by_cases hxv : x = v
          · subst hxv
            rw [lookupA_modifyA_self] at hx
            injection hx with hx
            have hx2 : dc' = dc₂ := hx
            rw [← hx2]
            exact cmpSumPorts_keys w o prev dc alloc sums tasks dc' alloc₁
              sums₁ tasks₁ hsp (he x dc hdcv)
          · rw [lookupA_modifyA_ne _ _ _ _ _ hxv] at hx
            exact he x dc₂ hx

theorem cmpSums_tidy (w : Nat) :
    ∀ (ra : RepeatAssignees) (claims : Claims) (alloc : Allocator)
      (sums : List SumNode) (tasks : List Task) claims' alloc' sums' tasks',
      cmpSums w ra claims alloc sums tasks = some (claims', alloc', sums', tasks') →
      ClaimsTidy claims → ClaimsTidy claims' := by
  intro ra
  induction ra with
  | nil =>
    intro claims alloc sums tasks claims' alloc' sums' tasks' h ht
    rw [cmpSums] at h
    injection h with h
    injection h with h1 h
    subst h1
    exact ht
  | cons hd rest ih =>
    obtain ⟨o, reps⟩ := hd
    intro claims alloc sums tasks claims' alloc' sums' tasks' h ht
    rw [cmpSums] at h
    rcases hsc : cmpSumConns w o reps claims alloc sums tasks with _ | res
    · rw [hsc] at h
      exact absurd h (by simp)
    · obtain ⟨claims₁, alloc₁, sums₁, tasks₁⟩ := res
      simp only [hsc] at h
      exact ih _ _ _ _ _ _ _ _ h (cmpSumConns_tidy w o reps claims alloc sums
        tasks claims₁ alloc₁ sums₁ tasks₁ hsc ht)

/-! ## Positional facts about the traversal order -/

theorem mem_done_of_before {order done rest2 : List Nat} {w u : Nat}
    (horder : order = done ++ w :: rest2) (hnd : order.Nodup)
    (hb : beforeL order u w) : u ∈ done := by
  obtain ⟨i, j, hij, hiu, hjw⟩ := hb
  have hwpos : order[done.length]? = some w := by
    rw [horder, List.getElem?_append_right (le_refl _)]
    simp
  have hjlen : j = done.length := nodup_getElem?_inj hnd hjw hwpos
  have hilen : i < done.length := by omega
  rw [horder, List.getElem?_append_left hilen] at hiu
  exact (List.mem_iff_getElem?).mpr ⟨i, hiu⟩

theorem not_before_done {order done rest2 : List Nat} {w v : Nat}
    (horder : order = done ++ w :: rest2) (hnd : order.Nodup)
    (hb : beforeL order w v) : v ∉ done := by
  obtain ⟨i, j, hij, hiw, hjv⟩ := hb
  have hwpos : order[done.length]? = some w := by
    rw [horder, List.getElem?_append_right (le_refl _)]
    simp
  have hilen : i = done.length := nodup_getElem?_inj hnd hiw hwpos
  intro hv
  obtain ⟨k, hk⟩ := (List.mem_iff_getElem?).mp hv
  have hklen : k < done.length := by
    by_contra hc
    rw [List.getElem?_eq_none (by omega)] at hk
    exact Option.noConfusion hk
  have hkord : order[k]? = some v := by
    rw [horder, List.getElem?_append_left hklen]
    exact hk
  have := nodup_getElem?_inj hnd hjv hkord
  omega

theorem w_not_mem_done {order done rest2 : List Nat} {w : Nat}
    (horder : order = done ++ w :: rest2) (hnd : order.Nodup) : w ∉ done := by
  rw [horder] at hnd
  obtain ⟨_, _, hdisj⟩ := List.nodup_append.mp hnd
  intro hw
  exact hdisj hw (List.mem_cons_self _ _)

/-! ## Edge-level consequences of the traversal invariant -/

theorem usedEdge_out_exists {g : Graph} {st : SchedState}
    (hwf : g.wfB = true) (inv : SchedInv g st (fun _ => False))
    {u o v j : Nat} (he : UsedEdge st.inter u o v j) :
    ∃ gn lat, g.getNode u = some gn ∧ lookupA gn.outLats o = some lat := by
  obtain ⟨hHE, _, _, _⟩ := inv.usedSound u o v j he
  obtain ⟨node, port, ps, hv, hi, hu, ho⟩ := hHE
  obtain ⟨_, _, src, hsrc, hlats⟩ := wfB_conn hwf hv (lookupA_mem hi) (lookupA_mem hu)
  have hs := hlats o ((List.elem_iff).mp ho)
  obtain ⟨lat, hlat⟩ := Option.isSome_iff_exists.mp hs
  exact ⟨src, lat, hsrc, hlat⟩

theorem usedEdge_lat_le {g : Graph} {st : SchedState}
    (inv : SchedInv g st (fun _ => False))
    {u o v j : Nat} (he : UsedEdge st.inter u o v j) :
    interLat st.inter u + latOf g u o ≤ interLat st.inter v := by
  obtain ⟨hHE, _, hvk, _⟩ := inv.usedSound u o v j he
  have hvk2 : v ∈ keysA st.inter := by
    rcases hvk with h | h
    · exact h
    · exact h.elim
  obtain ⟨node, port, ps, hv, hi, hu, ho⟩ := hHE
  obtain ⟨r, hr⟩ := Option.isSome_iff_exists.mp ((lookupA_isSome_iff _ _).mpr hvk2)
  obtain ⟨gn, hgn, hmax⟩ := inv.latEq v r hr
  rw [hgn] at hv
  injection hv with hv
  have hIL : interLat st.inter v = maxInLatSpec g st.inter gn := by
    rw [interLat, hr]
    exact hmax
  rw [hIL]
  rw [← hv] at hi
  exact maxInLatSpec_ge (lookupA_mem hi) (lookupA_mem hu) ((List.elem_iff).mp ho)

theorem compileStep_chain {g : Graph} {st : SchedState}
    (hwf : g.wfB = true) (inv : SchedInv g st (fun _ => False))
    (htidy : TidyInter st.inter) :
    ∀ {cs cs' : CompSt} {w : Nat} {done rest2 : List Nat},
      st.order = done ++ w :: rest2 →
      compileStep g st.inter cs w = some cs' →
      CmpInv2 g st.inter done cs →
      CmpInv2 g st.inter (done ++ [w]) cs' := by
  intro cs cs' w done rest2 horder h inv2
  have hndOrd : st.order.Nodup := by
    rw [inv.orderKeys]
    exact inv.nodup
  have hwdone : w ∉ done := w_not_mem_done horder hndOrd
  have hwmem : w ∈ keysA st.inter := by
    rw [← inv.orderKeys, horder]
    exact List.mem_append_right _ (List.mem_cons_self _ _)
  have htgt : ∀ o v j, UsedEdge st.inter w o v j → v ∉ done := by
    intro o v j he
    obtain ⟨_, _, hvk, hbef⟩ := inv.usedSound w o v j he
    have hvk2 : v ∈ keysA st.inter := by
      rcases hvk with hh | hh
      · exact hh
      · exact hh.elim
    exact not_before_done horder hndOrd (hbef hvk2)
  have hprodw : ∀ u o j, UsedEdge st.inter u o w j → u ∈ done := by
    intro u o j he
    obtain ⟨_, _, _, hbef⟩ := inv.usedSound u o w j he
    exact mem_done_of_before horder hndOrd (hbef hwmem)
  rw [compileStep] at h
  rcases hur : lookupA st.inter w with _ | urec
  · rw [hur] at h
    exact absurd h (by simp)
  · simp only [hur] at h
    rcases hgn : g.getNode w with _ | gnode
    · rw [hgn] at h
      exact absurd h (by simp)
    · simp only [hgn] at h
      rcases hco : cmpOutputs st.inter w urec.maxDelay gnode.outLats
          urec.usedOutputs cs.alloc cs.claims [] [] with _ | q
      · rw [hco] at h
        exact absurd h (by simp)
      · obtain ⟨alloc₁, claims₁, outputs, ra⟩ := q
        simp only [hco] at h
        rcases hcs : cmpSums w ra claims₁ alloc₁ cs.sumNodes
            (cs.tasks ++ [Task.node w]) with _ | q2
        · rw [hcs] at h
          exact absurd h (by simp)
        · obtain ⟨claims₂, alloc₂, sums₂, tasks₂⟩ := q2
          simp only [hcs] at h
          have hedgeUO : ∀ o v j, PortEdge urec.usedOutputs o v j ↔
              UsedEdge st.inter w o v j := by
            intro o v j
            constructor
            · intro pe
              exact ⟨urec, hur, pe⟩
            · rintro ⟨r, hr, pe⟩
              rw [hur] at hr
              injection hr with hr
              rw [hr]
              exact pe
          have htidyUO : TidyUO urec.usedOutputs := htidy w urec hur
          have hlatOf : ∀ o lat, (o, lat) ∈ gnode.outLats → latOf g w o = lat := by
            intro o lat hm
            have hlk : lookupA gnode.outLats o = some lat :=
              mem_lookupA (wfB_node_nodup hwf hgn).1 hm
            simp only [latOf, hgn, hlk]
          have hILw : interLat st.inter w = urec.maxDelay := by
            rw [interLat, hur]
          have hlats : ∀ o lat, (o, lat) ∈ gnode.outLats →
              urec.maxDelay + lat = interLat st.inter w + latOf g w o := by
            intro o lat hm
            rw [hILw, hlatOf o lat hm]
          have hOutExists : ∀ o v j, UsedEdge st.inter w o v j →
              o ∈ keysA gnode.outLats := by
            intro o v j he
            obtain ⟨gn2, lat, hgn2, hlk⟩ := usedEdge_out_exists hwf inv he
            rw [hgn] at hgn2
            injection hgn2 with hgn2
            rw [hgn2]
            exact (lookupA_isSome_iff _ _).mp (by rw [hlk]; rfl)
          have hequivInit : ∀ v j u o, (UsedEdge st.inter u o v j ∧ u ∈ done) ↔
              stepP st.inter done w gnode.outLats [] v j u o := by
            intro v j u o
            constructor
            · exact Or.inl
            · rintro (hh | ⟨heq, he2, hk2, _⟩)
              · exact hh
              · exact absurd (hOutExists o v j he2) hk2
          obtain ⟨Omono, Orev, Ocov, Ochain, OB, OBnd, OBdel⟩ :=
            @cmpOutputs_chain g st.inter done w urec.maxDelay
              urec.usedOutputs cs.sumNodes hedgeUO htidyUO htgt
              gnode.outLats cs.alloc cs.claims [] [] alloc₁ claims₁ outputs ra hco
              hlats (wfB_node_nodup hwf hgn).1
              (fun v j buf src hlk => chainOK_congrP (inv2.claimOK v j buf src hlk)
                (fun u o => hequivInit v j u o))
              (fun v j hv hn u o hst => inv2.claimNone v j hv hn u o
                ((hequivInit v j u o).mpr hst))
              (fun t ht => absurd ht (by simp [Btriples]))
              (fun t ht => absurd ht (by simp [Btriples]))
              (by simp [Btriples])
              (by simp)
          have hedgeRA : ∀ b ∈ ra, ∀ r ∈ b.2, ∀ pr ∈ r.2,
              UsedEdge st.inter w b.1 r.1 pr.1 := by
            intro b hbm r hr pr hpr
            have ht2 : ((b.1, r.1, pr.1) : Nat × Nat × Nat) ∈ Btriples ra :=
              mem_btriples.mpr ⟨b, hbm, mem_rtriples.mpr ⟨r, hr, pr, hpr, rfl⟩⟩
            exact (OB _ ht2).1
          have hequivSP : ∀ (v j u o : Nat) (B : List (Nat × Nat × Nat)),
              stepP st.inter done w [] B v j u o ↔
                sumP st.inter done w B v j u o := by
            intro v j u o B
            constructor
            · rintro (hh | ⟨heq, he2, _, hb2⟩)
              · exact Or.inl hh
              · exact Or.inr ⟨heq, he2, hb2⟩
            · rintro (hh | ⟨heq, he2, hb2⟩)
              · exact Or.inl hh
              · exact Or.inr ⟨heq, he2, (by simp [keysA]), hb2⟩
          obtain ⟨Δ, hsΔ, hwfs₂, Siso, Schain⟩ := cmpSums_chain hwdone ra claims₁
            alloc₁ cs.sumNodes (cs.tasks ++ [Task.node w]) claims₂ alloc₂ sums₂
            tasks₂ hcs inv2.hwfs OBnd hedgeRA OBdel
            (fun v j buf src hlk => chainOK_congrP (Ochain v j buf src hlk)
              (fun u o => hequivSP v j u o _))
          have hequivF : ∀ v j u o, sumP st.inter done w [] v j u o ↔
              (UsedEdge st.inter u o v j ∧ u ∈ done ++ [w]) := by
            intro v j u o
            constructor
            · rintro (⟨he2, hu2⟩ | ⟨heq, he2, _⟩)
              · exact ⟨he2, List.mem_append_left _ hu2⟩
              · rw [heq]
                exact ⟨he2, List.mem_append_right _ (List.mem_cons_self _ _)⟩
            · rintro ⟨he2, hu2⟩
              rcases List.mem_append.mp hu2 with hh | hh
              · exact Or.inl ⟨he2, hh⟩
              · have heq : u = w := by simpa using hh
                subst heq
                exact Or.inr ⟨rfl, he2, by simp⟩
          have htidy₁ : ClaimsTidy claims₁ := cmpOutputs_tidy w urec.maxDelay
            gnode.outLats urec.usedOutputs cs.alloc cs.claims [] [] alloc₁ claims₁
            outputs ra hco inv2.tidy
          have htidy₂ : ClaimsTidy claims₂ := cmpSums_tidy w ra claims₁ alloc₁
            cs.sumNodes (cs.tasks ++ [Task.node w]) claims₂ alloc₂ sums₂ tasks₂
            hcs htidy₁
          have hmonoT : ∀ v j, (lookupC cs.claims v j).isSome →
              (lookupC claims₂ v j).isSome :=
            fun v j hs => (Siso v j).mp (Omono v j hs)
          have hrevT : ∀ v j, (lookupC claims₂ v j).isSome →
              (lookupC cs.claims v j).isSome ∨ ∃ o, UsedEdge st.inter w o v j :=
            fun v j hs => Orev v j ((Siso v j).mpr hs)
          have hcovT : ∀ o v j, UsedEdge st.inter w o v j →
              (lookupC claims₂ v j).isSome :=
            fun o v j he => (Siso v j).mp (Ocov o v j he (hOutExists o v j he))
          have hchainT : ∀ v j buf src, lookupC claims₂ v j = some (buf, src) →
              ChainOK g st.inter sums₂ v src
                (fun u o => UsedEdge st.inter u o v j ∧ u ∈ done ++ [w]) :=
            fun v j buf src hlk => chainOK_congrP (Schain v j buf src hlk)
              (hequivF v j)
          have hnoneT : ∀ v j, v ∉ done ++ [w] → lookupC claims₂ v j = none →
              ∀ u o, ¬ (UsedEdge st.inter u o v j ∧ u ∈ done ++ [w]) := by
            rintro v j hv hn u o ⟨he, hu⟩
            rcases List.mem_append.mp hu with hh | hh
            · have h0 : lookupC cs.claims v j = none := by
                rcases hq : lookupC cs.claims v j with _ | x
                · rfl
                · have := hmonoT v j (by rw [hq]; rfl)
                  rw [hn] at this
                  exact absurd this (by simp)
              exact inv2.claimNone v j (fun hvd => hv (List.mem_append_left _ hvd))
                h0 u o ⟨he, hh⟩
            · have heq : u = w := by simpa using hh
              subst heq
              have := hcovT o v j he
              rw [hn] at this
              exact absurd this (by simp)
          have hdoneT : ∀ v, v ∈ done → ∀ j, lookupC claims₂ v j = none := by
            intro v hvd j
            rcases hq : lookupC claims₂ v j with _ | x
            · rfl
            · exfalso
              rcases hrevT v j (by rw [hq]; rfl) with hs | ⟨o, he⟩
              · rw [inv2.doneNone v hvd j] at hs
                exact absurd hs (by simp)
              · exact htgt o v j he hvd
          have hdomT : ∀ v j, (lookupC claims₂ v j).isSome →
              ∃ u o, UsedEdge st.inter u o v j := by
            intro v j hs
            rcases hrevT v j hs with hs2 | ⟨o, he⟩
            · exact inv2.claimDomV v j hs2
            · exact ⟨w, o, he⟩
          rcases hclw : lookupA claims₂ w with _ | claimed
          · -- no claimed inputs on w
            simp only [hclw] at h
            by_cases hioW : (lookupA cs.nodeIO w).isSome = true
            · rw [if_pos hioW] at h
              exact absurd h (by simp)
            · rw [if_neg hioW] at h
              injection h with h
              subst h
              have hnoIn : ∀ u o j, ¬ UsedEdge st.inter u o w j := by
                intro u o j he
                have hu : u ∈ done := hprodw u o j he
                have hs0 : (lookupC cs.claims w j).isSome := by
                  rcases hq : lookupC cs.claims w j with _ | x
                  · exact absurd ⟨he, hu⟩ (inv2.claimNone w j hwdone hq u o)
                  · rfl
                have hs2 := hmonoT w j hs0
                rw [lookupC, hclw] at hs2
                exact absurd hs2 (by simp)
              refine ⟨hwfs₂, htidy₂, hchainT, hnoneT, ?_, hdomT, ?_, ?_⟩
              · intro v hvd j
                rcases List.mem_append.mp hvd with hh | hh
                · exact hdoneT v hh j
                · have heq : v = w := by simpa using hh
                  subst heq
                  rw [lookupC, hclw]
              · intro v nio hio j src hlk2
                rw [lookupA_insertNewA] at hio
                rcases hq : lookupA cs.nodeIO v with _ | old
                · rw [hq] at hio
                  simp only [] at hio
                  by_cases hwv : w = v
                  · rw [if_pos hwv] at hio
                    injection hio with hio
                    rw [← hio] at hlk2
                    exact absurd hlk2 (by simp [lookupA])
                  · rw [if_neg hwv] at hio
                    exact absurd hio (by simp)
                · rw [hq] at hio
                  simp only [] at hio
                  injection hio with hio
                  subst hio
                  rw [hsΔ]
                  exact chainOK_stable (inv2.ioSpec v old hq j src hlk2) inv2.hwfs
              · intro v hvd j u o he
                rcases List.mem_append.mp hvd with hh | hh
                · obtain ⟨nio, src, hio, hinp⟩ := inv2.ioCom v hh j u o he
                  refine ⟨nio, src, ?_, hinp⟩
                  rw [lookupA_insertNewA, hio]
                · have heq : v = w := by simpa using hh
                  subst heq
                  exact absurd he (hnoIn u o j)
          · -- w has claimed inputs: they are finalised
            simp only [hclw] at h
            rcases hfin : cmpFinalize gnode.inputs claimed alloc₂ [] with _ | q3
            · rw [hfin] at h
              exact absurd h (by simp)
            · obtain ⟨claimed', alloc₃, inputs⟩ := q3
              simp only [hfin] at h
              by_cases hioW : (lookupA cs.nodeIO w).isSome = true
              · rw [if_pos hioW] at h
                exact absurd h (by simp)
              · rw [if_neg hioW] at h
                injection h with h
                subst h
                have hioWnone : lookupA cs.nodeIO w = none := by
                  rcases hq : lookupA cs.nodeIO w with _ | x
                  · rfl
                  · exact absurd (by rw [hq]; rfl) hioW
                have hC2W : ∀ j, lookupC claims₂ w j = lookupA claimed j := by
                  intro j
                  rw [lookupC, hclw]
                have hclaimedNd : (keysA claimed).Nodup := htidy₂.2 w claimed hclw
                have hinpNd : (keysA gnode.inputs).Nodup :=
                  (wfB_node_nodup hwf hgn).2
                have hdomIn : ∀ j, (lookupA claimed j).isSome →
                    j ∈ keysA gnode.inputs := by
                  intro j hs
                  rw [← hC2W j] at hs
                  obtain ⟨u, o, he⟩ := hdomT w j hs
                  obtain ⟨hHE, _, _, _⟩ := inv.usedSound u o w j he
                  obtain ⟨node, port, ps, hv, hi, _, _⟩ := hHE
                  rw [hgn] at hv
                  injection hv with hv
                  rw [← hv] at hi
                  exact (lookupA_isSome_iff _ _).mp (by rw [hi]; rfl)
                have hleft := cmpFinalize_leftover gnode.inputs claimed alloc₂ []
                  claimed' alloc₃ inputs hfin hclaimedNd
                have hclaimedNil : claimed' = [] := by
                  rcases hq : claimed' with _ | ⟨e, tl⟩
                  · rfl
                  · exfalso
                    have hmem : e ∈ claimed' := by
                      rw [hq]
                      exact List.mem_cons_self _ _
                    obtain ⟨hmem2, hnotin⟩ := hleft e hmem
                    obtain ⟨e1, e2⟩ := e
                    have hee : lookupA claimed e1 = some e2 :=
                      mem_lookupA hclaimedNd hmem2
                    exact hnotin (hdomIn e1 (by rw [hee]; rfl))
                have hlkW3 : ∀ j, lookupC (modifyA [] (fun _ => claimed')
                    claims₂ w) w j = none := by
                  intro j
                  rw [lookupC, lookupA_modifyA_self, hclaimedNil]
                  rfl
                have hlkO3 : ∀ x, x ≠ w → ∀ j, lookupC (modifyA []
                    (fun _ => claimed') claims₂ w) x j = lookupC claims₂ x j := by
                  intro x hx j
                  rw [lookupC, lookupA_modifyA_ne _ _ _ _ _ hx, lookupC]
                obtain ⟨hIK, hIold, hInew⟩ := cmpFinalize_inputs gnode.inputs
                  claimed alloc₂ [] claimed' alloc₃ inputs hfin hinpNd hclaimedNd
                have htidy₃ : ClaimsTidy (modifyA [] (fun _ => claimed')
                    claims₂ w) := by
                  refine ⟨?_, ?_⟩
                  · rw [keysA_modifyA_mem _ _ _ _ (by rw [hclw]; rfl)]
                    exact htidy₂.1
                  · intro x dc hx
                    by_cases hxw : x = w
                    · subst hxw
                      rw [lookupA_modifyA_self] at hx
                      injection hx with hx
                      have hx2 : claimed' = dc := hx
                      rw [← hx2, hclaimedNil]
                      simp [keysA]
                    · rw [lookupA_modifyA_ne _ _ _ _ _ hxw] at hx
                      exact htidy₂.2 x dc hx
                refine ⟨hwfs₂, htidy₃, ?_, ?_, ?_, ?_, ?_, ?_⟩
                · intro v j buf src hlk
                  by_cases hvw : v = w
                  · subst hvw
                    rw [hlkW3 j] at hlk
                    exact absurd hlk (by simp)
                  · rw [hlkO3 v hvw j] at hlk
                    exact hchainT v j buf src hlk
                · intro v j hv hn
                  by_cases hvw : v = w
                  · subst hvw
                    exact absurd (List.mem_append_right _
                      (List.mem_cons_self _ _)) hv
                  · rw [hlkO3 v hvw j] at hn
                    exact hnoneT v j hv hn
                · intro v hvd j
                  rcases List.mem_append.mp hvd with hh | hh
                  · have hvw : v ≠ w := by
                      intro heq
                      rw [heq] at hh
                      exact hwdone hh
                    rw [hlkO3 v hvw j]
                    exact hdoneT v hh j
                  · have heq : v = w := by simpa using hh
                    subst heq
                    exact hlkW3 j
                · intro v j hs
                  by_cases hvw : v = w
                  · subst hvw
                    rw [hlkW3 j] at hs
                    exact absurd hs (by simp)
                  · rw [hlkO3 v hvw j] at hs
                    exact hdomT v j hs
                · intro v nio hio j src hlk2
                  rw [lookupA_insertNewA] at hio
                  rcases hq : lookupA cs.nodeIO v with _ | old
                  · rw [hq] at hio
                    simp only [] at hio
                    by_cases hwv : w = v
                    · rw [if_pos hwv] at hio
                      injection hio with hio
                      subst hwv
                      rw [← hio] at hlk2
                      by_cases hjk : j ∈ keysA gnode.inputs
                      · have hjn : j ∉ keysA ([] :
                            List (Nat × Option InputSource)) := by
                          simp [keysA]
                        obtain ⟨hcs2, hcn2⟩ := hInew j hjk hjn
                        rcases hq2 : lookupA claimed j with _ | pr
                        · rw [hcn2 hq2] at hlk2
                          injection hlk2 with hlk2
                          exact absurd hlk2 (by simp)
                        · rw [hcs2 pr hq2] at hlk2
                          injection hlk2 with hlk2
                          injection hlk2 with hlk2
                          have hclm : lookupC claims₂ w j = some (pr.1, pr.2) := by
                            rw [hC2W j, hq2]
                          have hch := hchainT w j pr.1 pr.2 hclm
                          rw [← hlk2]
                          refine chainOK_congrP hch ?_
                          intro u o
                          constructor
                          · rintro ⟨he2, _⟩
                            exact he2
                          · intro he2
                            exact ⟨he2, List.mem_append_left _ (hprodw u o j he2)⟩
                      · have := hIold j hjk
                        rw [this] at hlk2
                        exact absurd hlk2 (by simp [lookupA])
                    · rw [if_neg hwv] at hio
                      exact absurd hio (by simp)
                  · rw [hq] at hio
                    simp only [] at hio
                    injection hio with hio
                    subst hio
                    rw [hsΔ]
                    exact chainOK_stable (inv2.ioSpec v old hq j src hlk2) inv2.hwfs
                · intro v hvd j u o he
                  rcases List.mem_append.mp hvd with hh | hh
                  · obtain ⟨nio, src, hio, hinp⟩ := inv2.ioCom v hh j u o he
                    refine ⟨nio, src, ?_, hinp⟩
                    rw [lookupA_insertNewA, hio]
                  · have heq : v = w := by simpa using hh
                    subst heq
                    have hu : u ∈ done := hprodw u o j he
                    have hs0 : (lookupC cs.claims v j).isSome := by
                      rcases hq : lookupC cs.claims v j with _ | x
                      · exact absurd ⟨he, hu⟩ (inv2.claimNone v j hwdone hq u o)
                      · rfl
                    have hs2 := hmonoT v j hs0
                    rw [hC2W j] at hs2
                    obtain ⟨pr, hpr⟩ := Option.isSome_iff_exists.mp hs2
                    have hjk : j ∈ keysA gnode.inputs :=
                      hdomIn j (by rw [hpr]; rfl)
                    have hjn : j ∉ keysA ([] : List (Nat × Option InputSource)) := by
                      simp [keysA]
                    obtain ⟨hcs2, _⟩ := hInew j hjk hjn
                    refine ⟨⟨inputs, outputs⟩, pr.2, ?_, hcs2 pr hpr⟩
                    rw [lookupA_insertNewA, hioWnone]
                    simp

theorem compileGo_chain {g : Graph} {st : SchedState}
    (hwf : g.wfB = true) (inv : SchedInv g st (fun _ => False))
    (htidy : TidyInter st.inter) :
    ∀ (rest : List Nat) (done : List Nat) (cs cs' : CompSt),
      st.order = done ++ rest →
      compileGo g st.inter rest cs = some cs' →
      CmpInv2 g st.inter done cs →
      CmpInv2 g st.inter (done ++ rest) cs' := by
  intro rest
  induction rest with
  | nil =>
    intro done cs cs' horder h inv2
    rw [compileGo] at h
    injection h with h
    subst h
    rw [List.append_nil]
    exact inv2
  | cons w rest2 ih =>
    intro done cs cs' horder h inv2
    rw [compileGo] at h
    rcases hstep : compileStep g st.inter cs w with _ | cs₁
    · rw [hstep] at h
      exact absurd h (by simp)
    · simp only [hstep] at h
      have inv2b := compileStep_chain hwf inv htidy horder hstep inv2
      have horder2 : st.order = (done ++ [w]) ++ rest2 := by
        rw [horder, List.append_assoc, List.singleton_append]
      have hres := ih (done ++ [w]) cs₁ cs' horder2 h inv2b
      rw [List.append_assoc, List.singleton_append] at hres
      exact hres

theorem cmpInv2_init (g : Graph) (inter : List (Nat × UsedNode)) :
    CmpInv2 g inter [] ⟨[], [], [], [], []⟩ := by
  refine ⟨?_, ?_, ?_, ?_, ?_, ?_, ?_, ?_⟩
  · intro k s hk
    exact absurd hk (by simp)
  · exact ⟨by simp [keysA], fun v dc hd => absurd hd (by simp [lookupA])⟩
  · intro v j buf src hlk
    exact absurd hlk (by simp [lookupC, lookupA])
  · rintro v j _ _ u o ⟨_, hu⟩
    exact absurd hu (by simp)
  · intro v hv
    exact absurd hv (by simp)
  · intro v j hs
    exact absurd hs (by simp [lookupC, lookupA])
  · intro v nio hio
    exact absurd hio (by simp [lookupA])
  · intro v hv
    exact absurd hv (by simp)

/-! ## The reachable sum indices are distinct -/

theorem chainSums_le {sums : List SumNode} (hwfs : SumsWF sums) :
    ∀ (j : Nat), j < sums.length → ∀ (F : Nat), j < F →
      ∀ k ∈ chainSums sums F (.sumNode j), k ≤ j := by
  intro j
  induction j using Nat.strong_induction_on with
  | _ j ih =>
    intro hj F hF k hk
    obtain ⟨a, rfl⟩ : ∃ a, F = a + 1 := ⟨F - 1, by omega⟩
    obtain ⟨s, hs⟩ : ∃ s, sums[j]? = some s := by
      rcases hh : sums[j]? with _ | s
      · rw [List.getElem?_eq_none_iff] at hh
        omega
      · exact ⟨s, rfl⟩
    rw [chainSums_sumS, List.get?_eq_getElem?, hs] at hk
    simp only [List.mem_cons, List.mem_append] at hk
    obtain ⟨hrhs, hlhs⟩ := hwfs j s hs
    rcases hk with rfl | hk | hk
    · exact le_refl _
    · rcases hsl : s.summands.1 with ⟨d2, u2, o2⟩ | ⟨j2⟩
      · rw [hsl, chainSums_graphNode] at hk
        exact absurd hk (by simp)
      · have hj2 := hlhs j2 hsl
        rw [hsl] at hk
        have := ih j2 hj2 (by omega) a (by omega) k hk
        omega
    · obtain ⟨d, u, o, hro⟩ := hrhs
      rw [hro, chainSums_graphNode] at hk
      exact absurd hk (by simp)

theorem chainSums_nodup {sums : List SumNode} (hwfs : SumsWF sums) :
    ∀ (j : Nat), j < sums.length → ∀ (F : Nat), j < F →
      (chainSums sums F (.sumNode j)).Nodup := by
  intro j
  induction j using Nat.strong_induction_on with
  | _ j ih =>
    intro hj F hF
    obtain ⟨a, rfl⟩ : ∃ a, F = a + 1 := ⟨F - 1, by omega⟩
    obtain ⟨s, hs⟩ : ∃ s, sums[j]? = some s := by
      rcases hh : sums[j]? with _ | s
      · rw [List.getElem?_eq_none_iff] at hh
        omega
      · exact ⟨s, rfl⟩
    rw [chainSums_sumS, List.get?_eq_getElem?, hs]
    simp only []
    obtain ⟨hrhs, hlhs⟩ := hwfs j s hs
    obtain ⟨d, u, o, hro⟩ := hrhs
    rw [hro, chainSums_graphNode, List.append_nil, List.nodup_cons]
    rcases hsl : s.summands.1 with ⟨d2, u2, o2⟩ | ⟨j2⟩
    · rw [chainSums_graphNode]
      exact ⟨by simp, List.nodup_nil⟩
    · have hj2 := hlhs j2 hsl
      refine ⟨?_, ih j2 hj2 (by omega) a (by omega)⟩
      intro hmem
      have := chainSums_le hwfs j2 (by omega) a (by omega) j hmem
      omega

theorem chainSums_nodup_src {sums : List SumNode} (hwfs : SumsWF sums)
    {src : InputSource} (hb : SrcBound sums.length src) :
    (chainSums sums sums.length src).Nodup := by
  rcases hsrc : src with ⟨d, u, o⟩ | ⟨j⟩
  · rw [chainSums_graphNode]
    exact List.nodup_nil
  · have hj : j < sums.length := hb j hsrc
    exact chainSums_nodup hwfs j hj sums.length hj

/-! ## End-to-end chain correctness of `compile` -/

theorem compile_chain_end {g : Graph} {st : SchedState} {sched : GraphSchedule}
    (hwf : g.wfB = true) (inv : SchedInv g st (fun _ => False))
    (htidy : TidyInter st.inter)
    (hc : st.compile g = some sched) :
    SumsWF sched.sumNodes ∧
    (∀ v nio, lookupA sched.nodeIO v = some nio →
      ∀ j src, lookupA nio.inputs j = some (some src) →
        ChainOK g st.inter sched.sumNodes v src
          (fun u o => UsedEdge st.inter u o v j)) ∧
    (∀ v, v ∈ st.order → ∀ j u o, UsedEdge st.inter u o v j →
      ∃ nio src, lookupA sched.nodeIO v = some nio ∧
        lookupA nio.inputs j = some (some src)) ∧
    (∀ k, k < sched.sumNodes.length → Task.sum k ∈ sched.tasks) := by
  rw [SchedState.compile] at hc
  rcases hgo : compileGo g st.inter st.order ⟨[], [], [], [], []⟩ with _ | cs
  · rw [hgo] at hc
    exact absurd hc (by simp)
  · rw [hgo] at hc
    injection hc with hc
    subst hc
    have inv2 := compileGo_chain hwf inv htidy st.order [] _ _ (by simp) hgo
      (cmpInv2_init g st.inter)
    rw [List.nil_append] at inv2
    refine ⟨inv2.hwfs, inv2.ioSpec, inv2.ioCom, ?_⟩
    obtain ⟨segs, hmap, htasks, _, _, _, _, hconv, _⟩ := compileGo_struct hwf
      st.order ⟨[], [], [], [], []⟩ cs hgo
      (by intro c hc2; exact absurd hc2 (by simp))
      (by intro k s hk; exact absurd hk (by simp))
    intro k hk
    obtain ⟨idx, u, sseg, hseg, hmem⟩ := hconv k (by simp) hk
    have hsegmem : (u, sseg) ∈ segs := (List.mem_iff_getElem?).mpr ⟨idx, hseg⟩
    show Task.sum k ∈ cs.tasks
    rw [htasks]
    refine List.mem_append_right _ (List.mem_flatten.mpr
      ⟨Task.node u :: sseg, ?_, List.mem_cons_of_mem _ hmem⟩)
    exact List.mem_map.mpr ⟨(u, sseg), hsegmem, rfl⟩

/-- C2.  Every used edge of the compiled subgraph appears in the recorded
input-source chain of its destination port, with a delay that restores the
destination's latency exactly; in particular the truncated subtraction in
the compiler never clips. -/
theorem compile_delay_chains {g : Graph} {st : SchedState} {sched : GraphSchedule}
    (hwf : g.wfB = true) (inv : SchedInv g st (fun _ => False))
    (htidy : TidyInter st.inter)
    (hc : st.compile g = some sched) :
    ∀ u o v i, UsedEdge st.inter u o v i →
      interLat st.inter u + latOf g u o ≤ interLat st.inter v ∧
      ∃ nio src, lookupA sched.nodeIO v = some nio ∧
        lookupA nio.inputs i = some (some src) ∧
        (u, o, delaySpec g st.inter u o v) ∈
          chainList sched.sumNodes sched.sumNodes.length src ∧
        delaySpec g st.inter u o v + (interLat st.inter u + latOf g u o) =
          interLat st.inter v := by
  intro u o v i he
  obtain ⟨_, hioSpec, hioCom, _⟩ := compile_chain_end hwf inv htidy hc
  have hvmem : v ∈ st.order := by
    obtain ⟨_, _, hvk, _⟩ := inv.usedSound u o v i he
    rw [inv.orderKeys]
    rcases hvk with hh | hh
    · exact hh
    · exact hh.elim
  obtain ⟨nio, src, hio, hinp⟩ := hioCom v hvmem i u o he
  have hch := hioSpec v nio hio i src hinp
  have hle := usedEdge_lat_le inv he
  refine ⟨hle, nio, src, hio, hinp, (hch.memIff u o _).mpr ⟨he, rfl⟩, ?_⟩
  rw [delaySpec]
  omega

/-- Per-port sum structure of a compiled schedule: the recorded chain of
input `(v, i)` enumerates its producers exactly once each, uses one sum
fewer than producers, and each sum combines an earlier source with one
producer of that port. -/
theorem compile_sum_structure {g : Graph} {st : SchedState} {sched : GraphSchedule}
    (hwf : g.wfB = true) (inv : SchedInv g st (fun _ => False))
    (htidy : TidyInter st.inter)
    (hc : st.compile g = some sched) :
    ∀ v nio i src, lookupA sched.nodeIO v = some nio →
      lookupA nio.inputs i = some (some src) →
      (∀ u o d, (u, o, d) ∈ chainList sched.sumNodes sched.sumNodes.length src ↔
        (UsedEdge st.inter u o v i ∧ d = delaySpec g st.inter u o v)) ∧
      ((chainList sched.sumNodes sched.sumNodes.length src).map
        (fun t => (t.1, t.2.1))).Nodup ∧
      (chainSums sched.sumNodes sched.sumNodes.length src).Nodup ∧
      (chainSums sched.sumNodes sched.sumNodes.length src).length + 1 =
        (chainList sched.sumNodes sched.sumNodes.length src).length ∧
      (∀ k ∈ chainSums sched.sumNodes sched.sumNodes.length src,
        k < sched.sumNodes.length ∧ Task.sum k ∈ sched.tasks ∧
        ∃ sm, sched.sumNodes[k]? = some sm ∧
          (∀ j2, sm.summands.1 = .sumNode j2 → j2 < k) ∧
          ∃ d u o, sm.summands.2 = .graphNode d u o ∧
            UsedEdge st.inter u o v i ∧ d = delaySpec g st.inter u o v) := by
  intro v nio i src hio hinp
  obtain ⟨hwfs, hioSpec, _, htaskmem⟩ := compile_chain_end hwf inv htidy hc
  have hch := hioSpec v nio hio i src hinp
  refine ⟨hch.memIff, hch.nodupFst, chainSums_nodup_src hwfs hch.bound,
    hch.countEq, ?_⟩
  intro k hk
  have hklt : k < sched.sumNodes.length := chainSums_lt_src hwfs hch.bound k hk
  obtain ⟨sm, hsm, d, u, o, hro, hmem⟩ := chainSums_rhs_src hwfs hch.bound k hk
  obtain ⟨hedge, hdel⟩ := (hch.memIff u o d).mp hmem
  refine ⟨hklt, htaskmem k hklt, sm, hsm, ?_, d, u, o, hro, hedge, hdel⟩
  intro j2 hj2
  exact (hwfs k sm hsm).2 j2 hj2

/-- C5.  With `k ≥ 2` used outputs feeding one input port, the compiler
synthesises exactly `k - 1` sums for that port, each combining the prior
source with one arriving producer; the S5 and S7 scenarios behave as the
specification states. -/
theorem compile_sum_counts {g : Graph} {st : SchedState} {sched : GraphSchedule}
    (hwf : g.wfB = true) (inv : SchedInv g st (fun _ => False))
    (htidy : TidyInter st.inter)
    (hc : st.compile g = some sched) :
    (∀ v nio i src, lookupA sched.nodeIO v = some nio →
      lookupA nio.inputs i = some (some src) →
      (∀ u o d, (u, o, d) ∈ chainList sched.sumNodes sched.sumNodes.length src ↔
        (UsedEdge st.inter u o v i ∧ d = delaySpec g st.inter u o v)) ∧
      ((chainList sched.sumNodes sched.sumNodes.length src).map
        (fun t => (t.1, t.2.1))).Nodup ∧
      (chainSums sched.sumNodes sched.sumNodes.length src).Nodup ∧
      (chainSums sched.sumNodes sched.sumNodes.length src).length + 1 =
        (chainList sched.sumNodes sched.sumNodes.length src).length ∧
      (∀ k ∈ chainSums sched.sumNodes sched.sumNodes.length src,
        k < sched.sumNodes.length ∧ Task.sum k ∈ sched.tasks ∧
        ∃ sm, sched.sumNodes[k]? = some sm ∧
          (∀ j2, sm.summands.1 = .sumNode j2 → j2 < k) ∧
          ∃ d u o, sm.summands.2 = .graphNode d u o ∧
            UsedEdge st.inter u o v i ∧ d = delaySpec g st.inter u o v)) ∧
    (addSinkNode gS5 100 SchedState.empty 3 = .ok st5 ∧
      interLat st5.inter 3 = 13 ∧
      st5.compile gS5 = some sched5 ∧
      sched5.sumNodes.length = 2 ∧
      (sched5.tasks.filter (fun t => match t with
        | Task.sum _ => true
        | _ => false)).length = 2 ∧
      lookupA sched5.nodeIO 3 = some ⟨[(0, some (.sumNode 1))], []⟩ ∧
      chainList sched5.sumNodes sched5.sumNodes.length (.sumNode 1) =
        [(0, 0, 7), (1, 0, 5), (2, 0, 0)] ∧
      7 = 13 - latOf gS5 0 0 ∧ 5 = 13 - latOf gS5 1 0 ∧
      0 = 13 - latOf gS5 2 0) ∧
    (addSinkNode gS7 100 SchedState.empty 2 = .ok st7 ∧
      interLat st7.inter 2 = 7 ∧
      st7.compile gS7 = some sched7 ∧
      sched7.sumNodes.length = 1 ∧
      (sched7.tasks.filter (fun t => match t with
        | Task.sum _ => true
        | _ => false)).length = 1 ∧
      sched7.sumNodes = [⟨(.graphNode 4 0 0, .graphNode 0 1 0), 1⟩] ∧
      4 = 7 - latOf gS7 0 0 ∧ 0 = 7 - latOf gS7 1 0) := by
  exact ⟨compile_sum_structure hwf inv htidy hc, by decide, by decide⟩

/-- C6.  On the linear chain S4, compilation yields the task order
`A, B, C, D`, latencies `0, 4, 10, 19`, delay `0` on every edge, and at
most two buffers, since finalising a node's inputs drops the claim handles
and frees their buffers for reuse. -/
theorem compile_linear_chain :
    addSinkNode gS4 100 SchedState.empty 3 = .ok st4 ∧
    interLat st4.inter 0 = 0 ∧ interLat st4.inter 1 = 4 ∧
    interLat st4.inter 2 = 10 ∧ interLat st4.inter 3 = 19 ∧
    st4.compile gS4 = some sched4 ∧
    sched4.tasks = [.node 0, .node 1, .node 2, .node 3] ∧
    lookupA sched4.nodeIO 1 =
      some ⟨[(0, some (.graphNode 0 0 0))], [(0, some ⟨1, 0⟩)]⟩ ∧
    lookupA sched4.nodeIO 2 =
      some ⟨[(0, some (.graphNode 0 1 0))], [(0, some ⟨0, 0⟩)]⟩ ∧
    lookupA sched4.nodeIO 3 =
      some ⟨[(0, some (.graphNode 0 2 0))], []⟩ ∧
    sched4.numBuffers ≤ 2 := by
  decide

/-! ## Invariants of the concrete scenario states -/

theorem st4_inv : SchedInv gS4 st4 (fun _ => False) := by
  have hok : addSinkNode gS4 100 SchedState.empty 3 = .ok st4 := by decide
  exact (@addSinkNode_master gS4 id (by decide) (by decide) 100
    SchedState.empty 3 st4 (fun _ => False) hok (schedInv_empty gS4)
    (fun x hx => hx.elim)).1

theorem st4_tidy : TidyInter st4.inter :=
  tidy_addSinkNode gS4 100 SchedState.empty 3 st4 (by decide) tidyInter_empty

theorem st5_inv : SchedInv gS5 st5 (fun _ => False) := by
  have hok : addSinkNode gS5 100 SchedState.empty 3 = .ok st5 := by decide
  exact (@addSinkNode_master gS5 id (by decide) (by decide) 100
    SchedState.empty 3 st5 (fun _ => False) hok (schedInv_empty gS5)
    (fun x hx => hx.elim)).1

theorem st5_tidy : TidyInter st5.inter :=
  tidy_addSinkNode gS5 100 SchedState.empty 3 st5 (by decide) tidyInter_empty

theorem st7_inv : SchedInv gS7 st7 (fun _ => False) := by
  have hok : addSinkNode gS7 100 SchedState.empty 2 = .ok st7 := by decide
  exact (@addSinkNode_master gS7 id (by decide) (by decide) 100
    SchedState.empty 2 st7 (fun _ => False) hok (schedInv_empty gS7)
    (fun x hx => hx.elim)).1

theorem st7_tidy : TidyInter st7.inter :=
  tidy_addSinkNode gS7 100 SchedState.empty 2 st7 (by decide) tidyInter_empty

/-! ## Witnesses instantiating the claim theorems -/

theorem addSinkNode_latencies_witness :
    gS4.wfB = true ∧ gS4.rankedB id = true ∧
    addSinkNode gS4 100 SchedState.empty 3 = .ok st4 ∧
    ((∀ x r, lookupA st4.inter x = some r → ∃ gn, gS4.getNode x = some gn ∧
      r.maxDelay = maxInLatSpec gS4 st4.inter gn) ∧
     (∀ x r gn, lookupA st4.inter x = some r → gS4.getNode x = some gn →
      (∀ ip port, (ip, port) ∈ gn.inputs → port.conns = []) →
      r.maxDelay = 0)) := by
  have hok : addSinkNode gS4 100 SchedState.empty 3 = .ok st4 := by decide
  exact ⟨by decide, by decide, hok,
    @addSinkNode_latencies gS4 id 100 SchedState.empty st4 3 (fun _ => False)
      (by decide) (by decide)
      (schedInv_empty gS4) (fun x hx => hx.elim) hok⟩

theorem compile_delay_chains_witness :
    gS4.wfB = true ∧ st4.compile gS4 = some sched4 ∧
    UsedEdge st4.inter 0 0 1 0 ∧
    (interLat st4.inter 0 + latOf gS4 0 0 ≤ interLat st4.inter 1 ∧
     ∃ nio src, lookupA sched4.nodeIO 1 = some nio ∧
       lookupA nio.inputs 0 = some (some src) ∧
       (0, 0, delaySpec gS4 st4.inter 0 0 1) ∈
         chainList sched4.sumNodes sched4.sumNodes.length src ∧
       delaySpec gS4 st4.inter 0 0 1 + (interLat st4.inter 0 + latOf gS4 0 0) =
         interLat st4.inter 1) := by
  have hedge : UsedEdge st4.inter 0 0 1 0 :=
    ⟨⟨0, [(0, ⟨[(1, [0])]⟩)]⟩, by decide, ⟨[(1, [0])]⟩, [0], by decide,
      by decide, by decide⟩
  exact ⟨by decide, by decide, hedge,
    compile_delay_chains (by decide) st4_inv st4_tidy (by decide) 0 0 1 0 hedge⟩

theorem compile_topological_witness :
    gS4.wfB = true ∧ st4.compile gS4 = some sched4 ∧
    ((∀ u o v i, UsedEdge st4.inter u o v i →
      beforeL sched4.tasks (Task.node u) (Task.node v)) ∧
     (∀ (k : Nat) (sm : SumNode) (d u o : Nat), sched4.sumNodes[k]? = some sm →
      sm.summands.2 = .graphNode d u o →
      beforeL sched4.tasks (Task.node u) (Task.sum k) ∧
      ∀ v i, UsedEdge st4.inter u o v i →
        beforeL sched4.tasks (Task.sum k) (Task.node v))) :=
  ⟨by decide, by decide, compile_topological (by decide) st4_inv (by decide)⟩

theorem tryInsertEdgeAcyclic_cycle_spec_witness :
    gS4.wfB = true ∧ gS4.rankedB id = true ∧ id 0 < 10 ∧
    (((∃ g₂, gS4.tryInsertEdgeAcyclic 10 0 0 3 0 = some (Except.error true, g₂)) ↔
      (gS4.canInsertEdge 0 0 3 0 = true ∧ gS4.Reaches 3 0)) ∧
     (∀ e g₂, gS4.tryInsertEdgeAcyclic 10 0 0 3 0 = some (Except.error e, g₂) →
       g₂ = gS4) ∧
     (∀ isNew g', gS4.tryInsertEdgeAcyclic 10 0 0 3 0 = some (Except.ok isNew, g') →
       g'.wfB = true ∧ g'.Acyclic) ∧
     (∀ u o' i', ¬ gS4.HasEdge u o' u i')) :=
  ⟨by decide, by decide, by decide,
    tryInsertEdgeAcyclic_cycle_spec gS4 id 10 0 0 3 0 (by decide) (by decide)
      (by decide)⟩

theorem compile_sum_counts_witness :
    gS5.wfB = true ∧ st5.compile gS5 = some sched5 ∧
    ((∀ v nio i src, lookupA sched5.nodeIO v = some nio →
      lookupA nio.inputs i = some (some src) →
      (∀ u o d, (u, o, d) ∈ chainList sched5.sumNodes sched5.sumNodes.length src ↔
        (UsedEdge st5.inter u o v i ∧ d = delaySpec gS5 st5.inter u o v)) ∧
      ((chainList sched5.sumNodes sched5.sumNodes.length src).map
        (fun t => (t.1, t.2.1))).Nodup ∧
      (chainSums sched5.sumNodes sched5.sumNodes.length src).Nodup ∧
      (chainSums sched5.sumNodes sched5.sumNodes.length src).length + 1 =
        (chainList sched5.sumNodes sched5.sumNodes.length src).length ∧
      (∀ k ∈ chainSums sched5.sumNodes sched5.sumNodes.length src,
        k < sched5.sumNodes.length ∧ Task.sum k ∈ sched5.tasks ∧
        ∃ sm, sched5.sumNodes[k]? = some sm ∧
          (∀ j2, sm.summands.1 = .sumNode j2 → j2 < k) ∧
          ∃ d u o, sm.summands.2 = .graphNode d u o ∧
            UsedEdge st5.inter u o v i ∧ d = delaySpec gS5 st5.inter u o v)) ∧
    (addSinkNode gS5 100 SchedState.empty 3 = .ok st5 ∧
      interLat st5.inter 3 = 13 ∧
      st5.compile gS5 = some sched5 ∧
      sched5.sumNodes.length = 2 ∧
      (sched5.tasks.filter (fun t => match t with
        | Task.sum _ => true
        | _ => false)).length = 2 ∧
      lookupA sched5.nodeIO 3 = some ⟨[(0, some (.sumNode 1))], []⟩ ∧
      chainList sched5.sumNodes sched5.sumNodes.length (.sumNode 1) =
        [(0, 0, 7), (1, 0, 5), (2, 0, 0)] ∧
      7 = 13 - latOf gS5 0 0 ∧ 5 = 13 - latOf gS5 1 0 ∧
      0 = 13 - latOf gS5 2 0) ∧
    (addSinkNode gS7 100 SchedState.empty 2 = .ok st7 ∧
      interLat st7.inter 2 = 7 ∧
      st7.compile gS7 = some sched7 ∧
      sched7.sumNodes.length = 1 ∧
      (sched7.tasks.filter (fun t => match t with
        | Task.sum _ => true
        | _ => false)).length = 1 ∧
      sched7.sumNodes = [⟨(.graphNode 4 0 0, .graphNode 0 1 0), 1⟩] ∧
      4 = 7 - latOf gS7 0 0 ∧ 0 = 7 - latOf gS7 1 0)) :=
  ⟨by decide, by decide,
    compile_sum_counts (by decide) st5_inv st5_tidy (by decide)⟩

theorem compile_unused_outputs_witness :
    gS7.wfB = true ∧ st7.compile gS7 = some sched7 ∧
    (keysA sched7.nodeIO = st7.order ∧
     (∀ x, Task.node x ∈ sched7.tasks → x ∈ st7.order) ∧
     (∀ v nio, lookupA sched7.nodeIO v = some nio →
       ∃ gn, gS7.getNode v = some gn ∧
         keysA nio.outputs = keysA gn.outLats ∧
         ∀ o lat, (o, lat) ∈ gn.outLats →
           (lookupA nio.outputs o = some none ↔
             ¬ ∃ w i, UsedEdge st7.inter v o w i))) :=
  ⟨by decide, by decide,
    compile_unused_outputs (by decide) st7_inv st7_tidy (by decide)⟩

theorem tryInsertEdgeAcyclic_idem_witness :
    gS4.wfB = true ∧ gS4.rankedB id = true ∧
    gS4.tryInsertEdgeAcyclic 10 0 0 3 0 = some (Except.ok true, gS4b) ∧
    ∃ fuel₂, gS4b.tryInsertEdgeAcyclic fuel₂ 0 0 3 0 =
      some (Except.ok false, gS4b) := by
  have h1 : gS4.tryInsertEdgeAcyclic 10 0 0 3 0 = some (Except.ok true, gS4b) :=
    rfl
  exact ⟨by decide, by decide, h1,
    tryInsertEdgeAcyclic_idem gS4 id 10 0 0 3 0 (by decide) (by decide) h1⟩

theorem addSinkNode_panic_spec_witness :
    gS4.wfB = true ∧ gS4.rankedB id = true ∧
    ((gS4.getNode 7 = none → addSinkNode gS4 (100 + 1) SchedState.empty 7 = .panic) ∧
     (∀ st (pend : Nat → Prop), (gS4.getNode 7).isSome → id 7 < 100 →
       SchedInv gS4 st pend → (∀ x, pend x → id 7 < id x) →
       ∃ st', addSinkNode gS4 100 st 7 = .ok st')) :=
  ⟨by decide, by decide,
    @addSinkNode_panic_spec gS4 id 100 7 (by decide) (by decide)⟩

theorem addSinkNode_terminates_witness :
    gS4.wfB = true ∧ gS4.rankedB id = true ∧
    ((∀ fuel st n (pend : Nat → Prop), id n < fuel → (gS4.getNode n).isSome →
      SchedInv gS4 st pend → (∀ x, pend x → id n < id x) →
      ∃ st', addSinkNode gS4 fuel st n = .ok st' ∧ st'.order = keysA st'.inter ∧
        st'.order.Nodup ∧ n ∈ keysA st'.inter ∧
        (∀ x, gS4.Reaches x n → x ∈ keysA st'.inter) ∧
        ∃ Δ, st'.order = st.order ++ Δ ∧ ∀ x ∈ Δ, gS4.Reaches x n) ∧
     (∀ fuel st n, (lookupA st.inter n).isSome →
       addSinkNode gS4 (fuel + 1) st n = .ok st) ∧
     (∀ fuel frm tgt, id frm < fuel → (gS4.getNode frm).isSome →
       ∃ b, gS4.isConnected fuel frm tgt = some b)) :=
  ⟨by decide, by decide, addSinkNode_terminates (by decide) (by decide)⟩

end Polygraph
